import Mathlib

/-!
# NanoQR: the bit codec and the seeded grid generator of `script.js`

A shallow embedding of the pure parts of `class NanoQRSystem`.

* A JavaScript string of generated characters (`'0'`, `'1'`, hex digits) is a
  `List Char`, one `Char` per UTF-16 code unit.
* The text typed by the user is the list of its UTF-16 code units
  (`charCodeAt`), each a natural number below `65536`.
* Canvas sizes are natural numbers (`canvas.width` is an unsigned integer).
* A Number is an IEEE 754 double: `JSNum` holds the exact rational value of a
  finite double, and every arithmetic result is rounded to the nearest double
  (`roundF64`), so that integers from `2 ^ 53` on behave as they do at run time.
-/

namespace NanoQR

/-! ## String primitives of the host language -/

/-- The call `s.substring(a, b)`: the code units from `min a b` up to `max a b`,
both clamped to the length of `s`. -/
def substring (s : List Char) (a b : Nat) : List Char :=
  (s.take (max a b)).drop (min a b)

/-- The call `s.padStart(n, c)` for a one-character filler `c`. -/
def padStart (n : Nat) (c : Char) (s : List Char) : List Char :=
  List.replicate (n - s.length) c ++ s

/-- The call `s.padEnd(n, c)` for a one-character filler `c`. -/
def padEnd (n : Nat) (c : Char) (s : List Char) : List Char :=
  s ++ List.replicate (n - s.length) c

/-- The call `k.toString(radix)` for a non-negative integer `k` (lower-case digits). -/
def toStringRadix (radix k : Nat) : List Char :=
  Nat.toDigits radix k

/-- The call `parseInt(c)` for a one-character string `c` (radix 10): the digit value,
or `none` for `NaN` when `c` is not a decimal digit. -/
def parseIntChar (c : Char) : Option Nat :=
  if c.isDigit then some (c.toNat - 48) else none

/-- The integer conversion applied by `|` to its operand: `NaN` becomes `0`, and a
digit value (below `2 ^ 31`) is unchanged. -/
def toInt32 : Option Nat → Nat
  | some d => d % 2 ^ 32
  | none => 0

/-! ## `textToBits` -/

/-- Source function `textToBits(text)`: for each code unit in order, append
`charCode.toString(2).padStart(8, '0')`. -/
def textToBits (text : List Nat) : List Char :=
  text.foldl (fun bits charCode => bits ++ padStart 8 '0' (toStringRadix 2 charCode)) []

/-- Source function `updateInputBits(text)`: the number written to the input-bit readout. -/
def updateInputBits (text : List Nat) : Nat :=
  text.length * 8

/-! ## `compressBits` -/

/-- The inner loop of `compressBits`:
`hash = ((hash << 1) | parseInt(block[j])) & 0x1` over the block, from `hash = 0`. -/
def blockHash (block : List Char) : Nat :=
  block.foldl (fun hash c => ((hash <<< 1) ||| toInt32 (parseIntChar c)) &&& 1) 0

/-- The outer loop of `compressBits`, `for (i; i < bits.length; i += 24)`,
with the loop counter `i` and the accumulated output; `fuel` bounds the number
of iterations. -/
def compressLoop (bits : List Char) : Nat → Nat → List Char → List Char
  | 0, _, compressed => compressed
  | fuel + 1, i, compressed =>
    if i < bits.length then
      let block := substring bits i (i + 24)
      let hash := blockHash block
      compressLoop bits fuel (i + 24) (compressed ++ toStringRadix 10 hash)
    else compressed

/-- Source function `compressBits(bits)`. The loop body runs at most `bits.length` times. -/
def compressBits (bits : List Char) : List Char :=
  compressLoop bits bits.length 0 []

/-- A string over the two characters `'0'` and `'1'`. -/
def IsBits (s : List Char) : Prop :=
  ∀ c ∈ s, c = '0' ∨ c = '1'

instance (s : List Char) : Decidable (IsBits s) := by
  unfold IsBits; infer_instance

/-- The base-2 value of a string over `'0'`, `'1'`, most significant digit first
(any character other than `'1'` counts as a zero digit). -/
def binaryValue (s : List Char) : Nat :=
  s.foldl (fun v c => 2 * v + (if c = '1' then 1 else 0)) 0

/-- The 8-character group `charCode.toString(2).padStart(8, '0')` that
`textToBits` appends for one code unit. -/
def byteBits (charCode : Nat) : List Char :=
  padStart 8 '0' (toStringRadix 2 charCode)

/-- The character appended by the iteration of `compressBits` that starts at index `i`. -/
def blockChar (bits : List Char) (i : Nat) : Char :=
  Nat.digitChar (blockHash (substring bits i (i + 24)))

/-! ## Numbers of the host language

A JavaScript Number is an IEEE 754 double. A finite one is represented by its
exact rational value; the sign of a zero is not represented. -/

/-- A JavaScript Number: a finite double (given by its exact value),
`Infinity`, `-Infinity`, or `NaN`. -/
inductive JSNum where
  | num (q : ℚ)
  | inf
  | ninf
  | nan
  deriving DecidableEq

/-- The integer nearest to `x / y` (for `0 < y`), ties going to the even one. -/
def roundHalfEven (x y : Nat) : Nat :=
  let q := x / y
  let r := x % y
  if 2 * r < y then q
  else if 2 * r = y then (if q % 2 = 0 then q else q + 1)
  else q + 1

/-- The least `sh` from the start value on with `a < b * 2 ^ (53 + sh)`;
`fuel` bounds the search. -/
def scaleDown (a b : Nat) : Nat → Nat → Nat
  | 0, sh => sh
  | fuel + 1, sh => if a < b * 2 ^ (53 + sh) then sh else scaleDown a b fuel (sh + 1)

/-- The greatest `t` from the start value on, at most start + `fuel`, with
`a * 2 ^ t < b * 2 ^ 53` (the start value itself is not tested). -/
def scaleUp (a b : Nat) : Nat → Nat → Nat
  | 0, t => t
  | fuel + 1, t => if a * 2 ^ (t + 1) < b * 2 ^ 53 then scaleUp a b fuel (t + 1) else t

/-- The double nearest to `a / b` when `b * 2 ^ 53 ≤ a`: an integer, a 53-bit
significand `m` times `2 ^ sh`; `none` stands for `Infinity`, reached from
`2 ^ 1024` on. -/
def roundLarge (a b : Nat) : Option Nat :=
  let sh := scaleDown a b 972 0
  let m := roundHalfEven a (b * 2 ^ sh)
  if m * 2 ^ sh < 2 ^ 1024 then some (m * 2 ^ sh) else none

/-- The double nearest to the non-negative rational `a / b` (round to nearest,
ties to even): a 53-bit significand times a power of two, the exponent of the
last place being at least `-1074`. -/
def roundNonneg (a b : Nat) : JSNum :=
  if b * 2 ^ 53 ≤ a then
    match roundLarge a b with
    | some k => JSNum.num (k : ℚ)
    | none => JSNum.inf
  else
    let t := scaleUp a b 1074 0
    let m := roundHalfEven (a * 2 ^ t) b
    JSNum.num ((m : ℚ) / ((2 ^ t : Nat) : ℚ))

/-- The double nearest to a non-negative real result `q`. -/
def roundF64 (q : ℚ) : JSNum :=
  roundNonneg q.num.natAbs q.den

/-- The operation `-a`. -/
def JSNum.neg : JSNum → JSNum
  | .num a => .num (-a)
  | .inf => .ninf
  | .ninf => .inf
  | .nan => .nan

/-- The double nearest to a real result `q` of either sign: the magnitude is
rounded and the sign restored. -/
def roundSigned (q : ℚ) : JSNum :=
  if q < 0 then (roundF64 (-q)).neg else roundF64 q

/-- The infinity of the sign of `s` (`NaN` for `s = 0`). -/
def infOfSign (s : ℚ) : JSNum :=
  if s = 0 then .nan else if 0 < s then .inf else .ninf

/-- The operation `a * b`. -/
def JSNum.mul : JSNum → JSNum → JSNum
  | .num a, .num b => roundSigned (a * b)
  | .num a, .inf => infOfSign a
  | .inf, .num b => infOfSign b
  | .num a, .ninf => infOfSign (-a)
  | .ninf, .num b => infOfSign (-b)
  | .inf, .inf => .inf
  | .ninf, .ninf => .inf
  | .inf, .ninf => .ninf
  | .ninf, .inf => .ninf
  | _, _ => .nan

/-- The operation `a + b`. -/
def JSNum.add : JSNum → JSNum → JSNum
  | .num a, .num b => roundSigned (a + b)
  | .nan, _ => .nan
  | _, .nan => .nan
  | .inf, .ninf => .nan
  | .ninf, .inf => .nan
  | .ninf, _ => .ninf
  | _, .ninf => .ninf
  | _, _ => .inf

/-- The operation `a - b`. -/
def JSNum.sub (a b : JSNum) : JSNum :=
  a.add b.neg

/-- The integer part of `q`, towards zero. -/
def truncQ (q : ℚ) : ℤ :=
  if 0 ≤ q then ⌊q⌋ else ⌈q⌉

/-- The operation `a % b`: the remainder of the truncated division, which is
exact. -/
def JSNum.mod : JSNum → JSNum → JSNum
  | .num a, .num b => if b = 0 then .nan else .num (a - b * ((truncQ (a / b) : ℤ) : ℚ))
  | .num a, .inf => .num a
  | .num a, .ninf => .num a
  | _, _ => .nan

/-- The operation `a / b`. -/
def JSNum.div : JSNum → JSNum → JSNum
  | .num a, .num b => if b = 0 then infOfSign a else roundSigned (a / b)
  | .num _, .inf => .num 0
  | .num _, .ninf => .num 0
  | .inf, .num b => if 0 ≤ b then .inf else .ninf
  | .ninf, .num b => if 0 ≤ b then .ninf else .inf
  | _, _ => .nan

/-- The operation `a > b`; a comparison with `NaN` is false. -/
def JSNum.gt : JSNum → JSNum → Bool
  | .num a, .num b => decide (b < a)
  | .inf, .num _ => true
  | .inf, .ninf => true
  | .num _, .ninf => true
  | _, _ => false

/-- The call `Math.min(a, b)`. -/
def JSNum.min : JSNum → JSNum → JSNum
  | .nan, _ => .nan
  | _, .nan => .nan
  | .ninf, _ => .ninf
  | _, .ninf => .ninf
  | .inf, b => b
  | a, .inf => a
  | .num a, .num b => if a ≤ b then .num a else .num b

/-! ## `bitsToHex` and the seed -/

/-- The call `parseInt(s, 2)` for a string that starts with neither white space nor a
sign (the program passes strings over `'0'`, `'1'` only): the longest prefix of
binary digits is read in base 2 and converted to the nearest double; `NaN`
when that prefix is empty. -/
def parseInt2 (s : List Char) : JSNum :=
  let digits := s.takeWhile (fun c => c == '0' || c == '1')
  if digits = [] then JSNum.nan else roundF64 (binaryValue digits : ℚ)

/-- The call `v.toString(16)`; for a finite `v` the digits of its integer part (the
program calls it on integers and on `NaN` only). -/
def JSNum.toString16 : JSNum → List Char
  | .num q => toStringRadix 16 (q.num.natAbs / q.den)
  | .inf => ['I', 'n', 'f', 'i', 'n', 'i', 't', 'y']
  | .ninf => ['-', 'I', 'n', 'f', 'i', 'n', 'i', 't', 'y']
  | .nan => ['N', 'a', 'N']

/-- The call `s.toUpperCase()` on the characters that occur here. -/
def toUpperCase (s : List Char) : List Char :=
  s.map Char.toUpper

/-- The loop of `bitsToHex`, `for (i; i < bits.length; i += 4)`, with the loop
counter `i` and the accumulated output; `fuel` bounds the number of iterations. -/
def hexLoop (bits : List Char) : Nat → Nat → List Char → List Char
  | 0, _, hex => hex
  | fuel + 1, i, hex =>
    if i < bits.length then
      let nibble := padEnd 4 '0' (substring bits i (i + 4))
      hexLoop bits fuel (i + 4) (hex ++ toUpperCase (parseInt2 nibble).toString16)
    else hex

/-- Source function `bitsToHex(bits)`. The loop body runs at most `bits.length` times. -/
def bitsToHex (bits : List Char) : List Char :=
  hexLoop bits bits.length 0 []

/-- The upper-case hexadecimal digit of a value below 16. -/
def upperHexDigit (v : Nat) : Char :=
  ['0', '1', '2', '3', '4', '5', '6', '7', '8', '9', 'A', 'B', 'C', 'D', 'E', 'F'].getD v '?'

/-- The 4-character block that the iteration of `bitsToHex` starting at index
`i` reads: `bits.substring(i, i + 4).padEnd(4, '0')`. -/
def nibbleAt (bits : List Char) (i : Nat) : List Char :=
  padEnd 4 '0' (substring bits i (i + 4))

/-- Truthiness of a number: `0` and `NaN` are falsy. -/
def JSNum.truthy : JSNum → Bool
  | .num q => decide (q ≠ 0)
  | .inf => true
  | .ninf => true
  | .nan => false

/-- The operation `a || b` on numbers. -/
def JSNum.orElse (a b : JSNum) : JSNum :=
  if a.truthy then a else b

/-- The seed of `generateLabyrinthFromData`: `parseInt(bits, 2) || 12345`. -/
def dataSeed (bits : List Char) : JSNum :=
  (parseInt2 bits).orElse (JSNum.num 12345)

/-! ## The seeded generator and the grids -/

/-- The closure returned by `seededRandom`: its captured variable `state`. -/
structure Rng where
  state : JSNum

/-- Source function `seededRandom(seed)`: `let state = seed`. -/
def seededRandom (seed : JSNum) : Rng :=
  { state := seed }

/-- One call of the closure: `state = (state * 9301 + 49297) % 233280;
return state / 233280`. Gives the returned value and the closure afterwards. -/
def Rng.call (rng : Rng) : JSNum × Rng :=
  let state := ((rng.state.mul (JSNum.num 9301)).add (JSNum.num 49297)).mod (JSNum.num 233280)
  (state.div (JSNum.num 233280), { state := state })

/-- The closure after `n` calls. -/
def Rng.after (rng : Rng) : Nat → Rng
  | 0 => rng
  | n + 1 => (rng.after n).call.2

/-- The value returned by call number `n + 1`. -/
def Rng.output (rng : Rng) (n : Nat) : JSNum :=
  (rng.after n).call.1

/-- The object `{ maze, cellSize, cols, rows }`. -/
structure Labyrinth where
  maze : List (List Nat)
  cellSize : Nat
  cols : Nat
  rows : Nat
  deriving DecidableEq

/-- The assignment `a[i] = v` on a dense array, for `i ≤ a.length`
(the index `a.length` appends). -/
def arraySet {α : Type} (a : List α) (i : Nat) (v : α) : List α :=
  if i < a.length then a.set i v else a ++ [v]

/-- The inner loop of `createLabyrinthFromSeed`:
`for (x = 0; x < cols; x++) row[x] = rng() > 0.5 ? 1 : 0`, from the empty row. -/
def seedRow (cols : Nat) (rng : Rng) : List Nat × Rng :=
  (List.range cols).foldl
    (fun (st : List Nat × Rng) x =>
      let r := st.2.call
      (arraySet st.1 x (if r.1.gt (JSNum.num (1 / 2)) then 1 else 0), r.2))
    ([], rng)

/-- Source function `createLabyrinthFromSeed(width, height, seed)`. -/
def createLabyrinthFromSeed (width height : Nat) (seed : JSNum) : Labyrinth :=
  let cellSize := 2
  let cols := width / cellSize
  let rows := height / cellSize
  let rng := seededRandom seed
  let result := (List.range rows).foldl
    (fun (st : List (List Nat) × Rng) y =>
      let r := seedRow cols st.2
      (arraySet st.1 y r.1, r.2))
    ([], rng)
  { maze := result.1, cellSize := cellSize, cols := cols, rows := rows }

/-- Source function `cryptoPattern(x, y, cols, rows)`: `combined > 0 ? 1 : 0`, where `combined`
is a floating-point average of sines and cosines of `x` and `y`; the outcome
of the test `combined > 0` at `(x, y)` is the parameter `positive`. -/
def cryptoPattern (positive : Nat → Nat → Bool) (x y _cols _rows : Nat) : Nat :=
  if positive x y then 1 else 0

/-- Source function `createComplexLabyrinth(width, height)`. -/
def createComplexLabyrinth (positive : Nat → Nat → Bool) (width height : Nat) : Labyrinth :=
  let cellSize := 2
  let cols := width / cellSize
  let rows := height / cellSize
  let maze := (List.range rows).foldl
    (fun (maze : List (List Nat)) y =>
      arraySet maze y
        ((List.range cols).foldl
          (fun (row : List Nat) x => arraySet row x (cryptoPattern positive x y cols rows)) []))
    []
  { maze := maze, cellSize := cellSize, cols := cols, rows := rows }

/-- Source function `generateLabyrinthFromData(bits)`: the new value of `labyrinthData` on a
canvas of the given size. -/
def generateLabyrinthFromData (width height : Nat) (bits : List Char) : Labyrinth :=
  createLabyrinthFromSeed width height (dataSeed bits)

/-- The exact recurrence `state (n + 1) = (state n * 9301 + 49297) mod 233280`
on the integers, from `state 0 = seed`. -/
def lcgExact (seed : Nat) : Nat → Nat
  | 0 => seed
  | n + 1 => (lcgExact seed n * 9301 + 49297) % 233280

/-- The cell written for a returned value `v`: `v > 0.5 ? 1 : 0`. -/
def cellOf (v : JSNum) : Nat :=
  if v.gt (JSNum.num (1 / 2)) then 1 else 0

/-- The cell at column `x` of row `y`, if the grid has one. -/
def Labyrinth.cell (g : Labyrinth) (x y : Nat) : Option Nat :=
  g.maze[y]?.bind (fun row => row[x]?)

/-- The shape required of a grid made for a `width` by `height` surface:
`cellSize = 2`, `cols = floor(width/2)`, `rows = floor(height/2)`, exactly
`rows` rows of exactly `cols` cells, every cell 0 or 1, and no cell at all when
`cols = 0` or `rows = 0`. -/
def GridShape (g : Labyrinth) (width height : Nat) : Prop :=
  g.cellSize = 2 ∧ g.cols = width / 2 ∧ g.rows = height / 2 ∧
  g.maze.length = g.rows ∧
  (∀ row ∈ g.maze, row.length = g.cols ∧ ∀ v ∈ row, v = 0 ∨ v = 1) ∧
  (g.cols = 0 ∨ g.rows = 0 → g.maze.flatten = [])

/-! ## The page: drawing contexts, readouts and the state of `NanoQRSystem`

A drawing context records what has been painted on its canvas, each shape with
the style in force when it was painted. A colour is represented by the numbers
that the program puts into the colour string. -/

/-- A colour given to `fillStyle` or `strokeStyle`: `'#000000'`,
`rgba(r, g, b, alpha)` or `hsla(hue, saturation%, lightness%, alpha)`. -/
inductive Style where
  | black
  | rgba (r g b : Nat) (alpha : JSNum)
  | hsla (hue saturation lightness : Nat) (alpha : JSNum)
  deriving DecidableEq

/-- A painted shape: a filled rectangle, or a stroked path (a list of subpaths,
each a list of points). -/
inductive Shape where
  | rect (style : Style) (x y w h : JSNum)
  | stroke (style : Style) (lineWidth : JSNum) (path : List (List (JSNum × JSNum)))
  deriving DecidableEq

/-- A 2D drawing context: current styles, current path, and the shapes painted
so far, oldest first. -/
structure Ctx where
  fillStyle : Style
  strokeStyle : Style
  lineWidth : JSNum
  path : List (List (JSNum × JSNum))
  painted : List Shape

/-- The assignment `ctx.fillStyle = style`. -/
def Ctx.setFillStyle (ctx : Ctx) (style : Style) : Ctx :=
  { ctx with fillStyle := style }

/-- The assignment `ctx.strokeStyle = style`. -/
def Ctx.setStrokeStyle (ctx : Ctx) (style : Style) : Ctx :=
  { ctx with strokeStyle := style }

/-- The assignment `ctx.lineWidth = w`. -/
def Ctx.setLineWidth (ctx : Ctx) (w : JSNum) : Ctx :=
  { ctx with lineWidth := w }

/-- The call `ctx.fillRect(x, y, w, h)`. -/
def Ctx.fillRect (ctx : Ctx) (x y w h : JSNum) : Ctx :=
  { ctx with painted := ctx.painted ++ [Shape.rect ctx.fillStyle x y w h] }

/-- The call `ctx.beginPath()`. -/
def Ctx.beginPath (ctx : Ctx) : Ctx :=
  { ctx with path := [] }

/-- The call `ctx.moveTo(x, y)`: a new subpath starting at the point. -/
def Ctx.moveTo (ctx : Ctx) (x y : JSNum) : Ctx :=
  { ctx with path := ctx.path ++ [[(x, y)]] }

/-- The call `ctx.lineTo(x, y)`: the point is added to the last subpath (to a
new one when there is none). -/
def Ctx.lineTo (ctx : Ctx) (x y : JSNum) : Ctx :=
  match ctx.path.getLast? with
  | none => { ctx with path := [[(x, y)]] }
  | some last => { ctx with path := ctx.path.dropLast ++ [last ++ [(x, y)]] }

/-- The call `ctx.stroke()`. -/
def Ctx.stroke (ctx : Ctx) : Ctx :=
  { ctx with painted := ctx.painted ++ [Shape.stroke ctx.strokeStyle ctx.lineWidth ctx.path] }

/-- A canvas element: its size and its drawing context. -/
structure Canvas where
  width : Nat
  height : Nat
  ctx : Ctx

/-- The fields of `NanoQRSystem` and the parts of the page it reads and writes.
A readout is `none` until the program writes it, then the number or string put
into its text. -/
structure SystemState where
  labyrinthCanvas : Canvas
  zoomedCanvas : Canvas
  zoomLevel : Int
  labyrinthData : Option Labyrinth
  dataInput : List Nat
  inputBits : Option Nat
  outputBits : Option Nat
  compressionRatio : Option JSNum
  encodedData : Option (List Char)
  zoomLevelText : Option Int
  detailsVisible : Option JSNum
  zoomedViewActive : Bool
  alerts : Nat

/-- The result of running a method: the state it leaves and whether it ended
by raising a `TypeError`. -/
structure Outcome where
  state : SystemState
  threw : Bool

/-- The value `cellSize * (1 + (zoomFactor - 1) * 0.5)` of `updateZoomedView`. -/
def zoomedCellSizeOf (cellSize : Nat) (zoomFactor : JSNum) : JSNum :=
  (JSNum.num cellSize).mul
    ((JSNum.num 1).add ((zoomFactor.sub (JSNum.num 1)).mul (JSNum.num (1 / 2))))

/-- The value `Math.min(1, zoomFactor / 20)` of `updateZoomedView`. -/
def opacityOf (zoomFactor : JSNum) : JSNum :=
  JSNum.min (JSNum.num 1) (zoomFactor.div (JSNum.num 20))

/-- The value `size / 2 - (count * zoomedCellSize) / 2` of `updateZoomedView`
(`offsetX` for the width and the row length, `offsetY` for the height and the
number of rows). -/
def offsetOf (size count : Nat) (zoomedCellSize : JSNum) : JSNum :=
  ((JSNum.num size).div (JSNum.num 2)).sub
    (((JSNum.num count).mul zoomedCellSize).div (JSNum.num 2))

/-- The cell loop of `updateZoomedView`: for every `y`, `x` with
`maze[y][x] === 1`, set the fill style to `hsla((x + y) % 360, 70%, 50%, opacity)`
and fill the scaled square of the cell. -/
def zoomCells (maze : List (List Nat)) (z opacity offsetX offsetY : JSNum) (ctx : Ctx) : Ctx :=
  (List.range maze.length).foldl
    (fun (ctx : Ctx) (y : Nat) =>
      (List.range (maze.getD y []).length).foldl
        (fun (ctx : Ctx) (x : Nat) =>
          if (maze.getD y []).getD x 0 = 1 then
            let hue := (x + y) % 360
            (ctx.setFillStyle (Style.hsla hue 70 50 opacity)).fillRect
              (offsetX.add ((JSNum.num x).mul z)) (offsetY.add ((JSNum.num y).mul z)) z z
          else ctx)
        ctx)
    ctx

/-- The grid-line part of `updateZoomedView`: stroke style and line width, one
horizontal line per `y` in `0 .. rows`, one vertical line per `x` in `0 .. cols`. -/
def zoomGrid (rows cols : Nat) (z opacity offsetX offsetY : JSNum) (ctx : Ctx) : Ctx :=
  let ctx := (ctx.setStrokeStyle
    (Style.rgba 102 126 234 (opacity.mul (roundF64 (3 / 10))))).setLineWidth (JSNum.num (1 / 2))
  let ctx := (List.range (rows + 1)).foldl
    (fun (ctx : Ctx) (y : Nat) =>
      (((ctx.beginPath).moveTo offsetX (offsetY.add ((JSNum.num y).mul z))).lineTo
        (offsetX.add ((JSNum.num cols).mul z)) (offsetY.add ((JSNum.num y).mul z))).stroke)
    ctx
  (List.range (cols + 1)).foldl
    (fun (ctx : Ctx) (x : Nat) =>
      (((ctx.beginPath).moveTo (offsetX.add ((JSNum.num x).mul z)) offsetY).lineTo
        (offsetX.add ((JSNum.num x).mul z)) (offsetY.add ((JSNum.num rows).mul z))).stroke)
    ctx

/-- Source function `updateZoomedView()`. The access `maze[0].length` raises a
`TypeError` when `maze` has no row. -/
def SystemState.updateZoomedView (st : SystemState) : Outcome :=
  let canvas := st.zoomedCanvas
  let ctx := (canvas.ctx.setFillStyle Style.black).fillRect
    (JSNum.num 0) (JSNum.num 0) (JSNum.num canvas.width) (JSNum.num canvas.height)
  match st.labyrinthData with
  | none => { state := { st with zoomedCanvas := { canvas with ctx := ctx } }, threw := false }
  | some data =>
    let maze := data.maze
    let zoomFactor := JSNum.num st.zoomLevel
    let z := zoomedCellSizeOf data.cellSize zoomFactor
    let opacity := opacityOf zoomFactor
    match maze.head? with
    | none => { state := { st with zoomedCanvas := { canvas with ctx := ctx } }, threw := true }
    | some row0 =>
      let offsetX := offsetOf canvas.width row0.length z
      let offsetY := offsetOf canvas.height maze.length z
      let ctx := zoomCells maze z opacity offsetX offsetY ctx
      let ctx :=
        if zoomFactor.gt (JSNum.num 10) then
          zoomGrid maze.length row0.length z opacity offsetX offsetY ctx
        else ctx
      { state := { st with
          zoomedCanvas := { canvas with ctx := ctx }
          zoomedViewActive := zoomFactor.gt (JSNum.num 5) },
        threw := false }

/-- Source function `drawInvisibleLabyrinth(ctx, labyrinthData, width, height)`. -/
def drawInvisibleLabyrinth (ctx : Ctx) (data : Labyrinth) : Ctx :=
  (List.range data.maze.length).foldl
    (fun (ctx : Ctx) (y : Nat) =>
      (List.range (data.maze.getD y []).length).foldl
        (fun (ctx : Ctx) (x : Nat) =>
          if (data.maze.getD y []).getD x 0 = 1 then
            (ctx.setFillStyle (Style.rgba 10 10 10 (roundF64 (1 / 10)))).fillRect
              ((JSNum.num x).mul (JSNum.num data.cellSize))
              ((JSNum.num y).mul (JSNum.num data.cellSize))
              (JSNum.num data.cellSize) (JSNum.num data.cellSize)
          else ctx)
        ctx)
    ctx

/-- Source function `generateLabyrinthFromData(bits)` on the state: the
labyrinth canvas is cleared, `labyrinthData` replaced and drawn. -/
def SystemState.generateLabyrinthFromData (st : SystemState) (bits : List Char) : SystemState :=
  let canvas := st.labyrinthCanvas
  let ctx := (canvas.ctx.setFillStyle Style.black).fillRect
    (JSNum.num 0) (JSNum.num 0) (JSNum.num canvas.width) (JSNum.num canvas.height)
  let data := NanoQR.generateLabyrinthFromData canvas.width canvas.height bits
  { st with
    labyrinthData := some data
    labyrinthCanvas := { canvas with ctx := drawInvisibleLabyrinth ctx data } }

/-- Source function `encodeData()`; the input is the value of the text field. -/
def SystemState.encodeData (st : SystemState) : Outcome :=
  let input := st.dataInput
  if input = [] then
    { state := { st with alerts := st.alerts + 1 }, threw := false }
  else
    let inputBits := textToBits input
    let encodedBits := compressBits inputBits
    let ratio := (JSNum.num inputBits.length).div (JSNum.num encodedBits.length)
    let encodedHex := bitsToHex encodedBits
    let st1 := { st with
      inputBits := some inputBits.length
      outputBits := some encodedBits.length
      compressionRatio := some ratio
      encodedData := some encodedHex }
    (st1.generateLabyrinthFromData encodedBits).updateZoomedView

/-- Source function `updateZoomInfo()`; the number kept for the details readout
is `Math.min(100, (zoomLevel / 100) * 100)`, before `Math.round`. -/
def SystemState.updateZoomInfo (st : SystemState) : SystemState :=
  let detailsPercent := JSNum.min (JSNum.num 100)
    (((JSNum.num st.zoomLevel).div (JSNum.num 100)).mul (JSNum.num 100))
  { st with zoomLevelText := some st.zoomLevel, detailsVisible := some detailsPercent }

/-- The listener of the zoom slider, for the integer `level` parsed from its
value: `zoomLevel = level; updateZoomInfo(); updateZoomedView()`. -/
def SystemState.onZoomInput (st : SystemState) (level : Int) : Outcome :=
  ({ st with zoomLevel := level }.updateZoomInfo).updateZoomedView

/-- Source function `updateInputBits(text)` on the state. -/
def SystemState.updateInputBits (st : SystemState) (text : List Nat) : SystemState :=
  { st with inputBits := some (NanoQR.updateInputBits text) }

/-- The listener of the text field, whose value has become `text`. -/
def SystemState.onDataInput (st : SystemState) (text : List Nat) : SystemState :=
  { st with dataInput := text }.updateInputBits text

/-- A drawing context on which nothing has been painted: the default styles
(black, line width 1) and an empty path. -/
def Ctx.initial : Ctx :=
  { fillStyle := Style.black, strokeStyle := Style.black, lineWidth := JSNum.num 1,
    path := [], painted := [] }

/-- The state set up by the first lines of the constructor, before `init()`:
`zoomLevel = 1`, `labyrinthData = null`, nothing painted or written; the two
canvases have the given sizes and the text field holds `text`. -/
def SystemState.fresh (width height zoomWidth zoomHeight : Nat) (text : List Nat) : SystemState :=
  { labyrinthCanvas := { width := width, height := height, ctx := Ctx.initial }
    zoomedCanvas := { width := zoomWidth, height := zoomHeight, ctx := Ctx.initial }
    zoomLevel := 1
    labyrinthData := none
    dataInput := text
    inputBits := none
    outputBits := none
    compressionRatio := none
    encodedData := none
    zoomLevelText := none
    detailsVisible := none
    zoomedViewActive := false
    alerts := 0 }

/-! ## The shapes of one zoom rendering -/

/-- The shape painted by the clearing `fillRect(0, 0, width, height)` with
`fillStyle = '#000000'`: an opaque rectangle over the whole surface. -/
def clearShape (width height : Nat) : Shape :=
  Shape.rect Style.black (JSNum.num 0) (JSNum.num 0) (JSNum.num width) (JSNum.num height)

/-- The rectangle of cell `(x, y)` in the zoom rendering. -/
def cellShape (z opacity offsetX offsetY : JSNum) (x y : Nat) : Shape :=
  Shape.rect (Style.hsla ((x + y) % 360) 70 50 opacity)
    (offsetX.add ((JSNum.num x).mul z)) (offsetY.add ((JSNum.num y).mul z)) z z

/-- The rectangles of the cells with value 1, row by row and column by column. -/
def cellShapes (maze : List (List Nat)) (z opacity offsetX offsetY : JSNum) : List Shape :=
  ((List.range maze.length).map
    (fun (y : Nat) => ((List.range (maze.getD y []).length).map
      (fun (x : Nat) =>
        if (maze.getD y []).getD x 0 = 1 then [cellShape z opacity offsetX offsetY x y]
        else [])).flatten)).flatten

/-- The stroke of one grid line from `(x1, y1)` to `(x2, y2)`. -/
def lineShape (opacity x1 y1 x2 y2 : JSNum) : Shape :=
  Shape.stroke (Style.rgba 102 126 234 (opacity.mul (roundF64 (3 / 10)))) (JSNum.num (1 / 2))
    [[(x1, y1), (x2, y2)]]

/-- The grid lines: `rows + 1` horizontal ones, then `cols + 1` vertical ones. -/
def gridShapes (rows cols : Nat) (z opacity offsetX offsetY : JSNum) : List Shape :=
  (List.range (rows + 1)).map
      (fun (y : Nat) => lineShape opacity offsetX (offsetY.add ((JSNum.num y).mul z))
        (offsetX.add ((JSNum.num cols).mul z)) (offsetY.add ((JSNum.num y).mul z))) ++
    (List.range (cols + 1)).map
      (fun (x : Nat) => lineShape opacity (offsetX.add ((JSNum.num x).mul z)) offsetY
        (offsetX.add ((JSNum.num x).mul z)) (offsetY.add ((JSNum.num rows).mul z)))

/-- The shapes that one zoom rendering of a grid with at least one row paints,
in order: the clearing rectangle, the cells with value 1, and the grid lines
when the level is above 10. -/
def zoomPainting (data : Labyrinth) (level : Int) (width height : Nat) : List Shape :=
  let z := zoomedCellSizeOf data.cellSize (JSNum.num level)
  let opacity := opacityOf (JSNum.num level)
  let cols := (data.maze.headD []).length
  let offsetX := offsetOf width cols z
  let offsetY := offsetOf height data.maze.length z
  clearShape width height :: cellShapes data.maze z opacity offsetX offsetY ++
    (if (JSNum.num (level : ℚ)).gt (JSNum.num 10) then
      gridShapes data.maze.length cols z opacity offsetX offsetY
    else [])

/-- What is visible on a surface after a sequence of paintings: the shapes from
the last opaque clearing of the whole surface on (everything painted before it
is covered). -/
def visible (width height : Nat) (painted : List Shape) : List Shape :=
  painted.foldl (fun acc s => if s = clearShape width height then [s] else acc ++ [s]) []

/-- The scaled cell size `cellSize * (1 + (level - 1) / 2)` as an exact rational. -/
def exactCellSize (cellSize : Nat) (level : Int) : ℚ :=
  (cellSize : ℚ) * (1 + ((level : ℚ) - 1) / 2)

/-- The centring offset `size / 2 - count * z / 2` as an exact rational. -/
def exactOffset (size count : Nat) (z : ℚ) : ℚ :=
  (size : ℚ) / 2 - (count : ℚ) * z / 2

/-! ## Facts about the string primitives -/

theorem substring_eq (s : List Char) (i k : Nat) :
    substring s i (i + k) = (s.take (i + k)).drop i := by
  simp [substring]

theorem hash_step (h d : Nat) : ((h <<< 1) ||| d) &&& 1 = d % 2 := by
  rw [Nat.and_one_is_mod, Nat.shiftLeft_eq]
  have h1 : (h * 2 ^ 1) % 2 = 0 := by omega
  rcases Nat.mod_two_eq_zero_or_one d with hd | hd
  · rcases Nat.mod_two_eq_zero_or_one (h * 2 ^ 1 ||| d) with hx | hx
    · omega
    · rcases Nat.or_mod_two_eq_one.mp hx with h2 | h2 <;> omega
  · rw [hd]
    exact Nat.or_mod_two_eq_one.mpr (Or.inr hd)

theorem blockHash_nil : blockHash [] = 0 := rfl

theorem blockHash_concat (block : List Char) (c : Char) :
    blockHash (block ++ [c]) = toInt32 (parseIntChar c) % 2 := by
  unfold blockHash
  rw [List.foldl_concat, hash_step]

theorem blockHash_lt_two (block : List Char) : blockHash block < 2 := by
  rcases List.eq_nil_or_concat block with h | ⟨l, c, h⟩
  · subst h; decide
  · subst h; rw [List.concat_eq_append, blockHash_concat]; omega

theorem blockHash_eq_getLast (block : List Char) :
    blockHash block =
      match block.getLast? with
      | none => 0
      | some c => toInt32 (parseIntChar c) % 2 := by
  rcases List.eq_nil_or_concat block with h | ⟨l, c, h⟩
  · subst h; rfl
  · subst h; rw [List.concat_eq_append, blockHash_concat]; simp

theorem toStringRadix_ten_of_lt_two (h : Nat) (hh : h < 2) :
    toStringRadix 10 h = [Nat.digitChar h] := by
  interval_cases h <;> rfl

theorem compressLoop_eq (bits : List Char) :
    ∀ (fuel i : Nat) (acc : List Char), bits.length ≤ i + 24 * fuel →
      compressLoop bits fuel i acc =
        acc ++ (List.range ((bits.length - i + 23) / 24)).map
          (fun k => blockChar bits (i + 24 * k)) := by
  intro fuel
  induction fuel with
  | zero =>
    intro i acc h
    have h0 : (bits.length - i + 23) / 24 = 0 := by omega
    simp [compressLoop, h0]
  | succ fuel ih =>
    intro i acc h
    unfold compressLoop
    by_cases hi : i < bits.length
    · have hn : (bits.length - i + 23) / 24 = (bits.length - (i + 24) + 23) / 24 + 1 := by omega
      rw [if_pos hi]
      simp only []
      rw [ih (i + 24) _ (by omega), hn, List.range_succ_eq_map,
        toStringRadix_ten_of_lt_two _ (blockHash_lt_two _)]
      simp only [List.map_cons, List.map_map, List.append_assoc, List.singleton_append,
        Nat.mul_zero, Nat.add_zero]
      congr 2
      apply List.map_congr_left
      intro k _
      simp only [Function.comp, Nat.succ_eq_add_one, blockChar]
      have : i + 24 + 24 * k = i + 24 * (k + 1) := by ring
      rw [this]
    · have h0 : (bits.length - i + 23) / 24 = 0 := by omega
      simp [hi, h0]

theorem compressBits_eq (bits : List Char) :
    compressBits bits =
      (List.range ((bits.length + 23) / 24)).map (fun k => blockChar bits (24 * k)) := by
  unfold compressBits
  rw [compressLoop_eq bits bits.length 0 [] (by omega)]
  simp

theorem compressBits_length (bits : List Char) :
    (compressBits bits).length = (bits.length + 23) / 24 := by
  simp [compressBits_eq]

theorem compressBits_getElem? (bits : List Char) (i : Nat) (hi : i < (bits.length + 23) / 24) :
    (compressBits bits)[i]? = some (blockChar bits (24 * i)) := by
  rw [compressBits_eq]
  simp [List.getElem?_map, List.getElem?_range hi]

theorem substring_getLast? (bits : List Char) (i : Nat) (hi : 24 * i < bits.length) :
    (substring bits (24 * i) (24 * i + 24)).getLast? =
      bits[min (24 * i + 23) (bits.length - 1)]? := by
  rw [substring_eq, List.getLast?_eq_getElem?, List.getElem?_drop, List.getElem?_take]
  simp only [List.length_drop, List.length_take]
  have h1 : 24 * i + (min (24 * i + 24) bits.length - 24 * i - 1) =
      min (24 * i + 23) (bits.length - 1) := by omega
  rw [h1, if_pos (by omega)]

theorem digitChar_bit (c : Char) (hc : c = '0' ∨ c = '1') :
    Nat.digitChar (toInt32 (parseIntChar c) % 2) = c := by
  rcases hc with h | h <;> subst h <;> rfl

theorem blockChar_of_isBits (bits : List Char) (hb : IsBits bits) (i : Nat)
    (hi : 24 * i < bits.length) :
    some (blockChar bits (24 * i)) = bits[min (24 * i + 23) (bits.length - 1)]? := by
  unfold blockChar
  rw [blockHash_eq_getLast, substring_getLast? bits i hi]
  have hlt : min (24 * i + 23) (bits.length - 1) < bits.length := by omega
  rw [List.getElem?_eq_getElem hlt]
  simp only []
  rw [digitChar_bit _ (hb _ (List.getElem_mem _))]

theorem textToBits_foldl (f : Nat → List Char) (text : List Nat) (acc : List Char) :
    text.foldl (fun bits charCode => bits ++ f charCode) acc = acc ++ (text.map f).flatten := by
  induction text generalizing acc with
  | nil => simp
  | cons c rest ih => simp [List.foldl_cons, ih, List.append_assoc]

theorem textToBits_eq (text : List Nat) : textToBits text = (text.map byteBits).flatten := by
  unfold textToBits
  have h := textToBits_foldl byteBits text []
  simpa [byteBits] using h

set_option maxRecDepth 100000 in
theorem byteBits_small :
    ∀ c, c < 256 → (byteBits c).length = 8 ∧ binaryValue (byteBits c) = c ∧ IsBits (byteBits c) := by
  decide

theorem join_block (L : List (List Char)) (hL : ∀ w ∈ L, w.length = 8) :
    ∀ k, k < L.length → (L.flatten.take (8 * k + 8)).drop (8 * k) = L.getD k [] := by
  induction L with
  | nil => intro k hk; simp at hk
  | cons w rest ih =>
    intro k hk
    have hw : w.length = 8 := hL w (List.mem_cons_self _ _)
    rcases k with _ | k
    · simp only [List.flatten_cons, Nat.mul_zero, Nat.zero_add, List.drop_zero]
      rw [← hw, List.take_left']
      · simp
      · rfl
    · have h1 : 8 * (k + 1) + 8 = w.length + (8 * k + 8) := by omega
      have h2 : 8 * (k + 1) = w.length + 8 * k := by omega
      rw [List.flatten_cons, h1, List.take_append, h2, List.drop_append]
      rw [ih (fun v hv => hL v (List.mem_cons_of_mem _ hv)) k (by simpa using hk)]
      simp

/-! ## Facts about rounding to a double -/

theorem roundHalfEven_one (x : Nat) : roundHalfEven x 1 = x := by
  simp [roundHalfEven, Nat.mod_one]

theorem roundHalfEven_mul_le (x y : Nat) (hy : 0 < y) :
    roundHalfEven x y * y ≤ x + y := by
  have h1 : x / y * y ≤ x := Nat.div_mul_le_self x y
  unfold roundHalfEven
  simp only []
  split
  · omega
  · split
    · split
      · omega
      · rw [Nat.add_mul]; omega
    · rw [Nat.add_mul]; omega

theorem roundHalfEven_err (x y : Nat) (hy : 0 < y) :
    2 * (roundHalfEven x y * y) ≤ 2 * x + y ∧ 2 * x ≤ 2 * (roundHalfEven x y * y) + y := by
  have h1 : y * (x / y) + x % y = x := Nat.div_add_mod x y
  have h2 : x % y < y := Nat.mod_lt x hy
  have h3 : x / y * y = y * (x / y) := Nat.mul_comm _ _
  unfold roundHalfEven
  simp only []
  split
  · omega
  · split
    · split
      · omega
      · rw [Nat.add_mul]; omega
    · rw [Nat.add_mul]; omega

theorem scaleDown_le (a b : Nat) : ∀ fuel sh, scaleDown a b fuel sh ≤ sh + fuel := by
  intro fuel
  induction fuel with
  | zero => intro sh; simp [scaleDown]
  | succ fuel ih =>
    intro sh
    unfold scaleDown
    split
    · omega
    · have := ih (sh + 1); omega

theorem scaleUp_start_le (a b : Nat) : ∀ fuel t, t ≤ scaleUp a b fuel t := by
  intro fuel
  induction fuel with
  | zero => intro t; simp [scaleUp]
  | succ fuel ih =>
    intro t
    unfold scaleUp
    split
    · have := ih (t + 1); omega
    · omega

theorem scaleUp_ge (a b T : Nat) :
    ∀ fuel t, t ≤ T → T ≤ t + fuel → (∀ u, u < T → a * 2 ^ (u + 1) < b * 2 ^ 53) →
      T ≤ scaleUp a b fuel t := by
  intro fuel
  induction fuel with
  | zero => intro t _ h2 _; simpa [scaleUp] using h2
  | succ fuel ih =>
    intro t h1 h2 h3
    unfold scaleUp
    by_cases ht : t < T
    · rw [if_pos (h3 t ht)]
      exact ih (t + 1) (by omega) (by omega) h3
    · have := scaleUp_start_le a b (fuel + 1) t
      unfold scaleUp at this
      omega

theorem roundF64_natCast (n : Nat) : roundF64 (n : ℚ) = roundNonneg n 1 := by
  simp [roundF64]

/-- An integer below `2 ^ 53` is a double: rounding leaves it unchanged. -/
theorem roundF64_natCast_of_lt (n : Nat) (h : n < 2 ^ 53) : roundF64 (n : ℚ) = JSNum.num n := by
  rw [roundF64_natCast]
  unfold roundNonneg
  rw [if_neg (by omega)]
  simp only [roundHalfEven_one]
  congr 1
  push_cast
  field_simp

/-- Rounding an integer gives an integer or `Infinity`. -/
theorem roundF64_natCast_large (n : Nat) (h : 2 ^ 53 ≤ n) :
    roundF64 (n : ℚ) =
      match roundLarge n 1 with
      | some k => JSNum.num (k : ℚ)
      | none => JSNum.inf := by
  rw [roundF64_natCast]
  unfold roundNonneg
  rw [if_pos (by omega)]

theorem roundLarge_isSome (n : Nat) (h : n < 2 ^ 1023) :
    ∃ k, roundLarge n 1 = some k ∧ k ≤ n + 2 ^ 972 := by
  unfold roundLarge
  simp only []
  have hsh : scaleDown n 1 972 0 ≤ 972 := by
    have := scaleDown_le n 1 972 0; omega
  have hpow : 2 ^ scaleDown n 1 972 0 ≤ 2 ^ 972 := Nat.pow_le_pow_right (by decide) hsh
  have hpos : 0 < 1 * 2 ^ scaleDown n 1 972 0 := by positivity
  have hm := roundHalfEven_mul_le n (1 * 2 ^ scaleDown n 1 972 0) hpos
  rw [Nat.one_mul] at hm
  have e1 : (2:Nat) ^ 1024 = 2 ^ 1023 + 2 ^ 1023 := by
    rw [show (1024:Nat) = 1023 + 1 from rfl, Nat.pow_succ]; omega
  have e2 : (2:Nat) ^ 972 ≤ 2 ^ 1023 := Nat.pow_le_pow_right (by decide) (by decide)
  have hlt : roundHalfEven n (1 * 2 ^ scaleDown n 1 972 0) * 2 ^ scaleDown n 1 972 0 < 2 ^ 1024 := by
    rw [Nat.one_mul]
    omega
  rw [if_pos hlt]
  refine ⟨_, rfl, ?_⟩
  rw [Nat.one_mul]
  omega

/-- Rounding an integer below `2 ^ 1023` gives a finite integer. -/
theorem roundF64_natCast_finite (n : Nat) (h : n < 2 ^ 1023) :
    ∃ k : Nat, roundF64 (n : ℚ) = JSNum.num k ∧ k ≤ n + 2 ^ 972 := by
  by_cases hs : n < 2 ^ 53
  · exact ⟨n, roundF64_natCast_of_lt n hs, by omega⟩
  · rcases roundLarge_isSome n h with ⟨k, hk, hle⟩
    refine ⟨k, ?_, hle⟩
    rw [roundF64_natCast_large n (by omega), hk]

/-- Rounding an integer gives an integer or `Infinity`. -/
theorem roundF64_natCast_cases (n : Nat) :
    (∃ k : Nat, roundF64 (n : ℚ) = JSNum.num k) ∨ roundF64 (n : ℚ) = JSNum.inf := by
  by_cases hs : n < 2 ^ 53
  · exact Or.inl ⟨n, roundF64_natCast_of_lt n hs⟩
  · rw [roundF64_natCast_large n (by omega)]
    cases roundLarge n 1 with
    | none => exact Or.inr rfl
    | some k => exact Or.inl ⟨k, rfl⟩

theorem roundSigned_of_nonneg (q : ℚ) (h : 0 ≤ q) : roundSigned q = roundF64 q := by
  unfold roundSigned
  rw [if_neg (not_lt.mpr h)]

theorem truncQ_of_nonneg (q : ℚ) (h : 0 ≤ q) : truncQ q = ⌊q⌋ := by
  unfold truncQ
  rw [if_pos h]

theorem roundNonneg_err (a b : Nat) (hb : 0 < b) (hab : a < b) :
    ∃ r : ℚ, roundNonneg a b = JSNum.num r ∧ 0 ≤ r ∧ |r - (a : ℚ) / b| ≤ 1 / 2 ^ 54 := by
  have hpow : (0:Nat) < 2 ^ 53 := by positivity
  have hnot : ¬ b * 2 ^ 53 ≤ a := by
    have : b * 1 ≤ b * 2 ^ 53 := Nat.mul_le_mul_left b hpow
    omega
  have ht : 53 ≤ scaleUp a b 1074 0 := by
    apply scaleUp_ge a b 53 1074 0 (by omega) (by omega)
    intro u hu
    have h1 : (2:Nat) ^ (u + 1) ≤ 2 ^ 53 := Nat.pow_le_pow_right (by decide) (by omega)
    calc a * 2 ^ (u + 1) ≤ a * 2 ^ 53 := Nat.mul_le_mul_left a h1
      _ < b * 2 ^ 53 := Nat.mul_lt_mul_of_pos_right hab hpow
  unfold roundNonneg
  rw [if_neg hnot]
  simp only []
  generalize scaleUp a b 1074 0 = t at ht
  refine ⟨_, rfl, by positivity, ?_⟩
  have herr := roundHalfEven_err (a * 2 ^ t) b hb
  generalize roundHalfEven (a * 2 ^ t) b = m at herr
  have hP : (2:ℚ) ^ 53 ≤ (2:ℚ) ^ t := pow_le_pow_right₀ (by norm_num) ht
  have hB : (0:ℚ) < b := by exact_mod_cast hb
  have hP0 : (0:ℚ) < (2:ℚ) ^ t := by positivity
  have e1 : (2:ℚ) * (m * b) ≤ 2 * (a * 2 ^ t) + b := by exact_mod_cast herr.1
  have e2 : (2:ℚ) * (a * 2 ^ t) ≤ 2 * (m * b) + b := by exact_mod_cast herr.2
  have key : (m : ℚ) / ((2 ^ t : Nat) : ℚ) - (a : ℚ) / b = (m * b - a * 2 ^ t) / (2 ^ t * b) := by
    push_cast
    field_simp
    ring
  rw [key]
  have hden : (0:ℚ) < 2 ^ t * b := by positivity
  have hxb : (2:ℚ) ^ 53 * b ≤ 2 ^ t * b := mul_le_mul_of_nonneg_right hP hB.le
  generalize (2:ℚ) ^ t = x at *
  rw [abs_le]
  constructor
  · rw [le_div_iff₀ hden]
    norm_num at hxb ⊢
    linarith
  · rw [div_le_iff₀ hden]
    norm_num at hxb ⊢
    linarith

/-- Rounding a rational in `[0, 1)` moves it by at most `2 ^ (-54)`. -/
theorem roundF64_err (q : ℚ) (h0 : 0 ≤ q) (h1 : q < 1) :
    ∃ r : ℚ, roundF64 q = JSNum.num r ∧ 0 ≤ r ∧ |r - q| ≤ 1 / 2 ^ 54 := by
  have hb : 0 < q.den := q.den_pos
  have hnum : ((q.num.natAbs : ℕ) : ℚ) = (q.num : ℚ) := by
    have : (0:ℤ) ≤ q.num := Rat.num_nonneg.mpr h0
    rw [← Int.cast_natCast, Int.natAbs_of_nonneg this]
  have hq : ((q.num.natAbs : ℕ) : ℚ) / (q.den : ℚ) = q := by
    rw [hnum]; exact Rat.num_div_den q
  have hab : q.num.natAbs < q.den := by
    have hB : (0:ℚ) < q.den := by exact_mod_cast hb
    have : ((q.num.natAbs : ℕ) : ℚ) < (q.den : ℚ) := by
      rw [← hq, div_lt_one hB] at h1; exact h1
    exact_mod_cast this
  rcases roundNonneg_err q.num.natAbs q.den hb hab with ⟨r, hr, h0r, he⟩
  rw [hq] at he
  exact ⟨r, hr, h0r, he⟩

/-- Rounding error below `2 ^ (53 - T)`: at most half a unit of the last place,
`2 ^ (-(T + 1))`. -/
theorem roundNonneg_err_gen (a b T : Nat) (hb : 0 < b) (hT : T ≤ 1074)
    (hab : a * 2 ^ T < b * 2 ^ 53) :
    ∃ r : ℚ, roundNonneg a b = JSNum.num r ∧ 0 ≤ r ∧ |r - (a : ℚ) / b| ≤ 1 / 2 ^ (T + 1) := by
  have hnot : ¬ b * 2 ^ 53 ≤ a := by
    have h1 : a * 1 ≤ a * 2 ^ T := Nat.mul_le_mul_left a (Nat.one_le_two_pow)
    omega
  have ht : T ≤ scaleUp a b 1074 0 := by
    apply scaleUp_ge a b T 1074 0 (by omega) (by omega)
    intro u hu
    have h1 : (2:Nat) ^ (u + 1) ≤ 2 ^ T := Nat.pow_le_pow_right (by decide) (by omega)
    exact Nat.lt_of_le_of_lt (Nat.mul_le_mul_left a h1) hab
  unfold roundNonneg
  rw [if_neg hnot]
  simp only []
  generalize scaleUp a b 1074 0 = t at ht
  refine ⟨_, rfl, by positivity, ?_⟩
  have herr := roundHalfEven_err (a * 2 ^ t) b hb
  generalize roundHalfEven (a * 2 ^ t) b = m at herr
  have hP : (2:ℚ) ^ T ≤ (2:ℚ) ^ t := pow_le_pow_right₀ (by norm_num) ht
  have hB : (0:ℚ) < b := by exact_mod_cast hb
  have hP0 : (0:ℚ) < (2:ℚ) ^ t := by positivity
  have hT0 : (0:ℚ) < (2:ℚ) ^ T := by positivity
  have e1 : (2:ℚ) * (m * b) ≤ 2 * (a * 2 ^ t) + b := by exact_mod_cast herr.1
  have e2 : (2:ℚ) * (a * 2 ^ t) ≤ 2 * (m * b) + b := by exact_mod_cast herr.2
  have key : (m : ℚ) / ((2 ^ t : Nat) : ℚ) - (a : ℚ) / b = (m * b - a * 2 ^ t) / (2 ^ t * b) := by
    push_cast
    field_simp
    ring
  rw [key]
  have hden : (0:ℚ) < 2 ^ t * b := by positivity
  have hbound : (b : ℚ) / (2 * (2 ^ t * b)) ≤ 1 / 2 ^ (T + 1) := by
    rw [pow_succ, div_le_div_iff₀ (by positivity) (by positivity)]
    nlinarith [mul_le_mul_of_nonneg_right hP hB.le]
  have hhalf : |(m : ℚ) * b - a * 2 ^ t| ≤ b / 2 := by
    rw [abs_le]; constructor <;> linarith
  calc |((m : ℚ) * b - a * 2 ^ t) / (2 ^ t * b)|
      = |(m : ℚ) * b - a * 2 ^ t| / (2 ^ t * b) := by rw [abs_div, abs_of_pos hden]
    _ ≤ (b / 2) / (2 ^ t * b) := by
        apply div_le_div_of_nonneg_right hhalf hden.le
    _ = (b : ℚ) / (2 * (2 ^ t * b)) := by field_simp
    _ ≤ 1 / 2 ^ (T + 1) := hbound

theorem roundF64_err_gen (q : ℚ) (h0 : 0 ≤ q) (T : Nat) (hT : T ≤ 1074)
    (hq : q * 2 ^ T < 2 ^ 53) :
    ∃ r : ℚ, roundF64 q = JSNum.num r ∧ 0 ≤ r ∧ |r - q| ≤ 1 / 2 ^ (T + 1) := by
  have hb : 0 < q.den := q.den_pos
  have hB : (0:ℚ) < q.den := by exact_mod_cast hb
  have hnum : ((q.num.natAbs : ℕ) : ℚ) = (q.num : ℚ) := by
    have : (0:ℤ) ≤ q.num := Rat.num_nonneg.mpr h0
    rw [← Int.cast_natCast, Int.natAbs_of_nonneg this]
  have hqd : ((q.num.natAbs : ℕ) : ℚ) / (q.den : ℚ) = q := by
    rw [hnum]; exact Rat.num_div_den q
  have hab : q.num.natAbs * 2 ^ T < q.den * 2 ^ 53 := by
    have h1 : ((q.num.natAbs : ℕ) : ℚ) * 2 ^ T < (q.den : ℚ) * 2 ^ 53 := by
      rw [← hqd] at hq
      rw [div_mul_eq_mul_div, div_lt_iff₀ hB] at hq
      linarith
    exact_mod_cast h1
  rcases roundNonneg_err_gen q.num.natAbs q.den T hb hT hab with ⟨r, hr, h0r, he⟩
  rw [hqd] at he
  exact ⟨r, hr, h0r, he⟩

/-! ## Facts about `bitsToHex` and `parseInt` -/

theorem binaryValue_concat (s : List Char) (c : Char) :
    binaryValue (s ++ [c]) = 2 * binaryValue s + (if c = '1' then 1 else 0) := by
  unfold binaryValue
  rw [List.foldl_concat]

theorem binaryValue_lt (s : List Char) : binaryValue s < 2 ^ s.length := by
  induction s using List.reverseRecOn with
  | nil => decide
  | append_singleton s c ih =>
    rw [binaryValue_concat, List.length_append, List.length_singleton, Nat.pow_succ]
    split <;> omega

theorem takeWhile_of_isBits (s : List Char) (hs : IsBits s) :
    s.takeWhile (fun c => c == '0' || c == '1') = s := by
  rw [List.takeWhile_eq_self_iff]
  intro c hc
  rcases hs c hc with h | h <;> subst h <;> rfl

theorem parseInt2_of_isBits (s : List Char) (hs : IsBits s) (hne : s ≠ [])
    (hv : binaryValue s < 2 ^ 53) : parseInt2 s = JSNum.num (binaryValue s : ℚ) := by
  unfold parseInt2
  simp only []
  rw [takeWhile_of_isBits s hs, if_neg hne, roundF64_natCast_of_lt _ hv]

theorem parseInt2_round (s : List Char) (hs : IsBits s) (hne : s ≠ []) :
    parseInt2 s = roundF64 (binaryValue s : ℚ) := by
  unfold parseInt2
  simp only []
  rw [takeWhile_of_isBits s hs, if_neg hne]

theorem toString16_natCast (n : Nat) :
    (JSNum.num (n : ℚ)).toString16 = toStringRadix 16 n := by
  simp [JSNum.toString16]

theorem upperHex_small :
    ∀ n, n < 16 → toUpperCase (toStringRadix 16 n) = [upperHexDigit n] := by
  decide

theorem upperHexDigit_mem :
    ∀ n, n < 16 → upperHexDigit n ∈
      ['0', '1', '2', '3', '4', '5', '6', '7', '8', '9', 'A', 'B', 'C', 'D', 'E', 'F'] := by
  decide

theorem substring_length (s : List Char) (i k : Nat) :
    (substring s i (i + k)).length = min (i + k) s.length - i := by
  rw [substring_eq]; simp

theorem isBits_substring (s : List Char) (hs : IsBits s) (a b : Nat) :
    IsBits (substring s a b) := by
  intro c hc
  exact hs c (List.mem_of_mem_take (List.mem_of_mem_drop hc))

theorem nibbleAt_length (bits : List Char) (i : Nat) (hi : i < bits.length) :
    (nibbleAt bits i).length = 4 := by
  unfold nibbleAt padEnd
  rw [List.length_append, List.length_replicate, substring_length]
  omega

theorem nibbleAt_isBits (bits : List Char) (hb : IsBits bits) (i : Nat) :
    IsBits (nibbleAt bits i) := by
  intro c hc
  unfold nibbleAt padEnd at hc
  rcases List.mem_append.mp hc with h | h
  · exact isBits_substring bits hb _ _ c h
  · exact Or.inl (List.eq_of_mem_replicate h)

/-- The characters appended by the iteration of `bitsToHex` that starts at index `i`. -/
theorem hexOut_of_isBits (bits : List Char) (hb : IsBits bits) (i : Nat) (hi : i < bits.length) :
    toUpperCase (parseInt2 (nibbleAt bits i)).toString16 =
      [upperHexDigit (binaryValue (nibbleAt bits i))] ∧ binaryValue (nibbleAt bits i) < 16 := by
  have hlen := nibbleAt_length bits i hi
  have hlt : binaryValue (nibbleAt bits i) < 16 := by
    have := binaryValue_lt (nibbleAt bits i)
    rw [hlen] at this
    simpa using this
  have hne : nibbleAt bits i ≠ [] := by
    intro h; rw [h] at hlen; simp at hlen
  refine ⟨?_, hlt⟩
  rw [parseInt2_of_isBits _ (nibbleAt_isBits bits hb i) hne (by omega), toString16_natCast,
    upperHex_small _ hlt]

theorem hexLoop_eq (bits : List Char) (hb : IsBits bits) :
    ∀ (fuel i : Nat) (acc : List Char), bits.length ≤ i + 4 * fuel →
      hexLoop bits fuel i acc =
        acc ++ (List.range ((bits.length - i + 3) / 4)).map
          (fun k => upperHexDigit (binaryValue (nibbleAt bits (i + 4 * k)))) := by
  intro fuel
  induction fuel with
  | zero =>
    intro i acc h
    have h0 : (bits.length - i + 3) / 4 = 0 := by omega
    simp [hexLoop, h0]
  | succ fuel ih =>
    intro i acc h
    unfold hexLoop
    by_cases hi : i < bits.length
    · have hn : (bits.length - i + 3) / 4 = (bits.length - (i + 4) + 3) / 4 + 1 := by omega
      have hout := (hexOut_of_isBits bits hb i hi).1
      unfold nibbleAt at hout
      rw [if_pos hi]
      simp only []
      rw [ih (i + 4) _ (by omega), hn, List.range_succ_eq_map, hout]
      simp only [List.map_cons, List.map_map, List.append_assoc, List.singleton_append,
        Nat.mul_zero, Nat.add_zero]
      congr 2
      apply List.map_congr_left
      intro k _
      simp only [Function.comp, Nat.succ_eq_add_one, nibbleAt]
      have : i + 4 + 4 * k = i + 4 * (k + 1) := by ring
      rw [this]
    · have h0 : (bits.length - i + 3) / 4 = 0 := by omega
      simp [hi, h0]

theorem bitsToHex_eq (bits : List Char) (hb : IsBits bits) :
    bitsToHex bits =
      (List.range ((bits.length + 3) / 4)).map
        (fun k => upperHexDigit (binaryValue (nibbleAt bits (4 * k)))) := by
  unfold bitsToHex
  rw [hexLoop_eq bits hb bits.length 0 [] (by omega)]
  simp

/-! ## Facts about the generator -/

theorem mul_natCast (a b : Nat) :
    (JSNum.num (a : ℚ)).mul (JSNum.num (b : ℚ)) = roundF64 ((a * b : Nat) : ℚ) := by
  simp only [JSNum.mul]
  rw [roundSigned_of_nonneg _ (by positivity)]
  push_cast
  rfl

theorem add_natCast (a b : Nat) :
    (JSNum.num (a : ℚ)).add (JSNum.num (b : ℚ)) = roundF64 ((a + b : Nat) : ℚ) := by
  simp only [JSNum.add]
  rw [roundSigned_of_nonneg _ (by positivity)]
  push_cast
  rfl

theorem mod_natCast (a b : Nat) (hb : b ≠ 0) :
    (JSNum.num (a : ℚ)).mod (JSNum.num (b : ℚ)) = JSNum.num ((a % b : Nat) : ℚ) := by
  have hb' : (b : ℚ) ≠ 0 := by exact_mod_cast hb
  simp only [JSNum.mod, if_neg hb']
  congr 1
  rw [truncQ_of_nonneg _ (by positivity), Rat.floor_natCast_div_natCast]
  have e : (((a : ℤ) / (b : ℤ) : ℤ) : ℚ) = ((a / b : Nat) : ℚ) := by
    rw [← Int.natCast_div, Int.cast_natCast]
  rw [e]
  have h := Nat.div_add_mod a b
  have h' : (b : ℚ) * ((a / b : Nat) : ℚ) + ((a % b : Nat) : ℚ) = (a : ℚ) := by exact_mod_cast h
  linarith

theorem call_eq (s : Nat) :
    (Rng.call { state := JSNum.num (s : ℚ) }).2.state =
      ((roundF64 ((s * 9301 : Nat) : ℚ)).add (JSNum.num ((49297 : Nat) : ℚ))).mod
        (JSNum.num ((233280 : Nat) : ℚ)) := by
  unfold Rng.call
  simp only []
  rw [← mul_natCast]
  norm_num

/-- While the product and the sum stay below `2 ^ 53` the step is exact. -/
theorem call_exact (s : Nat) (h : s * 9301 + 49297 < 2 ^ 53) :
    (Rng.call { state := JSNum.num (s : ℚ) }).2.state =
      JSNum.num (((s * 9301 + 49297) % 233280 : Nat) : ℚ) := by
  rw [call_eq, roundF64_natCast_of_lt _ (by omega), add_natCast,
    roundF64_natCast_of_lt _ h, mod_natCast _ _ (by decide)]

/-- From an integer state the next state is an integer below 233280 or `NaN`. -/
theorem call_cases (s : Nat) :
    (∃ k : Nat, k < 233280 ∧ (Rng.call { state := JSNum.num (s : ℚ) }).2.state = JSNum.num k) ∨
    (Rng.call { state := JSNum.num (s : ℚ) }).2.state = JSNum.nan := by
  rw [call_eq]
  rcases roundF64_natCast_cases (s * 9301) with ⟨k1, h1⟩ | h1
  · rw [h1, add_natCast]
    rcases roundF64_natCast_cases (k1 + 49297) with ⟨k2, h2⟩ | h2
    · rw [h2, mod_natCast _ _ (by decide)]
      exact Or.inl ⟨k2 % 233280, Nat.mod_lt _ (by decide), rfl⟩
    · rw [h2]; exact Or.inr rfl
  · rw [h1]; exact Or.inr rfl

/-- From an integer state below `2 ^ 1008` the next state is an integer below 233280. -/
theorem call_finite (s : Nat) (h : s < 2 ^ 1008) :
    ∃ k : Nat, k < 233280 ∧ (Rng.call { state := JSNum.num (s : ℚ) }).2.state = JSNum.num k := by
  have e1 : (2:Nat) ^ 1022 = 2 ^ 1008 * 16384 := by
    rw [show (1022:Nat) = 1008 + 14 from rfl, Nat.pow_add]
  have e2 : (2:Nat) ^ 1023 = 2 ^ 1022 + 2 ^ 1022 := by
    rw [show (1023:Nat) = 1022 + 1 from rfl, Nat.pow_succ]; omega
  have e3 : (2:Nat) ^ 972 * 1024 ≤ 2 ^ 1022 := by
    rw [show (1024:Nat) = 2 ^ 10 from rfl, ← Nat.pow_add]
    exact Nat.pow_le_pow_right (by decide) (by decide)
  have e4 : (1048576:Nat) ≤ 2 ^ 972 := by
    rw [show (1048576:Nat) = 2 ^ 20 from rfl]
    exact Nat.pow_le_pow_right (by decide) (by decide)
  rw [call_eq]
  rcases roundF64_natCast_finite (s * 9301) (by omega) with ⟨k1, h1, b1⟩
  rw [h1, add_natCast]
  rcases roundF64_natCast_finite (k1 + 49297) (by omega) with ⟨k2, h2, _⟩
  rw [h2, mod_natCast _ _ (by decide)]
  exact ⟨k2 % 233280, Nat.mod_lt _ (by decide), rfl⟩

/-! ## Facts about the returned quotient -/

theorem roundF64_half : roundF64 (1 / 2) = JSNum.num (1 / 2) := by
  have hn : (1 / 2 : ℚ).num.natAbs = 1 := by norm_num
  have hd : (1 / 2 : ℚ).den = 2 := by norm_num
  unfold roundF64
  rw [hn, hd]
  unfold roundNonneg
  rw [if_neg (by decide)]
  simp only []
  rw [show scaleUp 1 2 1074 0 = 53 from by decide,
    show roundHalfEven (1 * 2 ^ 53) 2 = 2 ^ 52 from by decide]
  congr 1
  norm_num

theorem div_natCast (k : Nat) :
    (JSNum.num (k : ℚ)).div (JSNum.num 233280) = roundF64 ((k : ℚ) / 233280) := by
  simp only [JSNum.div]
  rw [if_neg (by norm_num), roundSigned_of_nonneg _ (by positivity)]

/-- The quotient returned for an integer state below 233280: a double in
`[0, 1)` within `2 ^ (-54)` of the exact quotient, above `0.5` exactly when the
state is above 116640. -/
theorem div_state (k : Nat) (hk : k < 233280) :
    ∃ r : ℚ, (JSNum.num (k : ℚ)).div (JSNum.num 233280) = JSNum.num r ∧ 0 ≤ r ∧ r < 1 ∧
      |r - (k : ℚ) / 233280| ≤ 1 / 2 ^ 54 ∧
      (JSNum.num r).gt (JSNum.num (1 / 2)) = decide (116640 < k) := by
  have hkq : (k : ℚ) ≤ 233279 := by
    have : k ≤ 233279 := by omega
    exact_mod_cast this
  have h0 : (0:ℚ) ≤ (k : ℚ) / 233280 := by positivity
  have h1 : (k : ℚ) / 233280 < 1 := by
    rw [div_lt_one (by norm_num)]; linarith
  rcases roundF64_err _ h0 h1 with ⟨r, hr, hr0, he⟩
  rw [abs_le] at he
  have hup : (k : ℚ) / 233280 ≤ 233279 / 233280 := by
    rw [div_le_div_iff_of_pos_right (by norm_num)]; exact hkq
  refine ⟨r, by rw [div_natCast]; exact hr, hr0, ?_, abs_le.mpr he, ?_⟩
  · have : (233279 : ℚ) / 233280 + 1 / 2 ^ 54 < 1 := by norm_num
    linarith [he.2]
  · simp only [JSNum.gt]
    rcases Nat.lt_trichotomy k 116640 with hlt | heq | hgt
    · have hk' : (k : ℚ) ≤ 116639 := by
        have : k ≤ 116639 := by omega
        exact_mod_cast this
      have h2 : (k : ℚ) / 233280 ≤ 116639 / 233280 := by
        rw [div_le_div_iff_of_pos_right (by norm_num)]; exact hk'
      have h3 : (116639 : ℚ) / 233280 + 1 / 2 ^ 54 < 1 / 2 := by norm_num
      have hle : ¬ (1 / 2 : ℚ) < r := by linarith [he.2]
      have hn : ¬ 116640 < k := by omega
      rw [decide_eq_decide]
      exact ⟨fun h => absurd h hle, fun h => absurd h hn⟩
    · subst heq
      have hq : ((116640 : Nat) : ℚ) / 233280 = 1 / 2 := by norm_num
      rw [hq, roundF64_half] at hr
      have hr' : r = 1 / 2 := by
        injection hr with h; exact h.symm
      subst hr'
      simp
    · have hk' : (116641 : ℚ) ≤ (k : ℚ) := by
        have : 116641 ≤ k := by omega
        exact_mod_cast this
      have h2 : (116641 : ℚ) / 233280 ≤ (k : ℚ) / 233280 := by
        rw [div_le_div_iff_of_pos_right (by norm_num)]; exact hk'
      have h3 : (1 / 2 : ℚ) < 116641 / 233280 - 1 / 2 ^ 54 := by norm_num
      have hlt : (1 / 2 : ℚ) < r := by linarith [he.1]
      rw [decide_eq_decide]
      exact ⟨fun _ => hgt, fun _ => hlt⟩

/-- Distinct integer states below 233280 give distinct returned doubles. -/
theorem div_state_ne (k l : Nat) (hk : k < 233280) (hl : l < 233280) (hne : k ≠ l) :
    (JSNum.num (k : ℚ)).div (JSNum.num 233280) ≠ (JSNum.num (l : ℚ)).div (JSNum.num 233280) := by
  rcases div_state k hk with ⟨r, hr, _, _, hre, _⟩
  rcases div_state l hl with ⟨t, ht, _, _, hte, _⟩
  rw [hr, ht]
  intro h
  injection h with h
  subst h
  rw [abs_le] at hre hte
  have hgap : (1 : ℚ) / 233280 ≤ |(k : ℚ) / 233280 - (l : ℚ) / 233280| := by
    rw [← sub_div, abs_div, abs_of_pos (by norm_num : (0:ℚ) < 233280),
      div_le_div_iff_of_pos_right (by norm_num)]
    have : (1 : ℤ) ≤ |(k : ℤ) - (l : ℤ)| := by
      have : (k : ℤ) - l ≠ 0 := by omega
      exact Int.one_le_abs this
    exact_mod_cast this
  have hsmall : |(k : ℚ) / 233280 - (l : ℚ) / 233280| ≤ 2 / 2 ^ 54 := by
    rw [abs_le]; constructor <;> linarith [hre.1, hre.2, hte.1, hte.2]
  have : (2 : ℚ) / 2 ^ 54 < 1 / 233280 := by norm_num
  linarith

/-! ## Facts about the stream of states -/

theorem rng_eq (r : Rng) (x : JSNum) (h : r.state = x) : r = { state := x } := by
  cases r; simp only at h; subst h; rfl

theorem output_eq (r : Rng) (n : Nat) :
    r.output n = (r.after (n + 1)).state.div (JSNum.num 233280) := rfl

theorem after_succ_state (r : Rng) (n k : Nat) (h : (r.after n).state = JSNum.num (k : ℚ)) :
    (r.after (n + 1)).state = (Rng.call { state := JSNum.num (k : ℚ) }).2.state := by
  show ((r.after n).call).2.state = _
  rw [rng_eq _ _ h]

theorem small_state_bound (k : Nat) (hk : k < 233280) : k * 9301 + 49297 < 2 ^ 53 := by
  have : (2:Nat) ^ 53 = 9007199254740992 := by decide
  omega

/-- From the first call on, a state that is an integer below 233280 is followed
by the exact successor of the recurrence. -/
theorem after_succ_exact (r : Rng) (n k : Nat) (hk : k < 233280)
    (h : (r.after n).state = JSNum.num (k : ℚ)) :
    (r.after (n + 1)).state = JSNum.num (((k * 9301 + 49297) % 233280 : Nat) : ℚ) := by
  rw [after_succ_state r n k h, call_exact k (small_state_bound k hk)]

theorem after_state_finite (s : Nat) (hs : s < 2 ^ 1008) :
    ∀ n, ∃ k : Nat, k < 233280 ∧
      ((seededRandom (JSNum.num (s : ℚ))).after (n + 1)).state = JSNum.num (k : ℚ) := by
  intro n
  induction n with
  | zero =>
    rcases call_finite s hs with ⟨k, hk, h⟩
    exact ⟨k, hk, h⟩
  | succ n ih =>
    rcases ih with ⟨k, hk, h⟩
    exact ⟨_, Nat.mod_lt _ (by decide), after_succ_exact _ _ k hk h⟩

/-- From an integer seed every later state is an integer below 233280 or `NaN`. -/
theorem after_state_cases (s : Nat) :
    ∀ n, (∃ k : Nat, k < 233280 ∧
        ((seededRandom (JSNum.num (s : ℚ))).after (n + 1)).state = JSNum.num (k : ℚ)) ∨
      ((seededRandom (JSNum.num (s : ℚ))).after (n + 1)).state = JSNum.nan := by
  intro n
  induction n with
  | zero => exact call_cases s
  | succ n ih =>
    rcases ih with ⟨k, hk, h⟩ | h
    · exact Or.inl ⟨_, Nat.mod_lt _ (by decide), after_succ_exact _ _ k hk h⟩
    · right
      show (((seededRandom (JSNum.num (s : ℚ))).after (n + 1)).call).2.state = _
      rw [rng_eq _ _ h]
      rfl

theorem after_state_exact (s : Nat) (hs : s * 9301 + 49297 < 2 ^ 53) :
    ∀ n, ((seededRandom (JSNum.num (s : ℚ))).after n).state = JSNum.num (lcgExact s n : ℚ) := by
  intro n
  induction n with
  | zero => rfl
  | succ n ih =>
    rw [after_succ_state _ n _ ih]
    rcases n with _ | n
    · exact call_exact s hs
    · exact call_exact _ (small_state_bound _ (Nat.mod_lt _ (by decide)))

/-! ## Facts about the grids -/

theorem arraySet_length_eq {α : Type} (a : List α) (n : Nat) (v : α) (h : a.length = n) :
    arraySet a n v = a ++ [v] := by
  subst h
  simp [arraySet]

theorem foldl_arraySet_range {α : Type} (f : Nat → α) (n : Nat) :
    (List.range n).foldl (fun a i => arraySet a i (f i)) [] = (List.range n).map f := by
  induction n with
  | zero => rfl
  | succ n ih =>
    rw [List.range_succ, List.foldl_append, ih, List.map_append]
    simp only [List.foldl_cons, List.foldl_nil, List.map_cons, List.map_nil]
    have h : ((List.range n).map f).length = n := by simp
    rw [arraySet_length_eq _ _ _ h]

theorem after_add (r : Rng) (a : Nat) : ∀ b, (r.after a).after b = r.after (a + b) := by
  intro b
  induction b with
  | zero => rfl
  | succ b ih =>
    show ((r.after a).after b).call.2 = (r.after (a + b)).call.2
    rw [ih]

theorem output_add (r : Rng) (a b : Nat) : (r.after a).output b = r.output (a + b) := by
  show ((r.after a).after b).call.1 = (r.after (a + b)).call.1
  rw [after_add]

theorem seedRow_eq (cols : Nat) (rng : Rng) :
    seedRow cols rng = ((List.range cols).map (fun x => cellOf (rng.output x)), rng.after cols) := by
  unfold seedRow
  induction cols with
  | zero => rfl
  | succ n ih =>
    rw [List.range_succ, List.foldl_append, ih, List.map_append]
    simp only [List.foldl_cons, List.foldl_nil, List.map_cons, List.map_nil]
    have h : ((List.range n).map (fun x => cellOf (rng.output x))).length = n := by simp
    have hset : arraySet ((List.range n).map (fun x => cellOf (rng.output x))) n
        (if (rng.after n).call.1.gt (JSNum.num (1 / 2)) then 1 else 0) =
        (List.range n).map (fun x => cellOf (rng.output x)) ++ [cellOf (rng.output n)] := by
      rw [arraySet_length_eq _ _ _ h]
      rfl
    rw [hset]
    rfl

theorem seedRows_eq (cols : Nat) (rng : Rng) (rows : Nat) :
    (List.range rows).foldl
      (fun (st : List (List Nat) × Rng) y =>
        let r := seedRow cols st.2
        (arraySet st.1 y r.1, r.2))
      ([], rng) =
    ((List.range rows).map
        (fun y => (List.range cols).map (fun x => cellOf (rng.output (y * cols + x)))),
      rng.after (rows * cols)) := by
  induction rows with
  | zero => simp [Rng.after]
  | succ n ih =>
    rw [List.range_succ, List.foldl_append, ih, List.map_append]
    simp only [List.foldl_cons, List.foldl_nil, List.map_cons, List.map_nil]
    rw [seedRow_eq]
    simp only []
    have h : ((List.range n).map
        (fun y => (List.range cols).map (fun x => cellOf (rng.output (y * cols + x))))).length
        = n := by simp
    congr 1
    · rw [arraySet_length_eq _ _ _ h]
      congr 2
      apply List.map_congr_left
      intro x _
      rw [output_add]
    · rw [after_add, Nat.succ_mul]

theorem createLabyrinthFromSeed_maze (width height : Nat) (seed : JSNum) :
    (createLabyrinthFromSeed width height seed).maze =
      (List.range (height / 2)).map
        (fun y => (List.range (width / 2)).map
          (fun x => cellOf ((seededRandom seed).output (y * (width / 2) + x)))) := by
  unfold createLabyrinthFromSeed
  simp only []
  rw [seedRows_eq]

theorem createComplexLabyrinth_maze (positive : Nat → Nat → Bool) (width height : Nat) :
    (createComplexLabyrinth positive width height).maze =
      (List.range (height / 2)).map
        (fun y => (List.range (width / 2)).map
          (fun x => cryptoPattern positive x y (width / 2) (height / 2))) := by
  unfold createComplexLabyrinth
  simp only []
  rw [foldl_arraySet_range (fun y => (List.range (width / 2)).foldl
    (fun (row : List Nat) x => arraySet row x
      (cryptoPattern positive x y (width / 2) (height / 2))) [])]
  apply List.map_congr_left
  intro y _
  rw [foldl_arraySet_range]

theorem cell_of_map (f : Nat → Nat → Nat) (rows cols x y : Nat) (hx : x < cols) (hy : y < rows) :
    (((List.range rows).map (fun y => (List.range cols).map (fun x => f x y)))[y]?).bind
      (fun row => row[x]?) = some (f x y) := by
  simp [List.getElem?_map, List.getElem?_range hy, List.getElem?_range hx]

theorem cellOf_le_one (v : JSNum) : cellOf v = 0 ∨ cellOf v = 1 := by
  unfold cellOf; split <;> simp

theorem cryptoPattern_le_one (positive : Nat → Nat → Bool) (x y c r : Nat) :
    cryptoPattern positive x y c r = 0 ∨ cryptoPattern positive x y c r = 1 := by
  unfold cryptoPattern; split <;> simp

/-- Shape of a grid given as a map over rows and columns. -/
theorem map_grid_shape (f : Nat → Nat → Nat) (hf : ∀ x y, f x y = 0 ∨ f x y = 1)
    (rows cols : Nat) (maze : List (List Nat))
    (h : maze = (List.range rows).map (fun y => (List.range cols).map (fun x => f x y))) :
    maze.length = rows ∧ (∀ row ∈ maze, row.length = cols ∧ ∀ v ∈ row, v = 0 ∨ v = 1) ∧
    (cols = 0 ∨ rows = 0 → maze.flatten = []) := by
  subst h
  refine ⟨by simp, ?_, ?_⟩
  · intro row hrow
    rcases List.mem_map.mp hrow with ⟨y, _, rfl⟩
    refine ⟨by simp, ?_⟩
    intro v hv
    rcases List.mem_map.mp hv with ⟨x, _, rfl⟩
    exact hf x y
  · intro h0
    rcases h0 with h0 | h0
    · subst h0
      simp
    · subst h0
      simp

/-! ## Facts about the pipeline `textToBits`, `compressBits`, `bitsToHex` -/

set_option maxRecDepth 100000 in
theorem single_char_bits :
    ∀ c, c < 256 → (textToBits [c]).length = 8 ∧
      compressBits (textToBits [c]) = [if c % 2 = 1 then '1' else '0'] := by
  decide

theorem bitsToHex_one : bitsToHex ['1'] = ['8'] := by
  rw [bitsToHex_eq _ (by decide)]
  decide

theorem bitsToHex_zero : bitsToHex ['0'] = ['0'] := by
  rw [bitsToHex_eq _ (by decide)]
  decide

/-- The character of the lowest bit of a code unit. -/
theorem byteBits_last :
    ∀ c, c < 256 → (byteBits c)[7]? = some (if c % 2 = 1 then '1' else '0') := by
  set_option maxRecDepth 100000 in decide

theorem textToBits_length (text : List Nat) (h : ∀ c ∈ text, c < 256) :
    (textToBits text).length = 8 * text.length := by
  rw [textToBits_eq]
  induction text with
  | nil => rfl
  | cons c rest ih =>
    have hc := (byteBits_small c (h c (List.mem_cons_self _ _))).1
    have hr := ih (fun d hd => h d (List.mem_cons_of_mem _ hd))
    simp only [List.map_cons, List.flatten_cons, List.length_append, List.length_cons, hc, hr]
    omega

theorem textToBits_isBits (text : List Nat) (h : ∀ c ∈ text, c < 256) :
    IsBits (textToBits text) := by
  rw [textToBits_eq]
  intro ch hch
  rcases List.mem_flatten.mp hch with ⟨w, hw, hcw⟩
  rcases List.mem_map.mp hw with ⟨c, hc, rfl⟩
  exact (byteBits_small c (h c hc)).2.2 ch hcw

theorem textToBits_getElem? (text : List Nat) (h : ∀ c ∈ text, c < 256) (k j : Nat)
    (hk : k < text.length) (hj : j < 8) :
    (textToBits text)[8 * k + j]? = (byteBits text[k])[j]? := by
  have hL : ∀ w ∈ text.map byteBits, w.length = 8 := by
    intro w hw
    rcases List.mem_map.mp hw with ⟨c, hc, rfl⟩
    exact (byteBits_small c (h c hc)).1
  have hblock := join_block _ hL k (by simpa using hk)
  rw [← textToBits_eq] at hblock
  have hget : (text.map byteBits).getD k [] = byteBits text[k] := by
    simp [List.getD, hk]
  rw [hget] at hblock
  rw [← hblock, List.getElem?_drop, List.getElem?_take, if_pos (by omega)]

/-- The bit kept by `compressBits` for block `i` of the bits of a text. -/
theorem compress_text_getElem? (text : List Nat) (h : ∀ c ∈ text, c < 256) (i : Nat)
    (hi : i < (text.length + 2) / 3) :
    (compressBits (textToBits text))[i]? =
      (text[min (3 * i + 2) (text.length - 1)]?).map (fun c => if c % 2 = 1 then '1' else '0') := by
  have hlen := textToBits_length text h
  have hidx : min (3 * i + 2) (text.length - 1) < text.length := by omega
  have hC := (compressBits_getElem? (textToBits text) i (by rw [hlen]; omega))
  rw [hC, blockChar_of_isBits _ (textToBits_isBits text h) i (by rw [hlen]; omega), hlen]
  have e : min (24 * i + 23) (8 * text.length - 1) =
      8 * min (3 * i + 2) (text.length - 1) + 7 := by omega
  rw [e, textToBits_getElem? text h _ 7 hidx (by decide), List.getElem?_eq_getElem hidx,
    byteBits_last _ (h _ (List.getElem_mem _))]
  rfl

theorem compress_text_length (text : List Nat) (h : ∀ c ∈ text, c < 256) :
    (compressBits (textToBits text)).length = (text.length + 2) / 3 := by
  rw [compressBits_length, textToBits_length text h]
  omega

/-! ## Facts about the exact recurrence -/

theorem lcgExact_succ_lt (s n : Nat) : lcgExact s (n + 1) < 233280 :=
  Nat.mod_lt _ (by decide)

theorem labyrinth_ext (g h : Labyrinth) (hm : g.maze = h.maze) (hc : g.cellSize = h.cellSize)
    (hcols : g.cols = h.cols) (hrows : g.rows = h.rows) : g = h := by
  cases g; cases h; simp_all

/-! ## Facts about the compression ratio -/

theorem byteBits_length_ge (c : Nat) : 8 ≤ (byteBits c).length := by
  unfold byteBits padStart
  rw [List.length_append, List.length_replicate]
  omega

theorem textToBits_length_ge (text : List Nat) : 8 * text.length ≤ (textToBits text).length := by
  rw [textToBits_eq]
  induction text with
  | nil => simp
  | cons c rest ih =>
    have hc := byteBits_length_ge c
    simp only [List.map_cons, List.flatten_cons, List.length_append, List.length_cons]
    omega

theorem ratio_exact (len : Nat) (hlen : 0 < len) :
    (((len + 23) / 24 : Nat) : ℚ) ≠ 0 ∧
    (len : ℚ) / ((len + 23) / 24 : Nat) ≤ 24 ∧
    ((len : ℚ) / ((len + 23) / 24 : Nat) = 24 ↔ len % 24 = 0) := by
  have hm : 0 < (len + 23) / 24 := by omega
  have hmq : (0:ℚ) < (((len + 23) / 24 : Nat) : ℚ) := by exact_mod_cast hm
  have hle : len ≤ 24 * ((len + 23) / 24) := by omega
  have hleq : (len : ℚ) ≤ 24 * (((len + 23) / 24 : Nat) : ℚ) := by exact_mod_cast hle
  refine ⟨ne_of_gt hmq, ?_, ?_⟩
  · rw [div_le_iff₀ hmq]; exact hleq
  · rw [div_eq_iff (ne_of_gt hmq)]
    constructor
    · intro h
      have : len = 24 * ((len + 23) / 24) := by exact_mod_cast h
      omega
    · intro h
      have : len = 24 * ((len + 23) / 24) := by omega
      exact_mod_cast this

/-- The quotient computed for the ratio readout, for a bit string of fewer than
`2 ^ 53` characters: a double at most 24, equal to 24 exactly for a multiple
of 24. -/
theorem ratio_double (len : Nat) (hlen : 0 < len) (hbig : len < 2 ^ 53) :
    ∃ r : ℚ, (JSNum.num (len : ℚ)).div (JSNum.num (((len + 23) / 24 : Nat) : ℚ)) = JSNum.num r ∧
      r ≤ 24 ∧ (r = 24 ↔ len % 24 = 0) := by
  rcases ratio_exact len hlen with ⟨hm0, hle, hiff⟩
  have hm : 0 < (len + 23) / 24 := by omega
  have hmq : (0:ℚ) < (((len + 23) / 24 : Nat) : ℚ) := by exact_mod_cast hm
  have hq0 : (0:ℚ) ≤ (len : ℚ) / (((len + 23) / 24 : Nat) : ℚ) := by positivity
  have hdiv : (JSNum.num (len : ℚ)).div (JSNum.num (((len + 23) / 24 : Nat) : ℚ)) =
      roundF64 ((len : ℚ) / (((len + 23) / 24 : Nat) : ℚ)) := by
    simp only [JSNum.div]
    rw [if_neg hm0, roundSigned_of_nonneg _ hq0]
  rw [hdiv]
  by_cases h24 : len % 24 = 0
  · have hq : (len : ℚ) / (((len + 23) / 24 : Nat) : ℚ) = ((24 : Nat) : ℚ) := by
      rw [hiff.mpr h24]; norm_num
    rw [hq, roundF64_natCast_of_lt 24 (by decide)]
    exact ⟨24, by norm_num, by norm_num, by simp [h24]⟩
  · have hT : (len : ℚ) / (((len + 23) / 24 : Nat) : ℚ) * 2 ^ 48 < 2 ^ 53 := by
      have : (len : ℚ) / (((len + 23) / 24 : Nat) : ℚ) * 2 ^ 48 ≤ 24 * 2 ^ 48 :=
        mul_le_mul_of_nonneg_right hle (by positivity)
      have h2 : (24 : ℚ) * 2 ^ 48 < 2 ^ 53 := by norm_num
      linarith
    rcases roundF64_err_gen _ hq0 48 (by decide) hT with ⟨r, hr, _, he⟩
    rw [abs_le] at he
    have hmlt : (len + 23) / 24 < 2 ^ 49 := by
      have : (2:Nat) ^ 53 = 9007199254740992 := by decide
      have : (2:Nat) ^ 49 = 562949953421312 := by decide
      omega
    have hgap : 24 * ((len + 23) / 24) ≥ len + 1 := by omega
    have hgapq : (len : ℚ) + 1 ≤ 24 * (((len + 23) / 24 : Nat) : ℚ) := by exact_mod_cast hgap
    have hmltq : (((len + 23) / 24 : Nat) : ℚ) < 2 ^ 49 := by exact_mod_cast hmlt
    -- the exact quotient is below 24 by at least 1 / m, and 1 / m exceeds 2 ^ (-49)
    have hq : (len : ℚ) / (((len + 23) / 24 : Nat) : ℚ) ≤
        24 - 1 / (((len + 23) / 24 : Nat) : ℚ) := by
      rw [div_le_iff₀ hmq, sub_mul, one_div, inv_mul_cancel₀ hm0]
      linarith
    have hinv : (1 : ℚ) / 2 ^ 49 < 1 / (((len + 23) / 24 : Nat) : ℚ) :=
      one_div_lt_one_div_of_lt hmq hmltq
    have hrlt : r < 24 := by
      have he2 := he.2
      rw [show (48 + 1 : Nat) = 49 from rfl] at he2
      linarith
    exact ⟨r, hr, hrlt.le, by
      constructor
      · intro h; rw [h] at hrlt; exact absurd hrlt (lt_irrefl _)
      · intro h; exact absurd h h24⟩

/-! ## Facts about the methods on the state -/

/-- What `updateZoomedView` leaves alone: everything but the zoomed canvas and
the overlay flag. -/
theorem updateZoomedView_frame (st : SystemState) :
    st.updateZoomedView.state.labyrinthData = st.labyrinthData ∧
    st.updateZoomedView.state.zoomLevel = st.zoomLevel ∧
    st.updateZoomedView.state.labyrinthCanvas = st.labyrinthCanvas ∧
    st.updateZoomedView.state.dataInput = st.dataInput ∧
    st.updateZoomedView.state.inputBits = st.inputBits ∧
    st.updateZoomedView.state.outputBits = st.outputBits ∧
    st.updateZoomedView.state.compressionRatio = st.compressionRatio ∧
    st.updateZoomedView.state.encodedData = st.encodedData ∧
    st.updateZoomedView.state.zoomLevelText = st.zoomLevelText ∧
    st.updateZoomedView.state.detailsVisible = st.detailsVisible ∧
    st.updateZoomedView.state.alerts = st.alerts := by
  unfold SystemState.updateZoomedView
  simp only []
  split
  · exact ⟨rfl, rfl, rfl, rfl, rfl, rfl, rfl, rfl, rfl, rfl, rfl⟩
  · split
    · exact ⟨rfl, rfl, rfl, rfl, rfl, rfl, rfl, rfl, rfl, rfl, rfl⟩
    · exact ⟨rfl, rfl, rfl, rfl, rfl, rfl, rfl, rfl, rfl, rfl, rfl⟩

theorem updateZoomedView_threw (st : SystemState) (data : Labyrinth)
    (h : st.labyrinthData = some data) :
    st.updateZoomedView.threw = decide (data.maze = []) := by
  unfold SystemState.updateZoomedView
  simp only [h]
  cases hm : data.maze with
  | nil => simp
  | cons row rest => simp

/-! ## Facts about the zoom rendering -/

theorem foldl_painted {ι : Type} (P : Ctx → Prop) (f : Ctx → ι → Ctx) (g : ι → List Shape)
    (hf : ∀ ctx i, P ctx → P (f ctx i) ∧ (f ctx i).painted = ctx.painted ++ g i) :
    ∀ (l : List ι) (ctx : Ctx), P ctx →
      P (l.foldl f ctx) ∧ (l.foldl f ctx).painted = ctx.painted ++ (l.map g).flatten := by
  intro l
  induction l with
  | nil => intro ctx h; simp [h]
  | cons i rest ih =>
    intro ctx h
    have h1 := hf ctx i h
    have h2 := ih (f ctx i) h1.1
    rw [List.foldl_cons]
    refine ⟨h2.1, ?_⟩
    rw [h2.2, h1.2]
    simp [List.append_assoc]

theorem zoomCells_painted (maze : List (List Nat)) (z opacity offsetX offsetY : JSNum)
    (ctx : Ctx) :
    (zoomCells maze z opacity offsetX offsetY ctx).painted =
      ctx.painted ++ cellShapes maze z opacity offsetX offsetY := by
  unfold zoomCells cellShapes
  refine (foldl_painted (fun _ => True) _
    (fun y => ((List.range (maze.getD y []).length).map
      (fun x =>
        if (maze.getD y []).getD x 0 = 1 then [cellShape z opacity offsetX offsetY x y]
        else [])).flatten) ?_ _ ctx trivial).2
  intro ctx y _
  refine ⟨trivial, ?_⟩
  refine (foldl_painted (fun _ => True) _
    (fun x =>
      if (maze.getD y []).getD x 0 = 1 then [cellShape z opacity offsetX offsetY x y]
      else []) ?_ _ ctx trivial).2
  intro ctx x _
  refine ⟨trivial, ?_⟩
  by_cases h : (maze.getD y []).getD x 0 = 1
  · simp only [h, if_true]
    rfl
  · simp only [h, if_false, List.append_nil]

theorem strokeLine_painted (ctx : Ctx) (x1 y1 x2 y2 : JSNum) :
    ((((ctx.beginPath).moveTo x1 y1).lineTo x2 y2).stroke).painted =
      ctx.painted ++ [Shape.stroke ctx.strokeStyle ctx.lineWidth [[(x1, y1), (x2, y2)]]] ∧
    ((((ctx.beginPath).moveTo x1 y1).lineTo x2 y2).stroke).strokeStyle = ctx.strokeStyle ∧
    ((((ctx.beginPath).moveTo x1 y1).lineTo x2 y2).stroke).lineWidth = ctx.lineWidth := by
  simp [Ctx.beginPath, Ctx.moveTo, Ctx.lineTo, Ctx.stroke]

theorem zoomGrid_painted (rows cols : Nat) (z opacity offsetX offsetY : JSNum) (ctx : Ctx) :
    (zoomGrid rows cols z opacity offsetX offsetY ctx).painted =
      ctx.painted ++ gridShapes rows cols z opacity offsetX offsetY := by
  unfold zoomGrid gridShapes
  simp only []
  have hP : ∀ c : Ctx,
      (c.strokeStyle = Style.rgba 102 126 234 (opacity.mul (roundF64 (3 / 10))) ∧
        c.lineWidth = JSNum.num (1 / 2)) → ∀ x1 y1 x2 y2,
      ((((c.beginPath).moveTo x1 y1).lineTo x2 y2).stroke).painted =
        c.painted ++ [lineShape opacity x1 y1 x2 y2] := by
    intro c hc x1 y1 x2 y2
    rw [(strokeLine_painted c x1 y1 x2 y2).1, hc.1, hc.2]
    rfl
  have hinv : ∀ c : Ctx,
      (c.strokeStyle = Style.rgba 102 126 234 (opacity.mul (roundF64 (3 / 10))) ∧
        c.lineWidth = JSNum.num (1 / 2)) → ∀ x1 y1 x2 y2,
      (((((c.beginPath).moveTo x1 y1).lineTo x2 y2).stroke).strokeStyle =
          Style.rgba 102 126 234 (opacity.mul (roundF64 (3 / 10))) ∧
        ((((c.beginPath).moveTo x1 y1).lineTo x2 y2).stroke).lineWidth = JSNum.num (1 / 2)) := by
    intro c hc x1 y1 x2 y2
    rw [(strokeLine_painted c x1 y1 x2 y2).2.1, (strokeLine_painted c x1 y1 x2 y2).2.2]
    exact hc
  have h1 := foldl_painted
    (fun c => c.strokeStyle = Style.rgba 102 126 234 (opacity.mul (roundF64 (3 / 10))) ∧
      c.lineWidth = JSNum.num (1 / 2))
    (fun (ctx : Ctx) (y : Nat) =>
      (((ctx.beginPath).moveTo offsetX (offsetY.add ((JSNum.num y).mul z))).lineTo
        (offsetX.add ((JSNum.num cols).mul z)) (offsetY.add ((JSNum.num y).mul z))).stroke)
    (fun (y : Nat) => [lineShape opacity offsetX (offsetY.add ((JSNum.num (y : ℚ)).mul z))
        (offsetX.add ((JSNum.num (cols : ℚ)).mul z)) (offsetY.add ((JSNum.num (y : ℚ)).mul z))])
    (fun c y hc => ⟨hinv c hc _ _ _ _, hP c hc _ _ _ _⟩)
    (List.range (rows + 1))
    ((ctx.setStrokeStyle (Style.rgba 102 126 234 (opacity.mul (roundF64 (3 / 10))))).setLineWidth
      (JSNum.num (1 / 2)))
    ⟨rfl, rfl⟩
  have h2 := foldl_painted
    (fun c => c.strokeStyle = Style.rgba 102 126 234 (opacity.mul (roundF64 (3 / 10))) ∧
      c.lineWidth = JSNum.num (1 / 2))
    (fun (ctx : Ctx) (x : Nat) =>
      (((ctx.beginPath).moveTo (offsetX.add ((JSNum.num x).mul z)) offsetY).lineTo
        (offsetX.add ((JSNum.num x).mul z)) (offsetY.add ((JSNum.num rows).mul z))).stroke)
    (fun (x : Nat) => [lineShape opacity (offsetX.add ((JSNum.num (x : ℚ)).mul z)) offsetY
        (offsetX.add ((JSNum.num (x : ℚ)).mul z)) (offsetY.add ((JSNum.num (rows : ℚ)).mul z))])
    (fun c x hc => ⟨hinv c hc _ _ _ _, hP c hc _ _ _ _⟩)
    (List.range (cols + 1)) _ h1.1
  rw [h2.2, h1.2]
  have hflat : ∀ {ι : Type} (l : List ι) (g : ι → Shape),
      (l.map (fun i => [g i])).flatten = l.map g := by
    intro ι l g
    induction l with
    | nil => rfl
    | cons a rest ih => simp [ih]
  rw [hflat, hflat]
  simp [Ctx.setStrokeStyle, Ctx.setLineWidth, List.append_assoc]

/-- The effect of `updateZoomedView` on a grid with at least one row: no error,
the shapes of `zoomPainting` are painted after what was there, and the overlay
flag is set from the level. -/
theorem updateZoomedView_painted (st : SystemState) (data : Labyrinth)
    (hdata : st.labyrinthData = some data) (hmaze : data.maze ≠ []) :
    st.updateZoomedView.threw = false ∧
    st.updateZoomedView.state.zoomedCanvas.ctx.painted =
      st.zoomedCanvas.ctx.painted ++
        zoomPainting data st.zoomLevel st.zoomedCanvas.width st.zoomedCanvas.height ∧
    st.updateZoomedView.state.zoomedCanvas.width = st.zoomedCanvas.width ∧
    st.updateZoomedView.state.zoomedCanvas.height = st.zoomedCanvas.height ∧
    st.updateZoomedView.state.zoomedViewActive =
      (JSNum.num (st.zoomLevel : ℚ)).gt (JSNum.num 5) := by
  cases hm : data.maze with
  | nil => exact absurd hm hmaze
  | cons row0 rest =>
    refine ⟨?_, ?_, ?_, ?_, ?_⟩
    · unfold SystemState.updateZoomedView
      simp only [hdata, hm, List.head?_cons]
    · unfold SystemState.updateZoomedView zoomPainting
      simp only [hdata, hm, List.head?_cons, List.headD_cons]
      cases hg : (JSNum.num (st.zoomLevel : ℚ)).gt (JSNum.num 10) with
      | true =>
        simp only [if_true]
        rw [zoomGrid_painted, zoomCells_painted]
        simp [Ctx.fillRect, Ctx.setFillStyle, clearShape, List.append_assoc]
      | false =>
        simp only [Bool.false_eq_true, if_false]
        rw [zoomCells_painted]
        simp [Ctx.fillRect, Ctx.setFillStyle, clearShape, List.append_assoc]
    · unfold SystemState.updateZoomedView
      simp only [hdata, hm, List.head?_cons]
    · unfold SystemState.updateZoomedView
      simp only [hdata, hm, List.head?_cons]
    · unfold SystemState.updateZoomedView
      simp only [hdata, hm, List.head?_cons]

theorem visible_append_clear (width height : Nat) (old rest : List Shape) :
    visible width height (old ++ clearShape width height :: rest) =
      visible width height (clearShape width height :: rest) := by
  unfold visible
  rw [List.foldl_append, List.foldl_cons, List.foldl_cons, if_pos rfl, if_pos rfl]

theorem zoomPainting_eq_cons (data : Labyrinth) (level : Int) (width height : Nat) :
    ∃ rest, zoomPainting data level width height = clearShape width height :: rest :=
  ⟨_, rfl⟩

theorem visible_after_zoomPainting (data : Labyrinth) (level : Int) (width height : Nat)
    (old : List Shape) :
    visible width height (old ++ zoomPainting data level width height) =
      visible width height (zoomPainting data level width height) := by
  rcases zoomPainting_eq_cons data level width height with ⟨rest, h⟩
  rw [h, visible_append_clear]

/-! ## Exact results of the arithmetic on small dyadic numbers -/

theorem roundHalfEven_of_dvd (x y : Nat) (hy : 0 < y) (h : y ∣ x) : roundHalfEven x y = x / y := by
  unfold roundHalfEven
  simp only []
  rw [Nat.mod_eq_zero_of_dvd h, if_pos (by omega)]

theorem roundHalfEven_ge (x y : Nat) : x / y ≤ roundHalfEven x y := by
  unfold roundHalfEven
  simp only []
  split
  · exact Nat.le_refl _
  · split
    · split <;> omega
    · omega

/-- A quotient `a / 2 ^ j` with `a < 2 ^ 53` is a double: rounding leaves it unchanged. -/
theorem roundNonneg_dyadic (a j : Nat) (ha : a < 2 ^ 53) (hj : j ≤ 1074) :
    roundNonneg a (2 ^ j) = JSNum.num ((a : ℚ) / 2 ^ j) := by
  have hpj : 0 < 2 ^ j := by positivity
  have hnot : ¬ 2 ^ j * 2 ^ 53 ≤ a := by
    have : 1 * 2 ^ 53 ≤ 2 ^ j * 2 ^ 53 := Nat.mul_le_mul_right _ hpj
    omega
  have ht : j ≤ scaleUp a (2 ^ j) 1074 0 := by
    apply scaleUp_ge a (2 ^ j) j 1074 0 (by omega) (by omega)
    intro u hu
    have h1 : (2:Nat) ^ (u + 1) ≤ 2 ^ j := Nat.pow_le_pow_right (by decide) (by omega)
    calc a * 2 ^ (u + 1) ≤ a * 2 ^ j := Nat.mul_le_mul_left a h1
      _ < 2 ^ 53 * 2 ^ j := Nat.mul_lt_mul_of_pos_right ha hpj
      _ = 2 ^ j * 2 ^ 53 := Nat.mul_comm _ _
  unfold roundNonneg
  rw [if_neg hnot]
  simp only []
  generalize scaleUp a (2 ^ j) 1074 0 = t at ht
  have hdvd : 2 ^ j ∣ a * 2 ^ t := Dvd.dvd.mul_left (pow_dvd_pow 2 ht) a
  rw [roundHalfEven_of_dvd _ _ hpj hdvd]
  congr 1
  have hsplit : a * 2 ^ t = (a * 2 ^ (t - j)) * 2 ^ j := by
    rw [Nat.mul_assoc, ← Nat.pow_add, Nat.sub_add_cancel ht]
  have hq : a * 2 ^ t / 2 ^ j = a * 2 ^ (t - j) := by
    rw [hsplit, Nat.mul_div_cancel _ hpj]
  rw [hq]
  have ht2 : ((2 ^ t : Nat) : ℚ) = 2 ^ (t - j) * 2 ^ j := by
    push_cast
    rw [← pow_add, Nat.sub_add_cancel ht]
  rw [ht2]
  push_cast
  have h1 : (2:ℚ) ^ (t - j) ≠ 0 := by positivity
  have h2 : (2:ℚ) ^ j ≠ 0 := by positivity
  field_simp
  ring

/-- A non-negative multiple of `1/4` with numerator below `2 ^ 53` is a double. -/
theorem roundF64_quarter (k : Nat) (hk : k < 2 ^ 53) :
    roundF64 ((k : ℚ) / 4) = JSNum.num ((k : ℚ) / 4) := by
  have h0 : (0:ℚ) ≤ (k : ℚ) / 4 := by positivity
  have hb : 0 < ((k : ℚ) / 4).den := Rat.den_pos _
  have hden : ((k : ℚ) / 4).den ∣ 4 := by
    have h := Rat.den_dvd (k : ℤ) 4
    rw [Rat.divInt_eq_div] at h
    have h' : ((((k : ℤ) : ℚ) / ((4 : ℤ) : ℚ)).den : ℤ) ∣ ((4 : Nat) : ℤ) := by simpa using h
    have h'' := Int.natCast_dvd_natCast.mp h'
    simpa using h''
  have hnum : ((((k : ℚ) / 4).num.natAbs : ℕ) : ℚ) = ((k : ℚ) / 4).num := by
    have : (0:ℤ) ≤ ((k : ℚ) / 4).num := Rat.num_nonneg.mpr h0
    rw [← Int.cast_natCast, Int.natAbs_of_nonneg this]
  have hqd : ((((k : ℚ) / 4).num.natAbs : ℕ) : ℚ) / ((((k : ℚ) / 4).den : ℕ) : ℚ) = (k : ℚ) / 4 := by
    rw [hnum]; exact Rat.num_div_den _
  unfold roundF64
  generalize ((k : ℚ) / 4).num.natAbs = a at hqd
  generalize ((k : ℚ) / 4).den = d at hqd hden hb
  have hd4 : d ≤ 4 := Nat.le_of_dvd (by decide) hden
  have hD : (0:ℚ) < (d : ℚ) := by exact_mod_cast hb
  have hcross : a * 4 = k * d := by
    have h1 : (a : ℚ) * 4 = (k : ℚ) * d := by
      field_simp at hqd
      linarith
    exact_mod_cast h1
  have ha : a < 2 ^ 53 := by
    have : a * 4 ≤ k * 4 := by rw [hcross]; exact Nat.mul_le_mul_left k hd4
    omega
  have hcases : d = 2 ^ 0 ∨ d = 2 ^ 1 ∨ d = 2 ^ 2 := by
    interval_cases d
    · simp
    · simp
    · exact absurd hden (by decide)
    · simp
  rcases hcases with h | h | h
  · rw [h, roundNonneg_dyadic a 0 ha (by decide), ← hqd, h]; norm_num
  · rw [h, roundNonneg_dyadic a 1 ha (by decide), ← hqd, h]; norm_num
  · rw [h, roundNonneg_dyadic a 2 ha (by decide), ← hqd, h]; norm_num

/-- A multiple of `1/4` of either sign with numerator below `2 ^ 53` in
magnitude is a double. -/
theorem roundSigned_quarter (k : ℤ) (hk : |k| < 2 ^ 53) :
    roundSigned ((k : ℚ) / 4) = JSNum.num ((k : ℚ) / 4) := by
  rcases le_or_lt 0 k with hpos | hneg
  · have hq0 : (0:ℚ) ≤ (k : ℚ) / 4 := by
      have : (0:ℚ) ≤ (k : ℚ) := by exact_mod_cast hpos
      positivity
    rw [roundSigned_of_nonneg _ hq0]
    obtain ⟨n, rfl⟩ := Int.eq_ofNat_of_zero_le hpos
    have hn : n < 2 ^ 53 := by
      rw [abs_of_nonneg hpos] at hk
      exact_mod_cast hk
    have := roundF64_quarter n hn
    simpa using this
  · have hq0 : (k : ℚ) / 4 < 0 := by
      have : (k : ℚ) < 0 := by exact_mod_cast hneg
      linarith
    unfold roundSigned
    rw [if_pos hq0]
    obtain ⟨n, hn⟩ := Int.eq_ofNat_of_zero_le (by omega : 0 ≤ -k)
    have hnlt : n < 2 ^ 53 := by
      rw [abs_of_neg hneg, hn] at hk
      exact_mod_cast hk
    have hqn : -((k : ℚ) / 4) = (n : ℚ) / 4 := by
      have : ((-k : ℤ) : ℚ) = (n : ℚ) := by rw [hn]; simp
      push_cast at this
      linarith
    rw [hqn, roundF64_quarter n hnlt]
    simp only [JSNum.neg]
    congr 1
    linarith

theorem mul_exact (a b : ℚ) (k : ℤ) (h : a * b = (k : ℚ) / 4) (hk : |k| < 2 ^ 53) :
    (JSNum.num a).mul (JSNum.num b) = JSNum.num (a * b) := by
  simp only [JSNum.mul]
  rw [h, roundSigned_quarter k hk]

theorem add_exact (a b : ℚ) (k : ℤ) (h : a + b = (k : ℚ) / 4) (hk : |k| < 2 ^ 53) :
    (JSNum.num a).add (JSNum.num b) = JSNum.num (a + b) := by
  simp only [JSNum.add]
  rw [h, roundSigned_quarter k hk]

theorem sub_exact (a b : ℚ) (k : ℤ) (h : a - b = (k : ℚ) / 4) (hk : |k| < 2 ^ 53) :
    (JSNum.num a).sub (JSNum.num b) = JSNum.num (a - b) := by
  simp only [JSNum.sub, JSNum.neg, JSNum.add]
  rw [← sub_eq_add_neg, h, roundSigned_quarter k hk]

theorem div_exact (a b : ℚ) (hb : b ≠ 0) (k : ℤ) (h : a / b = (k : ℚ) / 4) (hk : |k| < 2 ^ 53) :
    (JSNum.num a).div (JSNum.num b) = JSNum.num (a / b) := by
  simp only [JSNum.div, if_neg hb]
  rw [h, roundSigned_quarter k hk]

/-- The exact scaled cell size: no rounding occurs for levels below `2 ^ 50`
with `cellSize * (level + 1)` below `2 ^ 51`. -/
theorem zoomedCellSizeOf_exact (c l : Nat) (h1 : 1 ≤ l) (hl : l < 2 ^ 50)
    (hc : c * (l + 1) < 2 ^ 51) :
    zoomedCellSizeOf c (JSNum.num (l : ℚ)) = JSNum.num ((c : ℚ) * (1 + ((l : ℚ) - 1) / 2)) := by
  have p50 : (2:ℤ) ^ 50 = 1125899906842624 := by norm_num
  have p51 : (2:ℤ) ^ 51 = 2251799813685248 := by norm_num
  have p53 : (2:ℤ) ^ 53 = 9007199254740992 := by norm_num
  have hlz : (l : ℤ) < 2 ^ 50 := by exact_mod_cast hl
  have h1z : (1 : ℤ) ≤ (l : ℤ) := by exact_mod_cast h1
  have hcz : ((c * (l + 1) : Nat) : ℤ) < 2 ^ 51 := by exact_mod_cast hc
  have hc0 : (0 : ℤ) ≤ ((c * (l + 1) : Nat) : ℤ) := Int.natCast_nonneg _
  unfold zoomedCellSizeOf
  rw [sub_exact (l : ℚ) 1 (4 * (l : ℤ) - 4) (by push_cast; ring)
    (by rw [abs_lt]; constructor <;> omega)]
  rw [mul_exact ((l : ℚ) - 1) (1 / 2) (2 * (l : ℤ) - 2) (by push_cast; ring)
    (by rw [abs_lt]; constructor <;> omega)]
  rw [add_exact 1 (((l : ℚ) - 1) * (1 / 2)) (2 * (l : ℤ) + 2) (by push_cast; ring)
    (by rw [abs_lt]; constructor <;> omega)]
  rw [mul_exact (c : ℚ) (1 + ((l : ℚ) - 1) * (1 / 2)) (2 * ((c * (l + 1) : Nat) : ℤ))
    (by push_cast; ring) (by rw [abs_lt]; constructor <;> omega)]
  congr 1
  ring

/-! ## Exact zoom geometry at an integer level of either sign -/

theorem abs_scaled_le (n c : Nat) (L : ℤ) :
    |(n : ℤ) * ((c : ℤ) * (L + 1))| ≤ ((n * (c * (L.natAbs + 1)) : Nat) : ℤ) := by
  have h1 : |L + 1| ≤ |L| + 1 := by
    have h := abs_add L 1
    simpa using h
  rw [abs_mul, abs_mul, abs_of_nonneg (Int.natCast_nonneg n), abs_of_nonneg (Int.natCast_nonneg c)]
  push_cast
  exact mul_le_mul_of_nonneg_left (mul_le_mul_of_nonneg_left h1 (Int.natCast_nonneg c))
    (Int.natCast_nonneg n)

/-- The exact scaled cell size at an integer level: no rounding occurs while
the level is below `2 ^ 50` in magnitude and `p = cellSize * (level + 1)` is
below `2 ^ 51` in magnitude. -/
theorem zoomedCellSizeOf_exact_int (c : Nat) (L p : ℤ) (hp : p = (c : ℤ) * (L + 1))
    (hl : |L| < 2 ^ 50) (hc : |p| < 2 ^ 51) :
    zoomedCellSizeOf c (JSNum.num (L : ℚ)) =
      JSNum.num ((c : ℚ) * (1 + ((L : ℚ) - 1) / 2)) := by
  have p50 : (2:ℤ) ^ 50 = 1125899906842624 := by norm_num
  have p51 : (2:ℤ) ^ 51 = 2251799813685248 := by norm_num
  have p53 : (2:ℤ) ^ 53 = 9007199254740992 := by norm_num
  rw [abs_lt] at hl hc
  unfold zoomedCellSizeOf
  rw [sub_exact (L : ℚ) 1 (4 * L - 4) (by push_cast; ring)
    (by rw [abs_lt]; constructor <;> omega)]
  rw [mul_exact ((L : ℚ) - 1) (1 / 2) (2 * L - 2) (by push_cast; ring)
    (by rw [abs_lt]; constructor <;> omega)]
  rw [add_exact 1 (((L : ℚ) - 1) * (1 / 2)) (2 * L + 2) (by push_cast; ring)
    (by rw [abs_lt]; constructor <;> omega)]
  rw [mul_exact (c : ℚ) (1 + ((L : ℚ) - 1) * (1 / 2)) (2 * p)
    (by rw [hp]; push_cast; ring) (by rw [abs_lt]; constructor <;> omega)]
  congr 1
  ring

/-- The exact offset: no rounding occurs for a size below `2 ^ 50` and an
extent `count * z = q / 2` with `q` below `2 ^ 50` in magnitude. -/
theorem offsetOf_exact_int (w n : Nat) (zq : ℚ) (q : ℤ) (hq : (n : ℚ) * zq = (q : ℚ) / 2)
    (hqb : |q| < 2 ^ 50) (hw : w < 2 ^ 50) :
    offsetOf w n (JSNum.num zq) = JSNum.num ((w : ℚ) / 2 - (n : ℚ) * zq / 2) := by
  have p50 : (2:ℤ) ^ 50 = 1125899906842624 := by norm_num
  have p53 : (2:ℤ) ^ 53 = 9007199254740992 := by norm_num
  have hwz : (w : ℤ) < 2 ^ 50 := by exact_mod_cast hw
  have hw0 : (0 : ℤ) ≤ (w : ℤ) := Int.natCast_nonneg _
  rw [abs_lt] at hqb
  unfold offsetOf
  rw [div_exact (w : ℚ) 2 (by norm_num) (2 * (w : ℤ)) (by push_cast; ring)
    (by rw [abs_lt]; constructor <;> omega)]
  rw [mul_exact (n : ℚ) zq (2 * q) (by rw [hq]; push_cast; ring)
    (by rw [abs_lt]; constructor <;> omega)]
  rw [div_exact ((n : ℚ) * zq) 2 (by norm_num) q (by rw [hq]; ring)
    (by rw [abs_lt]; constructor <;> omega)]
  rw [sub_exact ((w : ℚ) / 2) ((n : ℚ) * zq / 2) (2 * (w : ℤ) - q)
    (by rw [hq]; push_cast; ring) (by rw [abs_lt]; constructor <;> omega)]

/-- The exact position of column (or row) `x`, with `x * z = qx / 2`. -/
theorem position_exact_int (w n x : Nat) (zq oq : ℚ) (q qx : ℤ)
    (hq : (n : ℚ) * zq = (q : ℚ) / 2) (hqx : (x : ℚ) * zq = (qx : ℚ) / 2)
    (ho : oq = (w : ℚ) / 2 - (n : ℚ) * zq / 2)
    (hqb : |q| < 2 ^ 50) (hqxb : |qx| < 2 ^ 50) (hw : w < 2 ^ 50) :
    (JSNum.num oq).add ((JSNum.num (x : ℚ)).mul (JSNum.num zq)) =
      JSNum.num (oq + (x : ℚ) * zq) := by
  have p50 : (2:ℤ) ^ 50 = 1125899906842624 := by norm_num
  have p53 : (2:ℤ) ^ 53 = 9007199254740992 := by norm_num
  have hwz : (w : ℤ) < 2 ^ 50 := by exact_mod_cast hw
  have hw0 : (0 : ℤ) ≤ (w : ℤ) := Int.natCast_nonneg _
  rw [abs_lt] at hqb hqxb
  rw [mul_exact (x : ℚ) zq (2 * qx) (by rw [hqx]; push_cast; ring)
    (by rw [abs_lt]; constructor <;> omega)]
  rw [add_exact oq ((x : ℚ) * zq) (2 * (w : ℤ) - q + 2 * qx)
    (by rw [ho, hqx, hq]; push_cast; ring) (by rw [abs_lt]; constructor <;> omega)]

/-- The right margin `size - offset - count * z`, computed in doubles, is the
offset itself. -/
theorem margin_exact_int (w n : Nat) (zq oq : ℚ) (q : ℤ)
    (hq : (n : ℚ) * zq = (q : ℚ) / 2) (ho : oq = (w : ℚ) / 2 - (n : ℚ) * zq / 2)
    (hqb : |q| < 2 ^ 50) (hw : w < 2 ^ 50) :
    ((JSNum.num (w : ℚ)).sub (JSNum.num oq)).sub ((JSNum.num (n : ℚ)).mul (JSNum.num zq)) =
      JSNum.num oq := by
  have p50 : (2:ℤ) ^ 50 = 1125899906842624 := by norm_num
  have p53 : (2:ℤ) ^ 53 = 9007199254740992 := by norm_num
  have hwz : (w : ℤ) < 2 ^ 50 := by exact_mod_cast hw
  have hw0 : (0 : ℤ) ≤ (w : ℤ) := Int.natCast_nonneg _
  rw [abs_lt] at hqb
  rw [sub_exact (w : ℚ) oq (2 * (w : ℤ) + q) (by rw [ho, hq]; push_cast; ring)
    (by rw [abs_lt]; constructor <;> omega)]
  rw [mul_exact (n : ℚ) zq (2 * q) (by rw [hq]; push_cast; ring)
    (by rw [abs_lt]; constructor <;> omega)]
  rw [sub_exact ((w : ℚ) - oq) ((n : ℚ) * zq) (2 * (w : ℤ) - q)
    (by rw [ho, hq]; push_cast; ring) (by rw [abs_lt]; constructor <;> omega)]
  congr 1
  rw [ho, hq]
  ring

/-! ## Facts about the opacity and the thresholds -/

theorem scaleDown_spec (a b : Nat) :
    ∀ fuel sh, b * 2 ^ (52 + sh) ≤ a → b * 2 ^ (52 + scaleDown a b fuel sh) ≤ a := by
  intro fuel
  induction fuel with
  | zero => intro sh h; simpa [scaleDown] using h
  | succ fuel ih =>
    intro sh h
    unfold scaleDown
    split
    · exact h
    · apply ih (sh + 1)
      have e : 52 + (sh + 1) = 53 + sh := by omega
      rw [e]; omega

/-- Rounding a rational that is at least 1 gives at least 1 (or `Infinity`). -/
theorem roundNonneg_ge_one (a b : Nat) (hb : 0 < b) (hab : b ≤ a) :
    roundNonneg a b = JSNum.inf ∨ ∃ r : ℚ, roundNonneg a b = JSNum.num r ∧ 1 ≤ r := by
  unfold roundNonneg
  split
  · rename_i hbig
    cases hr : roundLarge a b with
    | none => exact Or.inl rfl
    | some k =>
      right
      refine ⟨k, rfl, ?_⟩
      unfold roundLarge at hr
      simp only [] at hr
      split at hr
      · injection hr with hk
        have hspec := scaleDown_spec a b 972 0 (by
          have : b * 2 ^ (52 + 0) ≤ b * 2 ^ 53 :=
            Nat.mul_le_mul_left b (Nat.pow_le_pow_right (by decide) (by decide))
          omega)
        generalize scaleDown a b 972 0 = sh at hk hspec
        have hpos : 0 < b * 2 ^ sh := by positivity
        have hle : b * 2 ^ sh ≤ a := by
          have : b * 2 ^ sh ≤ b * 2 ^ (52 + sh) :=
            Nat.mul_le_mul_left b (Nat.pow_le_pow_right (by decide) (by omega))
          omega
        have hm : 1 ≤ roundHalfEven a (b * 2 ^ sh) :=
          Nat.le_trans ((Nat.one_le_div_iff hpos).mpr hle) (roundHalfEven_ge _ _)
        have hk1 : 1 ≤ k := by
          rw [← hk]
          exact Nat.mul_pos hm (by positivity)
        exact_mod_cast hk1
      · exact absurd hr (by simp)
  · right
    refine ⟨_, rfl, ?_⟩
    generalize scaleUp a b 1074 0 = t
    have hpt : 0 < 2 ^ t := by positivity
    have hm : 2 ^ t ≤ roundHalfEven (a * 2 ^ t) b := by
      apply Nat.le_trans _ (roundHalfEven_ge _ _)
      rw [Nat.le_div_iff_mul_le hb]
      rw [Nat.mul_comm]
      exact Nat.mul_le_mul_right _ hab
    have hmq : ((2 ^ t : Nat) : ℚ) ≤ (roundHalfEven (a * 2 ^ t) b : ℚ) := by exact_mod_cast hm
    have hptq : (0:ℚ) < ((2 ^ t : Nat) : ℚ) := by exact_mod_cast hpt
    rw [le_div_iff₀ hptq]
    linarith

theorem roundF64_ge_one (q : ℚ) (h : 1 ≤ q) :
    roundF64 q = JSNum.inf ∨ ∃ r : ℚ, roundF64 q = JSNum.num r ∧ 1 ≤ r := by
  have h0 : 0 ≤ q := by linarith
  have hb : 0 < q.den := q.den_pos
  have hB : (0:ℚ) < q.den := by exact_mod_cast hb
  have hnum : ((q.num.natAbs : ℕ) : ℚ) = (q.num : ℚ) := by
    have : (0:ℤ) ≤ q.num := Rat.num_nonneg.mpr h0
    rw [← Int.cast_natCast, Int.natAbs_of_nonneg this]
  have hqd : ((q.num.natAbs : ℕ) : ℚ) / (q.den : ℚ) = q := by
    rw [hnum]; exact Rat.num_div_den q
  have hab : q.den ≤ q.num.natAbs := by
    have : (q.den : ℚ) ≤ ((q.num.natAbs : ℕ) : ℚ) := by
      rw [← hqd, le_div_iff₀ hB] at h; linarith
    exact_mod_cast this
  exact roundNonneg_ge_one _ _ hb hab

/-- The opacity: the double nearest to `level / 20` below level 20, and 1 from
level 20 on. -/
theorem opacityOf_natCast (l : Nat) :
    (20 ≤ l → opacityOf (JSNum.num (l : ℚ)) = JSNum.num 1) ∧
    (l < 20 → opacityOf (JSNum.num (l : ℚ)) = roundF64 ((l : ℚ) / 20) ∧
      ∃ r : ℚ, opacityOf (JSNum.num (l : ℚ)) = JSNum.num r ∧ 0 ≤ r ∧ r < 1 ∧
        |r - (l : ℚ) / 20| ≤ 1 / 2 ^ 54) := by
  have hdiv : (JSNum.num (l : ℚ)).div (JSNum.num 20) = roundF64 ((l : ℚ) / 20) := by
    simp only [JSNum.div]
    rw [if_neg (by norm_num), roundSigned_of_nonneg _ (by positivity)]
  constructor
  · intro h
    have hq : (1:ℚ) ≤ (l : ℚ) / 20 := by
      rw [le_div_iff₀ (by norm_num)]
      have : ((20 : Nat) : ℚ) ≤ (l : ℚ) := by exact_mod_cast h
      push_cast at this; linarith
    unfold opacityOf
    rw [hdiv]
    rcases roundF64_ge_one _ hq with hr | ⟨r, hr, h1⟩
    · rw [hr]; rfl
    · rw [hr]; simp only [JSNum.min, if_pos h1]
  · intro h
    have hq0 : (0:ℚ) ≤ (l : ℚ) / 20 := by positivity
    have hl19 : (l : ℚ) ≤ 19 := by
      have : l ≤ 19 := by omega
      exact_mod_cast this
    have hq1 : (l : ℚ) / 20 < 1 := by
      rw [div_lt_one (by norm_num)]; linarith
    rcases roundF64_err _ hq0 hq1 with ⟨r, hr, hr0, he⟩
    have he' := abs_le.mp he
    have hup : (l : ℚ) / 20 ≤ 19 / 20 := by
      rw [div_le_div_iff_of_pos_right (by norm_num)]; exact hl19
    have hr1 : r < 1 := by
      have : (19 : ℚ) / 20 + 1 / 2 ^ 54 < 1 := by norm_num
      linarith [he'.2]
    have hop : opacityOf (JSNum.num (l : ℚ)) = JSNum.num r := by
      unfold opacityOf
      rw [hdiv, hr]
      simp only [JSNum.min, if_neg (not_le.mpr hr1)]
    exact ⟨by rw [hop, hr], r, hop, hr0, hr1, he⟩

theorem gt_natCast (l n : Nat) :
    (JSNum.num (l : ℚ)).gt (JSNum.num (n : ℚ)) = decide (n < l) := by
  simp only [JSNum.gt]
  rw [decide_eq_decide]
  exact Nat.cast_lt

/-- Multiplying by `0.5` and dividing by `2` give the same double. -/
theorem mul_half_eq_div_two (x : JSNum) : x.mul (JSNum.num (1 / 2)) = x.div (JSNum.num 2) := by
  cases x with
  | num q =>
    simp only [JSNum.mul, JSNum.div]
    rw [if_neg (by norm_num)]
    congr 1
    ring
  | inf =>
    simp only [JSNum.mul, JSNum.div, infOfSign]
    norm_num
  | ninf =>
    simp only [JSNum.mul, JSNum.div, infOfSign]
    norm_num
  | nan => rfl

theorem gridShapes_ne_nil (rows cols : Nat) (z opacity offsetX offsetY : JSNum) :
    gridShapes rows cols z opacity offsetX offsetY ≠ [] := by
  intro h
  have hlen := congrArg List.length h
  simp [gridShapes] at hlen

/-! ## Facts about the cell rectangles -/

theorem getD_length_of_wellFormed (maze : List (List Nat)) (cols y : Nat)
    (hcols : ∀ row ∈ maze, row.length = cols) (hy : y < maze.length) :
    (maze.getD y []).length = cols := by
  have h : maze.getD y [] = maze[y] := by
    simp [List.getD, hy]
  rw [h]
  exact hcols _ (List.getElem_mem _)

theorem headD_length_of_wellFormed (maze : List (List Nat)) (cols : Nat)
    (hcols : ∀ row ∈ maze, row.length = cols) (hne : maze ≠ []) :
    (maze.headD []).length = cols := by
  cases maze with
  | nil => exact absurd rfl hne
  | cons row rest => exact hcols row (List.mem_cons_self _ _)

/-- The cell rectangles are exactly those of the cells with value 1. -/
theorem mem_cellShapes (maze : List (List Nat)) (cols : Nat)
    (hcols : ∀ row ∈ maze, row.length = cols) (z opacity offsetX offsetY : JSNum) (s : Shape) :
    s ∈ cellShapes maze z opacity offsetX offsetY ↔
      ∃ x y, y < maze.length ∧ x < cols ∧ (maze.getD y []).getD x 0 = 1 ∧
        s = cellShape z opacity offsetX offsetY x y := by
  unfold cellShapes
  constructor
  · intro h
    rcases List.mem_flatten.mp h with ⟨rowShapes, hrow, hs⟩
    rcases List.mem_map.mp hrow with ⟨y, hy, rfl⟩
    rcases List.mem_flatten.mp hs with ⟨one, hone, hs1⟩
    rcases List.mem_map.mp hone with ⟨x, hx, rfl⟩
    have hy' := List.mem_range.mp hy
    have hx' := List.mem_range.mp hx
    rw [getD_length_of_wellFormed maze cols y hcols hy'] at hx'
    by_cases hc : (maze.getD y []).getD x 0 = 1
    · rw [if_pos hc] at hs1
      exact ⟨x, y, hy', hx', hc, List.mem_singleton.mp hs1⟩
    · rw [if_neg hc] at hs1
      exact absurd hs1 (List.not_mem_nil _)
  · rintro ⟨x, y, hy, hx, hc, rfl⟩
    apply List.mem_flatten.mpr
    refine ⟨_, List.mem_map.mpr ⟨y, List.mem_range.mpr hy, rfl⟩, ?_⟩
    apply List.mem_flatten.mpr
    refine ⟨_, List.mem_map.mpr ⟨x, List.mem_range.mpr
      (by rw [getD_length_of_wellFormed maze cols y hcols hy]; exact hx), rfl⟩, ?_⟩
    rw [if_pos hc]
    exact List.mem_singleton.mpr rfl

theorem map_range_getD {α β : Type} (l : List α) (d : α) (F : Nat → α → β) :
    (List.range l.length).map (fun i => F i (l.getD i d)) = l.enum.map (fun p => F p.1 p.2) := by
  apply List.ext_getElem
  · simp
  · intro i h1 h2
    have hi : i < l.length := by simpa using h1
    simp [List.getD, hi]

theorem enum_map_snd {α β : Type} (l : List α) (F : α → β) :
    l.enum.map (fun p => F p.2) = l.map F := by
  apply List.ext_getElem
  · simp
  · intro i h1 h2
    simp

theorem row_shapes_length (row : List Nat) (g : Nat → Shape) :
    (((List.range row.length).map
      (fun x => if row.getD x 0 = 1 then [g x] else [])).flatten).length = row.count 1 := by
  induction row using List.reverseRecOn with
  | nil => rfl
  | append_singleton init c ih =>
    have hcongr : (List.range init.length).map
        (fun x => if (init ++ [c]).getD x 0 = 1 then [g x] else []) =
        (List.range init.length).map (fun x => if init.getD x 0 = 1 then [g x] else []) := by
      apply List.map_congr_left
      intro x hx
      have hx' := List.mem_range.mp hx
      have : (init ++ [c]).getD x 0 = init.getD x 0 := by
        simp [List.getD, List.getElem?_append_left hx']
      rw [this]
    have hlast : (init ++ [c]).getD init.length 0 = c := by
      simp [List.getD]
    rw [List.length_append, List.length_singleton, List.range_succ, List.map_append,
      List.flatten_append, List.length_append, hcongr, ih, List.count_append]
    simp only [List.map_cons, List.map_nil, List.flatten_cons, List.flatten_nil,
      List.append_nil, hlast]
    by_cases hc : c = 1
    · simp [hc]
    · have hb : (c == 1) = false := by simpa using hc
      simp [hc, List.count_cons, hb]

/-- There is one cell rectangle per cell with value 1. -/
theorem cellShapes_length (maze : List (List Nat)) (z opacity offsetX offsetY : JSNum) :
    (cellShapes maze z opacity offsetX offsetY).length = (maze.map (fun row => row.count 1)).sum := by
  unfold cellShapes
  rw [List.length_flatten, List.map_map]
  have h : (List.range maze.length).map
      (List.length ∘ fun y => ((List.range (maze.getD y []).length).map
        (fun x => if (maze.getD y []).getD x 0 = 1 then
          [cellShape z opacity offsetX offsetY x y] else [])).flatten) =
      (List.range maze.length).map (fun y => (maze.getD y []).count 1) := by
    apply List.map_congr_left
    intro y _
    simp only [Function.comp]
    exact row_shapes_length (maze.getD y []) (fun x => cellShape z opacity offsetX offsetY x y)
  rw [h, map_range_getD maze [] (fun _ row => row.count 1), enum_map_snd]

theorem createLabyrinthFromSeed_wellFormed (width height : Nat) (seed : JSNum) :
    (createLabyrinthFromSeed width height seed).maze.length =
      (createLabyrinthFromSeed width height seed).rows ∧
    ∀ row ∈ (createLabyrinthFromSeed width height seed).maze,
      row.length = (createLabyrinthFromSeed width height seed).cols := by
  have h := map_grid_shape
    (fun x y => cellOf ((seededRandom seed).output (y * (width / 2) + x)))
    (fun x y => cellOf_le_one _) (height / 2) (width / 2) _
    (createLabyrinthFromSeed_maze width height seed)
  exact ⟨h.1, fun row hrow => (h.2.1 row hrow).1⟩

theorem gridShapes_strokes (rows cols : Nat) (z opacity offsetX offsetY : JSNum) :
    ∀ s ∈ gridShapes rows cols z opacity offsetX offsetY,
      ∃ style lineWidth path, s = Shape.stroke style lineWidth path := by
  intro s hs
  unfold gridShapes at hs
  rcases List.mem_append.mp hs with h | h
  · rcases List.mem_map.mp h with ⟨y, _, rfl⟩
    exact ⟨_, _, _, rfl⟩
  · rcases List.mem_map.mp h with ⟨x, _, rfl⟩
    exact ⟨_, _, _, rfl⟩

/-! ## The grid as a function of the first state -/

theorem lcgExact_lt (k : Nat) (hk : k < 233280) (n : Nat) : lcgExact k n < 233280 := by
  cases n with
  | zero => exact hk
  | succ n => exact lcgExact_succ_lt k n

/-- From a first state that is an integer below 233280, the later states are
those of the exact recurrence started at it. -/
theorem after_of_first_state (r : Rng) (k : Nat) (hk : k < 233280)
    (h : (r.after 1).state = JSNum.num (k : ℚ)) :
    ∀ n, (r.after (n + 1)).state = JSNum.num (lcgExact k n : ℚ) := by
  intro n
  induction n with
  | zero => exact h
  | succ n ih => exact after_succ_exact r (n + 1) (lcgExact k n) (lcgExact_lt k hk n) ih

/-- The cell written from output `n` when the first state is `k`. -/
theorem cellOf_output_of_first_state (r : Rng) (k : Nat) (hk : k < 233280)
    (h : (r.after 1).state = JSNum.num (k : ℚ)) (n : Nat) :
    cellOf (r.output n) = if 116640 < lcgExact k n then 1 else 0 := by
  rw [output_eq, after_of_first_state r k hk h n]
  rcases div_state (lcgExact k n) (lcgExact_lt k hk n) with ⟨q, hq, _, _, _, hg⟩
  unfold cellOf
  rw [hq, hg]
  by_cases hc : 116640 < lcgExact k n <;> simp [hc]

/-- The maze is determined by the first state of the closure. -/
theorem createLabyrinthFromSeed_of_first_state (width height : Nat) (seed : JSNum) (k : Nat)
    (hk : k < 233280) (h : ((seededRandom seed).after 1).state = JSNum.num (k : ℚ)) :
    (createLabyrinthFromSeed width height seed).maze =
      (List.range (height / 2)).map
        (fun y => (List.range (width / 2)).map
          (fun x => if 116640 < lcgExact k (y * (width / 2) + x) then 1 else 0)) := by
  rw [createLabyrinthFromSeed_maze]
  simp only [cellOf_output_of_first_state _ k hk h]

theorem createLabyrinthFromSeed_eq_of_first_state (width height : Nat) (s t : JSNum) (k : Nat)
    (hk : k < 233280) (hs : ((seededRandom s).after 1).state = JSNum.num (k : ℚ))
    (ht : ((seededRandom t).after 1).state = JSNum.num (k : ℚ)) :
    createLabyrinthFromSeed width height s = createLabyrinthFromSeed width height t :=
  labyrinth_ext _ _
    (by rw [createLabyrinthFromSeed_of_first_state width height s k hk hs,
      createLabyrinthFromSeed_of_first_state width height t k hk ht]) rfl rfl rfl

theorem first_state_exact (s : Nat) (hs : s * 9301 + 49297 < 2 ^ 53) :
    ((seededRandom (JSNum.num (s : ℚ))).after 1).state =
      JSNum.num (((s * 9301 + 49297) % 233280 : Nat) : ℚ) :=
  call_exact s hs

/-- Every state below 233280 is the successor of a state below 233280:
`9301 * 123901 = 233280 * 4940 + 1`. -/
theorem lcg_preimage (k : Nat) (hk : k < 233280) :
    ∃ r, r < 233280 ∧ (r * 9301 + 49297) % 233280 = k := by
  refine ⟨((k + 183983) * 123901) % 233280, Nat.mod_lt _ (by decide), ?_⟩
  omega

/-- From the seed `2 ^ 53` the product and the sum of the first call are
rounded, and the first state is 45824. -/
theorem first_state_two_pow_53 :
    ((seededRandom (JSNum.num (2 ^ 53))).after 1).state = JSNum.num ((45824 : Nat) : ℚ) := by
  have hseed : JSNum.num ((2:ℚ) ^ 53) = JSNum.num ((9007199254740992 : Nat) : ℚ) := by norm_num
  have h1 : roundLarge (9007199254740992 * 9301) 1 = some 83775960268345966592 := by
    set_option maxRecDepth 100000 in decide
  have h2 : roundLarge (83775960268345966592 + 49297) 1 = some 83775960268346015744 := by
    set_option maxRecDepth 100000 in decide
  rw [hseed]
  show (Rng.call { state := JSNum.num ((9007199254740992 : Nat) : ℚ) }).2.state = _
  rw [call_eq, roundF64_natCast_large _ (by decide), h1]
  simp only []
  rw [add_natCast, roundF64_natCast_large _ (by decide), h2]
  simp only []
  rw [mod_natCast _ _ (by decide)]

theorem maze_two_pow_53 :
    (createLabyrinthFromSeed 6 4 (JSNum.num (2 ^ 53))).maze = [[0, 0, 0], [1, 0, 1]] := by
  rw [createLabyrinthFromSeed_of_first_state 6 4 _ 45824 (by decide) first_state_two_pow_53]
  decide

theorem maze_96512 :
    (createLabyrinthFromSeed 6 4 (JSNum.num ((96512 : Nat) : ℚ))).maze =
      [[0, 0, 1], [0, 0, 1]] := by
  rw [createLabyrinthFromSeed_of_first_state 6 4 _ 45969 (by decide)
    (first_state_exact 96512 (by decide))]
  decide

/-! ## The zoom rendering by kind of grid -/

/-- On a grid without rows `updateZoomedView` raises right after the clearing
rectangle: nothing else is painted and the overlay flag is left as it was. -/
theorem updateZoomedView_without_rows (st : SystemState) (data : Labyrinth)
    (hdata : st.labyrinthData = some data) (hmaze : data.maze = []) :
    st.updateZoomedView.threw = true ∧
    st.updateZoomedView.state.zoomedCanvas.ctx.painted =
      st.zoomedCanvas.ctx.painted ++ [clearShape st.zoomedCanvas.width st.zoomedCanvas.height] ∧
    st.updateZoomedView.state.zoomedViewActive = st.zoomedViewActive := by
  refine ⟨?_, ?_, ?_⟩
  · unfold SystemState.updateZoomedView
    simp only [hdata, hmaze, List.head?_nil]
  · unfold SystemState.updateZoomedView
    simp only [hdata, hmaze, List.head?_nil]
    rfl
  · unfold SystemState.updateZoomedView
    simp only [hdata, hmaze, List.head?_nil]

/-- The zoom quantities on a grid with at least one row, at an integer zoom
level `l ≥ 1`: `updateZoomedView` uses `zoomedCellSize = cellSize * (1 + (l - 1) / 2)` (the
same double as with `* 0.5`, and the exact value while `cellSize * (l + 1)`
stays below `2 ^ 51`), uses `opacity = Math.min(1, l / 20)` (1 from level 20
on, the double nearest to `l / 20` below), paints the grid lines after the
cells exactly when `l > 10`, and sets the overlay flag exactly when `l > 5`. -/
theorem zoom_level_quantities (st : SystemState) (data : Labyrinth) (l : Nat)
    (hdata : st.labyrinthData = some data) (hmaze : data.maze ≠ [])
    (hl : st.zoomLevel = (l : ℤ)) (h1 : 1 ≤ l) :
    zoomedCellSizeOf data.cellSize (JSNum.num (st.zoomLevel : ℚ)) =
      (JSNum.num data.cellSize).mul
        ((JSNum.num 1).add (((JSNum.num (l : ℚ)).sub (JSNum.num 1)).div (JSNum.num 2))) ∧
    (l < 2 ^ 50 → data.cellSize * (l + 1) < 2 ^ 51 →
      zoomedCellSizeOf data.cellSize (JSNum.num (st.zoomLevel : ℚ)) =
        JSNum.num ((data.cellSize : ℚ) * (1 + ((l : ℚ) - 1) / 2))) ∧
    opacityOf (JSNum.num (st.zoomLevel : ℚ)) =
      JSNum.min (JSNum.num 1) ((JSNum.num (l : ℚ)).div (JSNum.num 20)) ∧
    (20 ≤ l → opacityOf (JSNum.num (st.zoomLevel : ℚ)) = JSNum.num 1) ∧
    (l < 20 → opacityOf (JSNum.num (st.zoomLevel : ℚ)) = roundF64 ((l : ℚ) / 20) ∧
      ∃ r : ℚ, opacityOf (JSNum.num (st.zoomLevel : ℚ)) = JSNum.num r ∧ 0 ≤ r ∧ r < 1 ∧
        |r - (l : ℚ) / 20| ≤ 1 / 2 ^ 54) ∧
    st.updateZoomedView.state.zoomedCanvas.ctx.painted =
      st.zoomedCanvas.ctx.painted ++
        (clearShape st.zoomedCanvas.width st.zoomedCanvas.height ::
          cellShapes data.maze
            (zoomedCellSizeOf data.cellSize (JSNum.num (st.zoomLevel : ℚ)))
            (opacityOf (JSNum.num (st.zoomLevel : ℚ)))
            (offsetOf st.zoomedCanvas.width (data.maze.headD []).length
              (zoomedCellSizeOf data.cellSize (JSNum.num (st.zoomLevel : ℚ))))
            (offsetOf st.zoomedCanvas.height data.maze.length
              (zoomedCellSizeOf data.cellSize (JSNum.num (st.zoomLevel : ℚ)))) ++
          (if 10 < l then
            gridShapes data.maze.length (data.maze.headD []).length
              (zoomedCellSizeOf data.cellSize (JSNum.num (st.zoomLevel : ℚ)))
              (opacityOf (JSNum.num (st.zoomLevel : ℚ)))
              (offsetOf st.zoomedCanvas.width (data.maze.headD []).length
                (zoomedCellSizeOf data.cellSize (JSNum.num (st.zoomLevel : ℚ))))
              (offsetOf st.zoomedCanvas.height data.maze.length
                (zoomedCellSizeOf data.cellSize (JSNum.num (st.zoomLevel : ℚ))))
          else [])) ∧
    (∀ rows cols z opacity offsetX offsetY,
      gridShapes rows cols z opacity offsetX offsetY ≠ []) ∧
    st.updateZoomedView.state.zoomedViewActive = decide (5 < l) := by
  have hcast : ((st.zoomLevel : ℤ) : ℚ) = (l : ℚ) := by rw [hl]; simp
  have hp := updateZoomedView_painted st data hdata hmaze
  have hop := opacityOf_natCast l
  have hg10 : (JSNum.num ((st.zoomLevel : ℤ) : ℚ)).gt (JSNum.num 10) = decide (10 < l) := by
    rw [hcast]; exact gt_natCast l 10
  have hg5 : (JSNum.num ((st.zoomLevel : ℤ) : ℚ)).gt (JSNum.num 5) = decide (5 < l) := by
    rw [hcast]; exact gt_natCast l 5
  refine ⟨?_, ?_, ?_, ?_, ?_, ?_, gridShapes_ne_nil, ?_⟩
  · rw [hcast]
    unfold zoomedCellSizeOf
    rw [mul_half_eq_div_two]
  · intro hl50 hc
    rw [hcast]
    exact zoomedCellSizeOf_exact _ l h1 hl50 hc
  · rw [hcast]; rfl
  · rw [hcast]; exact hop.1
  · rw [hcast]; exact hop.2
  · rw [hp.2.1]
    unfold zoomPainting
    simp only [hg10, decide_eq_true_eq]
  · rw [hp.2.2.2.2, hg5]

theorem zoom_level_quantities_witness :
    (createLabyrinthFromSeed 8 8 (JSNum.num 1)).maze ≠ [] ∧ (1 : Nat) ≤ 1 ∧
    zoomedCellSizeOf (createLabyrinthFromSeed 8 8 (JSNum.num 1)).cellSize (JSNum.num ((1 : ℤ) : ℚ)) =
      JSNum.num (((createLabyrinthFromSeed 8 8 (JSNum.num 1)).cellSize : ℚ) *
        (1 + (((1 : Nat) : ℚ) - 1) / 2)) ∧
    opacityOf (JSNum.num ((1 : ℤ) : ℚ)) = roundF64 (((1 : Nat) : ℚ) / 20) ∧
    ({ SystemState.fresh 8 8 8 8 [] with
        labyrinthData := some (createLabyrinthFromSeed 8 8 (JSNum.num 1)) }
      ).updateZoomedView.state.zoomedViewActive = decide (5 < 1) ∧
    ({ SystemState.fresh 8 8 8 8 [] with
        labyrinthData := some (createLabyrinthFromSeed 8 8 (JSNum.num 1)), zoomLevel := 11 }
      ).updateZoomedView.state.zoomedViewActive = decide (5 < 11) :=
  have hm : (createLabyrinthFromSeed 8 8 (JSNum.num 1)).maze ≠ [] := by
    rw [createLabyrinthFromSeed_maze]; decide
  have h1 := zoom_level_quantities
    { SystemState.fresh 8 8 8 8 [] with
      labyrinthData := some (createLabyrinthFromSeed 8 8 (JSNum.num 1)) }
    (createLabyrinthFromSeed 8 8 (JSNum.num 1)) 1 rfl hm rfl (by decide)
  have h11 := zoom_level_quantities
    { SystemState.fresh 8 8 8 8 [] with
      labyrinthData := some (createLabyrinthFromSeed 8 8 (JSNum.num 1)), zoomLevel := 11 }
    (createLabyrinthFromSeed 8 8 (JSNum.num 1)) 11 rfl hm rfl (by decide)
  ⟨hm, by decide, h1.2.1 (by decide) (by decide), (h1.2.2.2.2.1 (by decide)).1,
    h1.2.2.2.2.2.2.2, h11.2.2.2.2.2.2.2⟩

/-! ## Claims on `compressBits` and `textToBits` -/

/-- C1: for a string over '0'/'1' and a block index `i` below `ceil(len/24)`, the
`i`-th character of `compressBits bits` is the last character of the `i`-th
block, `bits[min (24 i + 23) (len - 1)]`; hence any other bit string of the
same length with the same character at that position gives the same `i`-th
output character. -/
theorem compressBits_last_of_block (bits : List Char) (hb : IsBits bits) (i : Nat)
    (hi : i < (bits.length + 23) / 24) :
    min (24 * i + 23) (bits.length - 1) < bits.length ∧
    (compressBits bits)[i]? = bits[min (24 * i + 23) (bits.length - 1)]? ∧
    ∀ other : List Char, IsBits other → other.length = bits.length →
      other[min (24 * i + 23) (bits.length - 1)]? = bits[min (24 * i + 23) (bits.length - 1)]? →
      (compressBits other)[i]? = (compressBits bits)[i]? := by
  have h24 : 24 * i < bits.length := by omega
  have main : (compressBits bits)[i]? = bits[min (24 * i + 23) (bits.length - 1)]? := by
    rw [compressBits_getElem? bits i hi, blockChar_of_isBits bits hb i h24]
  refine ⟨by omega, main, ?_⟩
  intro other ho hlen hsame
  rw [main, compressBits_getElem? other i (by omega),
    blockChar_of_isBits other ho i (by omega), hlen, hsame]

theorem compressBits_last_of_block_witness :
    IsBits ['1', '0'] ∧ 0 < (['1', '0'].length + 23) / 24 ∧
    (compressBits ['1', '0'])[0]? = some '0' :=
  ⟨by decide, by decide,
    by simpa using (compressBits_last_of_block ['1', '0'] (by decide) 0 (by decide)).2.1⟩

/-- C2: for every string, `compressBits` returns exactly `ceil(len/24)` characters:
one per full block plus one for a trailing partial block, and none for the
empty string. -/
theorem compressBits_length_ceil (bits : List Char) :
    (compressBits bits).length = (bits.length + 23) / 24 ∧
    (bits.length + 23) / 24 = bits.length / 24 + (if bits.length % 24 = 0 then 0 else 1) ∧
    compressBits [] = [] := by
  refine ⟨compressBits_length bits, ?_, rfl⟩
  split <;> omega

/-- C3: for a text whose code units are all below 256, `textToBits` is the
in-order concatenation of the 8-character zero-padded binary groups, and the
group at `[8k, 8k+8)` read in base 2 is the code unit at index `k`. -/
theorem textToBits_groups (text : List Nat) (h : ∀ c ∈ text, c < 256) :
    textToBits text = (text.map byteBits).flatten ∧
    ∀ k, k < text.length →
      (substring (textToBits text) (8 * k) (8 * k + 8)).length = 8 ∧
      IsBits (substring (textToBits text) (8 * k) (8 * k + 8)) ∧
      some (binaryValue (substring (textToBits text) (8 * k) (8 * k + 8))) = text[k]? := by
  refine ⟨textToBits_eq text, ?_⟩
  intro k hk
  have hL : ∀ w ∈ text.map byteBits, w.length = 8 := by
    intro w hw
    rcases List.mem_map.mp hw with ⟨c, hc, rfl⟩
    exact (byteBits_small c (h c hc)).1
  have hblock : substring (textToBits text) (8 * k) (8 * k + 8) = byteBits text[k] := by
    rw [substring_eq, textToBits_eq, join_block _ hL k (by simpa using hk)]
    simp [List.getD, hk]
  have hc := byteBits_small text[k] (h _ (List.getElem_mem _))
  rw [hblock, List.getElem?_eq_getElem hk]
  exact ⟨hc.1, hc.2.2, by rw [hc.2.1]⟩

theorem textToBits_groups_witness :
    (∀ c ∈ [72, 105], c < 256) ∧
    textToBits [72, 105] = (List.map byteBits [72, 105]).flatten ∧
    some (binaryValue (substring (textToBits [72, 105]) (8 * 1) (8 * 1 + 8))) = some 105 :=
  ⟨by decide, (textToBits_groups [72, 105] (by decide)).1,
    ((textToBits_groups [72, 105] (by decide)).2 1 (by decide)).2.2⟩

/-- C4 (evaluation at the failing input): for the one-character text with code
unit 256, `textToBits` returns the nine characters "100000000", while
`updateInputBits` reports `8`. -/
theorem textToBits_length_256 :
    textToBits [256] = ['1', '0', '0', '0', '0', '0', '0', '0', '0'] ∧
    (textToBits [256]).length = 9 ∧ updateInputBits [256] = 8 := by
  decide

/-! ## Claims on `bitsToHex` -/

/-- C5: for a string over '0'/'1' and `k` below `ceil(len/4)`, the `k`-th
character of `bitsToHex bits` is the upper-case hexadecimal digit of the base-2
value of the `k`-th block of 4 bits, a shorter last block being padded on the
right with '0' (so "1" is read as "1000" and gives "8"). -/
theorem bitsToHex_digit (bits : List Char) (hb : IsBits bits) (k : Nat)
    (hk : k < (bits.length + 3) / 4) :
    nibbleAt bits (4 * k) =
      substring bits (4 * k) (4 * k + 4) ++
        List.replicate (4 - (substring bits (4 * k) (4 * k + 4)).length) '0' ∧
    (nibbleAt bits (4 * k)).length = 4 ∧
    binaryValue (nibbleAt bits (4 * k)) < 16 ∧
    (bitsToHex bits)[k]? = some (upperHexDigit (binaryValue (nibbleAt bits (4 * k)))) := by
  have hi : 4 * k < bits.length := by omega
  refine ⟨rfl, nibbleAt_length bits _ hi, (hexOut_of_isBits bits hb _ hi).2, ?_⟩
  rw [bitsToHex_eq bits hb]
  simp [List.getElem?_map, List.getElem?_range hk]

theorem bitsToHex_digit_witness :
    IsBits ['1'] ∧ 0 < (['1'].length + 3) / 4 ∧
    nibbleAt ['1'] (4 * 0) = ['1', '0', '0', '0'] ∧
    (bitsToHex ['1'])[0]? = some '8' :=
  ⟨by decide, by decide, by decide,
    by simpa using (bitsToHex_digit ['1'] (by decide) 0 (by decide)).2.2.2⟩

/-- C6: for a string over '0'/'1', `bitsToHex bits` has exactly `ceil(len/4)`
characters, each one of `0-9`, `A-F`; the empty string gives the empty string. -/
theorem bitsToHex_length_alphabet (bits : List Char) (hb : IsBits bits) :
    (bitsToHex bits).length = (bits.length + 3) / 4 ∧
    (∀ c ∈ bitsToHex bits,
      c ∈ ['0', '1', '2', '3', '4', '5', '6', '7', '8', '9', 'A', 'B', 'C', 'D', 'E', 'F']) ∧
    bitsToHex [] = [] := by
  refine ⟨by simp [bitsToHex_eq bits hb], ?_, rfl⟩
  intro c hc
  rw [bitsToHex_eq bits hb] at hc
  rcases List.mem_map.mp hc with ⟨k, hk, rfl⟩
  have hk4 : 4 * k < bits.length := by
    have := List.mem_range.mp hk; omega
  exact upperHexDigit_mem _ (hexOut_of_isBits bits hb _ hk4).2

theorem bitsToHex_length_alphabet_witness :
    IsBits ['1', '0', '1', '1', '0'] ∧
    (bitsToHex ['1', '0', '1', '1', '0']).length = (5 + 3) / 4 :=
  ⟨by decide, (bitsToHex_length_alphabet ['1', '0', '1', '1', '0'] (by decide)).1⟩

/-! ## Claims on the seed and on the generator -/

/-- C7 (counterexample): for the string of 54 ones, whose base-2 value is
`2 ^ 54 - 1`, the seed is the double `2 ^ 54`, not the value of the string. -/
theorem dataSeed_fifty_four_ones :
    IsBits (List.replicate 54 '1') ∧
    binaryValue (List.replicate 54 '1') = 2 ^ 54 - 1 ∧
    dataSeed (List.replicate 54 '1') = JSNum.num (2 ^ 54) ∧
    dataSeed (List.replicate 54 '1') ≠
      JSNum.num (binaryValue (List.replicate 54 '1') : ℚ) := by
  have hb : IsBits (List.replicate 54 '1') := by decide
  have hv : binaryValue (List.replicate 54 '1') = 18014398509481983 := by decide
  have hr : roundLarge 18014398509481983 1 = some 18014398509481984 := by
    set_option maxRecDepth 100000 in decide
  have hp : parseInt2 (List.replicate 54 '1') = JSNum.num ((18014398509481984 : Nat) : ℚ) := by
    rw [parseInt2_round _ hb (by decide), hv, roundF64_natCast_large _ (by decide), hr]
  have hs : dataSeed (List.replicate 54 '1') = JSNum.num ((18014398509481984 : Nat) : ℚ) := by
    unfold dataSeed JSNum.orElse
    rw [hp]
    simp [JSNum.truthy]
  refine ⟨hb, by rw [hv]; decide, ?_, ?_⟩
  · rw [hs]; norm_num
  · rw [hs, hv]; norm_num

/-- C7 (amended): for a string over '0'/'1' whose base-2 value is below `2 ^ 53`
(every string of at most 53 characters is one), the seed is that value when it
is non-zero and 12345 when the string is empty or its value is 0; the seed is
then a positive integer. -/
theorem dataSeed_of_small (bits : List Char) (hb : IsBits bits)
    (hv : bits.length ≤ 53 ∨ binaryValue bits < 2 ^ 53) :
    dataSeed bits =
      JSNum.num ((if binaryValue bits = 0 then 12345 else binaryValue bits : Nat) : ℚ) ∧
    0 < (if binaryValue bits = 0 then 12345 else binaryValue bits) ∧
    (bits = [] → dataSeed bits = JSNum.num 12345) := by
  have hv' : binaryValue bits < 2 ^ 53 := by
    rcases hv with h | h
    · exact Nat.lt_of_lt_of_le (binaryValue_lt bits) (Nat.pow_le_pow_right (by decide) h)
    · exact h
  have hnil : dataSeed [] = JSNum.num 12345 := by
    simp [dataSeed, JSNum.orElse, parseInt2, JSNum.truthy]
  refine ⟨?_, by split <;> omega, fun h => by rw [h, hnil]⟩
  by_cases hne : bits = []
  · subst hne
    rw [hnil]
    simp [binaryValue]
  · unfold dataSeed JSNum.orElse
    rw [parseInt2_of_isBits bits hb hne hv']
    by_cases h0 : binaryValue bits = 0
    · simp [JSNum.truthy, h0]
    · simp [JSNum.truthy, h0]

theorem dataSeed_of_small_witness :
    IsBits ['1', '0', '1'] ∧ (['1', '0', '1'].length ≤ 53 ∨ binaryValue ['1', '0', '1'] < 2 ^ 53) ∧
    dataSeed ['1', '0', '1'] =
      JSNum.num ((if binaryValue ['1', '0', '1'] = 0 then 12345
        else binaryValue ['1', '0', '1'] : Nat) : ℚ) :=
  ⟨by decide, Or.inl (by decide),
    (dataSeed_of_small ['1', '0', '1'] (by decide) (Or.inl (by decide))).1⟩

/-- C8 (counterexample): from the seed `2 ^ 53` the first state of the closure is
45824, while the exact recurrence gives 45969; the first returned value is not
the quotient of the exact state. -/
theorem seededRandom_first_state_two_pow_53 :
    ((seededRandom (JSNum.num (2 ^ 53))).after 1).state = JSNum.num 45824 ∧
    lcgExact (2 ^ 53) 1 = 45969 ∧
    (seededRandom (JSNum.num (2 ^ 53))).output 0 ≠
      (JSNum.num (lcgExact (2 ^ 53) 1 : ℚ)).div (JSNum.num 233280) := by
  have hseed : JSNum.num ((2:ℚ) ^ 53) = JSNum.num ((9007199254740992 : Nat) : ℚ) := by norm_num
  have h1 : roundLarge (9007199254740992 * 9301) 1 = some 83775960268345966592 := by
    set_option maxRecDepth 100000 in decide
  have h2 : roundLarge (83775960268345966592 + 49297) 1 = some 83775960268346015744 := by
    set_option maxRecDepth 100000 in decide
  have hstate : ((seededRandom (JSNum.num (2 ^ 53))).after 1).state =
      JSNum.num ((45824 : Nat) : ℚ) := by
    rw [hseed]
    show (Rng.call { state := JSNum.num ((9007199254740992 : Nat) : ℚ) }).2.state = _
    rw [call_eq, roundF64_natCast_large _ (by decide), h1]
    simp only []
    rw [add_natCast, roundF64_natCast_large _ (by decide), h2]
    simp only []
    rw [mod_natCast _ _ (by decide)]
  have hex : lcgExact (2 ^ 53) 1 = 45969 := by decide
  refine ⟨by rw [hstate]; norm_num, hex, ?_⟩
  rw [output_eq, hstate, hex]
  exact div_state_ne 45824 45969 (by decide) (by decide) (by decide)

/-- C8 (amended): for an integer seed below `2 ^ 1008`, every call `n + 1` of the
closure leaves an integer state `k` below 233280 and returns the double
`k / 233280`, which lies in `[0, 1)`; from the first call on the states follow
the recurrence `(k * 9301 + 49297) mod 233280` exactly; and when
`seed * 9301 + 49297 < 2 ^ 53` the recurrence also holds from `state 0 = seed`,
so that the state after `n` calls is `lcgExact seed n`. -/
theorem seededRandom_stream (s : Nat) (hs : s < 2 ^ 1008) :
    (∀ n, ∃ k : Nat, k < 233280 ∧
      ((seededRandom (JSNum.num (s : ℚ))).after (n + 1)).state = JSNum.num (k : ℚ) ∧
      (seededRandom (JSNum.num (s : ℚ))).output n = (JSNum.num (k : ℚ)).div (JSNum.num 233280) ∧
      (∃ r : ℚ, (seededRandom (JSNum.num (s : ℚ))).output n = JSNum.num r ∧ 0 ≤ r ∧ r < 1 ∧
        |r - (k : ℚ) / 233280| ≤ 1 / 2 ^ 54) ∧
      ((seededRandom (JSNum.num (s : ℚ))).after (n + 2)).state =
        JSNum.num (((k * 9301 + 49297) % 233280 : Nat) : ℚ)) ∧
    (s * 9301 + 49297 < 2 ^ 53 →
      ∀ n, ((seededRandom (JSNum.num (s : ℚ))).after n).state = JSNum.num (lcgExact s n : ℚ)) := by
  refine ⟨?_, fun h => after_state_exact s h⟩
  intro n
  rcases after_state_finite s hs n with ⟨k, hk, hstate⟩
  have hout : (seededRandom (JSNum.num (s : ℚ))).output n =
      (JSNum.num (k : ℚ)).div (JSNum.num 233280) := by
    rw [output_eq, hstate]
  rcases div_state k hk with ⟨r, hr, h0, h1, he, _⟩
  exact ⟨k, hk, hstate, hout, ⟨r, by rw [hout, hr], h0, h1, he⟩,
    after_succ_exact _ (n + 1) k hk hstate⟩

theorem seededRandom_stream_witness :
    12345 < 2 ^ 1008 ∧ 12345 * 9301 + 49297 < 2 ^ 53 ∧
    ((seededRandom (JSNum.num ((12345 : Nat) : ℚ))).after 2).state =
      JSNum.num (lcgExact 12345 2 : ℚ) :=
  have h : 12345 < 2 ^ 1008 :=
    Nat.lt_of_lt_of_le (by decide : 12345 < 2 ^ 14) (Nat.pow_le_pow_right (by decide) (by decide))
  ⟨h, by decide, (seededRandom_stream 12345 h).2 (by decide) 2⟩

/-- C9 (counterexample): from the seed `2 ^ 53`, on a surface of width 6 and
height 4 (3 columns, 2 rows), cell `(2, 0)` is 0 although state number
`0 * 3 + 2 + 1 = 3` of the recurrence started at the seed is 149183, which is
greater than 116640; the grid returned is `[[0, 0, 0], [1, 0, 1]]`. -/
theorem createLabyrinthFromSeed_cell_two_pow_53 :
    (createLabyrinthFromSeed 6 4 (JSNum.num (2 ^ 53))).cell 2 0 = some 0 ∧
    lcgExact (2 ^ 53) (0 * (6 / 2) + 2 + 1) = 149183 ∧
    116640 < lcgExact (2 ^ 53) (0 * (6 / 2) + 2 + 1) ∧
    (createLabyrinthFromSeed 6 4 (JSNum.num (2 ^ 53))).maze = [[0, 0, 0], [1, 0, 1]] := by
  refine ⟨?_, by decide, by decide, maze_two_pow_53⟩
  unfold Labyrinth.cell
  rw [maze_two_pow_53]
  rfl

/-- C9 (amended): for every width, height and integer seed, the maze of
`createLabyrinthFromSeed` is, row by row and column by column, the stream of
the closure created for this call: cell `(x, y)` is 1 if and only if output
number `y * cols + x + 1` is greater than `0.5`, that is if and only if the
state of the closure after that many calls is greater than 116640, and 0
otherwise; the grid is a function of width, height and seed alone. When
`seed * 9301 + 49297 < 2 ^ 53` that state is the one of the exact recurrence
started at the seed; for every seed below `2 ^ 1008` it is the one of the exact
recurrence started at the first state of the closure. -/
theorem createLabyrinthFromSeed_cell (width height s x y : Nat)
    (hx : x < width / 2) (hy : y < height / 2) :
    (createLabyrinthFromSeed width height (JSNum.num (s : ℚ))).cell x y =
      some (if ((seededRandom (JSNum.num (s : ℚ))).output (y * (width / 2) + x)).gt
        (JSNum.num (1 / 2)) then 1 else 0) ∧
    ((seededRandom (JSNum.num (s : ℚ))).output (y * (width / 2) + x)).gt (JSNum.num (1 / 2)) =
      ((seededRandom (JSNum.num (s : ℚ))).after (y * (width / 2) + x + 1)).state.gt
        (JSNum.num 116640) ∧
    (createLabyrinthFromSeed width height (JSNum.num (s : ℚ))).maze =
      (List.range (height / 2)).map
        (fun y => (List.range (width / 2)).map
          (fun x => cellOf ((seededRandom (JSNum.num (s : ℚ))).output (y * (width / 2) + x)))) ∧
    (s * 9301 + 49297 < 2 ^ 53 →
      ((createLabyrinthFromSeed width height (JSNum.num (s : ℚ))).cell x y = some 1 ↔
        116640 < lcgExact s (y * (width / 2) + x + 1))) ∧
    (s < 2 ^ 1008 → ∃ k : Nat, k < 233280 ∧
      ((seededRandom (JSNum.num (s : ℚ))).after 1).state = JSNum.num (k : ℚ) ∧
      ((createLabyrinthFromSeed width height (JSNum.num (s : ℚ))).cell x y = some 1 ↔
        116640 < lcgExact k (y * (width / 2) + x))) := by
  have hcell : (createLabyrinthFromSeed width height (JSNum.num (s : ℚ))).cell x y =
      some (cellOf ((seededRandom (JSNum.num (s : ℚ))).output (y * (width / 2) + x))) := by
    unfold Labyrinth.cell
    rw [createLabyrinthFromSeed_maze]
    exact cell_of_map
      (fun x y => cellOf ((seededRandom (JSNum.num (s : ℚ))).output (y * (width / 2) + x)))
      (height / 2) (width / 2) x y hx hy
  have hgt : ∀ n, ((seededRandom (JSNum.num (s : ℚ))).output n).gt (JSNum.num (1 / 2)) =
      ((seededRandom (JSNum.num (s : ℚ))).after (n + 1)).state.gt (JSNum.num 116640) := by
    intro n
    rw [output_eq]
    rcases after_state_cases s n with ⟨k, hk, h⟩ | h
    · rw [h]
      rcases div_state k hk with ⟨r, hr, _, _, _, hg⟩
      rw [hr, hg]
      simp only [JSNum.gt]
      rw [decide_eq_decide]
      constructor
      · intro hlt; exact_mod_cast hlt
      · intro hlt; exact_mod_cast hlt
    · rw [h]; rfl
  refine ⟨hcell, hgt _, createLabyrinthFromSeed_maze _ _ _, ?_, ?_⟩
  · intro hsmall
    rw [hcell]
    unfold cellOf
    rw [hgt, after_state_exact s hsmall]
    simp only [JSNum.gt]
    by_cases h : 116640 < lcgExact s (y * (width / 2) + x + 1)
    · have hq : (116640 : ℚ) < (lcgExact s (y * (width / 2) + x + 1) : ℚ) := by exact_mod_cast h
      simp [hq, h]
    · have hq : ¬ (116640 : ℚ) < (lcgExact s (y * (width / 2) + x + 1) : ℚ) := by
        intro hq; exact h (by exact_mod_cast hq)
      simp [hq, h]
  · intro hs
    rcases after_state_finite s hs 0 with ⟨k, hk, hfirst⟩
    refine ⟨k, hk, hfirst, ?_⟩
    rw [hcell, cellOf_output_of_first_state _ k hk hfirst]
    by_cases h : 116640 < lcgExact k (y * (width / 2) + x) <;> simp [h]

theorem createLabyrinthFromSeed_cell_witness :
    1 < 4 / 2 ∧ 0 < 2 / 2 ∧ 1 * 9301 + 49297 < 2 ^ 53 ∧
    ((createLabyrinthFromSeed 4 2 (JSNum.num ((1 : Nat) : ℚ))).cell 1 0 = some 1 ↔
      116640 < lcgExact 1 (0 * (4 / 2) + 1 + 1)) :=
  ⟨by decide, by decide, by decide,
    (createLabyrinthFromSeed_cell 4 2 1 1 0 (by decide) (by decide)).2.2.2.1 (by decide)⟩

/-- C10: for every width and height, every outcome of the sign test and every
seed, both `createComplexLabyrinth` and `createLabyrinthFromSeed` return a grid
with `cellSize = 2`, `cols = floor(width/2)`, `rows = floor(height/2)`, exactly
`rows` rows of exactly `cols` cells, every cell 0 or 1, and no cell when
`cols = 0` or `rows = 0`. -/
theorem labyrinth_shape (positive : Nat → Nat → Bool) (width height : Nat) (seed : JSNum) :
    GridShape (createComplexLabyrinth positive width height) width height ∧
    GridShape (createLabyrinthFromSeed width height seed) width height := by
  constructor
  · have h := map_grid_shape
      (fun x y => cryptoPattern positive x y (width / 2) (height / 2))
      (fun x y => cryptoPattern_le_one positive x y _ _) (height / 2) (width / 2) _
      (createComplexLabyrinth_maze positive width height)
    exact ⟨rfl, rfl, rfl, h.1, h.2.1, h.2.2⟩
  · have h := map_grid_shape
      (fun x y => cellOf ((seededRandom seed).output (y * (width / 2) + x)))
      (fun x y => cellOf_le_one _) (height / 2) (width / 2) _
      (createLabyrinthFromSeed_maze width height seed)
    exact ⟨rfl, rfl, rfl, h.1, h.2.1, h.2.2⟩

/-! ## Claims on the whole pipeline -/

/-- C11: for a one-character text with code unit `c` below 256, `textToBits`
gives 8 characters, `compressBits` of them is the single character of the
lowest bit of `c`, and `bitsToHex` of that is "8" for an odd `c` and "0" for an
even one; for "A" (code unit 65) the three results are "01000001", "1", "8". -/
theorem single_char_pipeline (c : Nat) (hc : c < 256) :
    (textToBits [c]).length = 8 ∧
    compressBits (textToBits [c]) = [if c % 2 = 1 then '1' else '0'] ∧
    bitsToHex (compressBits (textToBits [c])) = [if c % 2 = 1 then '8' else '0'] ∧
    textToBits [65] = ['0', '1', '0', '0', '0', '0', '0', '1'] ∧
    compressBits (textToBits [65]) = ['1'] ∧
    bitsToHex (compressBits (textToBits [65])) = ['8'] := by
  have h := single_char_bits c hc
  have h65 := single_char_bits 65 (by decide)
  refine ⟨h.1, h.2, ?_, by decide, by decide, ?_⟩
  · rw [h.2]
    split
    · exact bitsToHex_one
    · exact bitsToHex_zero
  · rw [h65.2]
    exact bitsToHex_one

theorem single_char_pipeline_witness :
    66 < 256 ∧ compressBits (textToBits [66]) = ['0'] ∧
    bitsToHex (compressBits (textToBits [66])) = ['0'] :=
  ⟨by decide, (single_char_pipeline 66 (by decide)).2.1,
    (single_char_pipeline 66 (by decide)).2.2.1⟩

/-- C18: for a text of length `n` with all code units below 256,
`compressBits (textToBits text)` has `ceil(n/3)` characters, the `i`-th being
the lowest bit of the code unit at index `min (3 i + 2) (n - 1)`; another such
text with the same number of blocks and the same parities at those indices
gives the same reduced bits, the same hex output, the same seed and the same
regenerated grid. -/
theorem compress_text_parity (text : List Nat) (h : ∀ c ∈ text, c < 256) :
    (compressBits (textToBits text)).length = (text.length + 2) / 3 ∧
    (∀ i, i < (text.length + 2) / 3 →
      (compressBits (textToBits text))[i]? =
        (text[min (3 * i + 2) (text.length - 1)]?).map
          (fun c => if c % 2 = 1 then '1' else '0')) ∧
    (∀ other : List Nat, (∀ c ∈ other, c < 256) →
      (other.length + 2) / 3 = (text.length + 2) / 3 →
      (∀ i, i < (text.length + 2) / 3 →
        (other[min (3 * i + 2) (other.length - 1)]?).map (fun c => c % 2) =
          (text[min (3 * i + 2) (text.length - 1)]?).map (fun c => c % 2)) →
      compressBits (textToBits other) = compressBits (textToBits text) ∧
      bitsToHex (compressBits (textToBits other)) = bitsToHex (compressBits (textToBits text)) ∧
      dataSeed (compressBits (textToBits other)) = dataSeed (compressBits (textToBits text)) ∧
      ∀ width height,
        generateLabyrinthFromData width height (compressBits (textToBits other)) =
          generateLabyrinthFromData width height (compressBits (textToBits text))) := by
  refine ⟨compress_text_length text h, fun i hi => compress_text_getElem? text h i hi, ?_⟩
  intro other ho hlen hpar
  have heq : compressBits (textToBits other) = compressBits (textToBits text) := by
    apply List.ext_getElem?
    intro i
    by_cases hi : i < (text.length + 2) / 3
    · rw [compress_text_getElem? text h i hi, compress_text_getElem? other ho i (by omega)]
      have hp := hpar i hi
      have h1 : min (3 * i + 2) (text.length - 1) < text.length := by omega
      have h2 : min (3 * i + 2) (other.length - 1) < other.length := by omega
      rw [List.getElem?_eq_getElem h1, List.getElem?_eq_getElem h2] at hp ⊢
      simp only [Option.map_some', Option.some.injEq] at hp ⊢
      rw [hp]
    · have l1 := compress_text_length text h
      have l2 := compress_text_length other ho
      rw [List.getElem?_eq_none (by omega), List.getElem?_eq_none (by omega)]
  exact ⟨heq, by rw [heq], by rw [heq], fun w ht => by rw [heq]⟩

theorem compress_text_parity_witness :
    (∀ c ∈ [72, 105, 33, 63], c < 256) ∧
    (compressBits (textToBits [72, 105, 33, 63])).length = (4 + 2) / 3 ∧
    (compressBits (textToBits [72, 105, 33, 63]))[1]? = some '1' := by
  have h := compress_text_parity [72, 105, 33, 63] (by decide)
  exact ⟨by decide, h.1, by simpa using h.2.1 1 (by decide)⟩

/-! ## Claims on the triggers -/

/-- C12: from every state, `encodeData` with an empty text field raises the
alert and returns with everything else as it was (grid, zoom level, readouts
and canvases included), without a `TypeError`; with a non-empty text field no
alert is raised. -/
theorem encodeData_validation (st : SystemState) :
    (st.dataInput = [] →
      st.encodeData = { state := { st with alerts := st.alerts + 1 }, threw := false } ∧
      st.encodeData.state.labyrinthData = st.labyrinthData ∧
      st.encodeData.state.zoomLevel = st.zoomLevel ∧
      st.encodeData.state.inputBits = st.inputBits ∧
      st.encodeData.state.outputBits = st.outputBits ∧
      st.encodeData.state.compressionRatio = st.compressionRatio ∧
      st.encodeData.state.encodedData = st.encodedData) ∧
    (st.dataInput ≠ [] → st.encodeData.state.alerts = st.alerts) := by
  constructor
  · intro h
    have he : st.encodeData = { state := { st with alerts := st.alerts + 1 }, threw := false } := by
      unfold SystemState.encodeData
      simp only [h, if_true]
    rw [he]
    exact ⟨rfl, rfl, rfl, rfl, rfl, rfl, rfl⟩
  · intro h
    unfold SystemState.encodeData
    simp only [if_neg h]
    rw [(updateZoomedView_frame _).2.2.2.2.2.2.2.2.2.2]
    rfl

theorem encodeData_validation_witness :
    (SystemState.fresh 8 8 8 8 []).dataInput = [] ∧
    (SystemState.fresh 8 8 8 8 []).encodeData.state.alerts = 1 ∧
    (SystemState.fresh 8 8 8 8 []).encodeData.state.labyrinthData = none ∧
    (SystemState.fresh 8 8 8 8 [65]).dataInput ≠ [] ∧
    (SystemState.fresh 8 8 8 8 [65]).encodeData.state.alerts = 0 :=
  ⟨rfl,
    by rw [((encodeData_validation (SystemState.fresh 8 8 8 8 [])).1 rfl).1]; rfl,
    by rw [((encodeData_validation (SystemState.fresh 8 8 8 8 [])).1 rfl).2.1]; rfl,
    by decide,
    by rw [(encodeData_validation (SystemState.fresh 8 8 8 8 [65])).2 (by decide)]; rfl⟩

/-- C13 (evaluation at the failing input): for the grid that
`createComplexLabyrinth` returns on a surface of height 1 or 0, which has no
row, `updateZoomedView` ends by raising a `TypeError`; in general it raises
exactly when `maze` has no row. -/
theorem updateZoomedView_raises_without_rows (st : SystemState)
    (positive : Nat → Nat → Bool) (width : Nat) (data : Labyrinth) :
    ({ st with labyrinthData := some (createComplexLabyrinth positive width 1) }
      ).updateZoomedView.threw = true ∧
    ({ st with labyrinthData := some (createComplexLabyrinth positive width 0) }
      ).updateZoomedView.threw = true ∧
    ({ st with labyrinthData := some data }).updateZoomedView.threw = decide (data.maze = []) := by
  refine ⟨?_, ?_, updateZoomedView_threw _ data rfl⟩
  · rw [updateZoomedView_threw _ _ rfl, createComplexLabyrinth_maze]
    rfl
  · rw [updateZoomedView_threw _ _ rfl, createComplexLabyrinth_maze]
    rfl

/-- C17: the zoom trigger sets the zoom level and leaves `labyrinthData` (maze,
cellSize, cols, rows) and the labyrinth canvas as they were, whether or not the
redraw raises; the text-input trigger and `updateInputBits` leave the grid, the
zoom level and both canvases as they were. -/
theorem triggers_keep_grid (st : SystemState) (level : Int) (text : List Nat) :
    (st.onZoomInput level).state.labyrinthData = st.labyrinthData ∧
    (st.onZoomInput level).state.zoomLevel = level ∧
    (st.onZoomInput level).state.labyrinthCanvas = st.labyrinthCanvas ∧
    (st.onZoomInput level).state.dataInput = st.dataInput ∧
    (st.updateInputBits text).labyrinthData = st.labyrinthData ∧
    (st.updateInputBits text).zoomLevel = st.zoomLevel ∧
    (st.updateInputBits text).labyrinthCanvas = st.labyrinthCanvas ∧
    (st.updateInputBits text).zoomedCanvas = st.zoomedCanvas ∧
    (st.updateInputBits text).zoomedViewActive = st.zoomedViewActive ∧
    (st.onDataInput text).labyrinthData = st.labyrinthData ∧
    (st.onDataInput text).zoomLevel = st.zoomLevel ∧
    (st.onDataInput text).inputBits = some (text.length * 8) := by
  have h := updateZoomedView_frame ({ st with zoomLevel := level }.updateZoomInfo)
  refine ⟨?_, ?_, ?_, ?_, rfl, rfl, rfl, rfl, rfl, rfl, rfl, rfl⟩
  · unfold SystemState.onZoomInput; rw [h.1]; rfl
  · unfold SystemState.onZoomInput; rw [h.2.1]; rfl
  · unfold SystemState.onZoomInput; rw [h.2.2.1]; rfl
  · unfold SystemState.onZoomInput; rw [h.2.2.2.1]; rfl

/-! ## Claims on the number of grids and on the ratio -/

/-- C19 (counterexample): the seeds `2 ^ 53` and 96512 are congruent modulo
233280, yet on a surface of width 6 and height 4 `createLabyrinthFromSeed`
returns `[[0, 0, 0], [1, 0, 1]]` for the first and `[[0, 0, 1], [0, 0, 1]]` for
the second. -/
theorem congruent_seeds_two_pow_53 :
    2 ^ 53 % 233280 = 96512 % 233280 ∧
    (createLabyrinthFromSeed 6 4 (JSNum.num (2 ^ 53))).maze = [[0, 0, 0], [1, 0, 1]] ∧
    (createLabyrinthFromSeed 6 4 (JSNum.num ((96512 : Nat) : ℚ))).maze =
      [[0, 0, 1], [0, 0, 1]] ∧
    createLabyrinthFromSeed 6 4 (JSNum.num (2 ^ 53)) ≠
      createLabyrinthFromSeed 6 4 (JSNum.num ((96512 : Nat) : ℚ)) := by
  refine ⟨by decide, maze_two_pow_53, maze_96512, ?_⟩
  intro h
  have hm := congrArg Labyrinth.maze h
  rw [maze_two_pow_53, maze_96512] at hm
  exact absurd hm (by decide)

/-- C19 (amended): two seeds congruent modulo 233280 whose first step is exact
(`seed * 9301 + 49297 < 2 ^ 53`) give the same grid for every width and height;
and the grid of every seed below `2 ^ 1008` is the grid of one of the 233280
seeds below 233280, so for a given shape at most 233280 distinct grids are
returned, however many bits the seed has. -/
theorem congruent_seeds_same_grid (width height s t : Nat)
    (h : s % 233280 = t % 233280)
    (hs : s * 9301 + 49297 < 2 ^ 53) (ht : t * 9301 + 49297 < 2 ^ 53) :
    createLabyrinthFromSeed width height (JSNum.num (s : ℚ)) =
      createLabyrinthFromSeed width height (JSNum.num (t : ℚ)) ∧
    (∀ u : Nat, u < 2 ^ 1008 → ∃ r : Nat, r < 233280 ∧
      createLabyrinthFromSeed width height (JSNum.num (u : ℚ)) =
        createLabyrinthFromSeed width height (JSNum.num (r : ℚ))) := by
  constructor
  · have hst : (t * 9301 + 49297) % 233280 = (s * 9301 + 49297) % 233280 := by omega
    have h2 := first_state_exact t ht
    rw [hst] at h2
    exact createLabyrinthFromSeed_eq_of_first_state width height _ _
      ((s * 9301 + 49297) % 233280) (Nat.mod_lt _ (by decide)) (first_state_exact s hs) h2
  · intro u hu
    rcases after_state_finite u hu 0 with ⟨k, hk, hfirst⟩
    rcases lcg_preimage k hk with ⟨r, hr, hrk⟩
    have h2 := first_state_exact r (small_state_bound r hr)
    rw [hrk] at h2
    exact ⟨r, hr, createLabyrinthFromSeed_eq_of_first_state width height _ _ k hk hfirst h2⟩

theorem congruent_seeds_same_grid_witness :
    5 % 233280 = 233285 % 233280 ∧ 5 * 9301 + 49297 < 2 ^ 53 ∧
    233285 * 9301 + 49297 < 2 ^ 53 ∧
    createLabyrinthFromSeed 6 4 (JSNum.num ((5 : Nat) : ℚ)) =
      createLabyrinthFromSeed 6 4 (JSNum.num ((233285 : Nat) : ℚ)) :=
  ⟨by decide, by decide, by decide,
    (congruent_seeds_same_grid 6 4 5 233285 (by decide) (by decide) (by decide)).1⟩

/-- C20: for a non-empty text the bit string and the reduced bit string are
non-empty, so the divisor of the ratio in `encodeData` is not zero; the ratio
`len(inputBits) / len(encodedBits)` is at most 24 and equals 24 exactly when
`len(inputBits)` is a multiple of 24, both as an exact quotient and (a string
having fewer than `2 ^ 53` characters) as the double that `encodeData` writes
to the ratio readout. -/
theorem compression_ratio_bound (text : List Nat) (hne : text ≠ []) :
    textToBits text ≠ [] ∧ compressBits (textToBits text) ≠ [] ∧
    ((compressBits (textToBits text)).length : ℚ) ≠ 0 ∧
    ((textToBits text).length : ℚ) / ((compressBits (textToBits text)).length : ℚ) ≤ 24 ∧
    (((textToBits text).length : ℚ) / ((compressBits (textToBits text)).length : ℚ) = 24 ↔
      0 < (textToBits text).length ∧ (textToBits text).length % 24 = 0) ∧
    (∀ st : SystemState, st.dataInput = text →
      st.encodeData.state.compressionRatio =
        some ((JSNum.num ((textToBits text).length : ℚ)).div
          (JSNum.num ((compressBits (textToBits text)).length : ℚ)))) ∧
    ((textToBits text).length < 2 ^ 53 →
      ∃ r : ℚ, (JSNum.num ((textToBits text).length : ℚ)).div
          (JSNum.num ((compressBits (textToBits text)).length : ℚ)) = JSNum.num r ∧
        r ≤ 24 ∧ (r = 24 ↔ 0 < (textToBits text).length ∧ (textToBits text).length % 24 = 0)) := by
  have htl : 0 < text.length := List.length_pos.mpr hne
  have hlen : 0 < (textToBits text).length := by
    have := textToBits_length_ge text; omega
  have hclen := compressBits_length (textToBits text)
  rcases ratio_exact _ hlen with ⟨hm0, hle, hiff⟩
  rw [← hclen] at hm0 hle hiff
  refine ⟨List.length_pos.mp hlen, ?_, hm0, hle, ?_, ?_, ?_⟩
  · apply List.length_pos.mp
    rw [hclen]; omega
  · rw [hiff]
    exact ⟨fun h => ⟨hlen, h⟩, fun h => h.2⟩
  · intro st hst
    unfold SystemState.encodeData
    simp only [hst, if_neg hne]
    rw [(updateZoomedView_frame _).2.2.2.2.2.2.1]
    rfl
  · intro hbig
    rcases ratio_double _ hlen hbig with ⟨r, hr, hr24, hriff⟩
    rw [← hclen] at hr
    exact ⟨r, hr, hr24, by rw [hriff]; exact ⟨fun h => ⟨hlen, h⟩, fun h => h.2⟩⟩

theorem compression_ratio_bound_witness :
    [72, 105, 33] ≠ [] ∧ compressBits (textToBits [72, 105, 33]) ≠ [] ∧
    ((textToBits [72, 105, 33]).length : ℚ) /
      ((compressBits (textToBits [72, 105, 33])).length : ℚ) ≤ 24 :=
  ⟨by decide, (compression_ratio_bound [72, 105, 33] (by decide)).2.1,
    (compression_ratio_bound [72, 105, 33] (by decide)).2.2.2.1⟩

/-! ## Claims on the zoom rendering -/

/-- C16: for a grid with at least one row, `updateZoomedView` paints the shapes
of `zoomPainting`, which depend only on the grid, the zoom level and the
surface size, and which begin with the opaque fill of the whole surface; what
is visible afterwards is therefore the same whatever was painted before, the
same from any other state with that grid, level and size, and the same after
a second call as after the first. -/
theorem updateZoomedView_idempotent (st : SystemState) (data : Labyrinth)
    (hdata : st.labyrinthData = some data) (hmaze : data.maze ≠ []) :
    st.updateZoomedView.state.zoomedCanvas.ctx.painted =
      st.zoomedCanvas.ctx.painted ++
        zoomPainting data st.zoomLevel st.zoomedCanvas.width st.zoomedCanvas.height ∧
    (zoomPainting data st.zoomLevel st.zoomedCanvas.width st.zoomedCanvas.height).head? =
      some (clearShape st.zoomedCanvas.width st.zoomedCanvas.height) ∧
    visible st.zoomedCanvas.width st.zoomedCanvas.height
        st.updateZoomedView.state.zoomedCanvas.ctx.painted =
      visible st.zoomedCanvas.width st.zoomedCanvas.height
        (zoomPainting data st.zoomLevel st.zoomedCanvas.width st.zoomedCanvas.height) ∧
    (∀ other : SystemState, other.labyrinthData = some data →
      other.zoomLevel = st.zoomLevel → other.zoomedCanvas.width = st.zoomedCanvas.width →
      other.zoomedCanvas.height = st.zoomedCanvas.height →
      visible st.zoomedCanvas.width st.zoomedCanvas.height
          other.updateZoomedView.state.zoomedCanvas.ctx.painted =
        visible st.zoomedCanvas.width st.zoomedCanvas.height
          st.updateZoomedView.state.zoomedCanvas.ctx.painted) ∧
    st.updateZoomedView.state.updateZoomedView.threw = false ∧
    st.updateZoomedView.state.updateZoomedView.state.zoomedCanvas.ctx.painted =
      st.updateZoomedView.state.zoomedCanvas.ctx.painted ++
        zoomPainting data st.zoomLevel st.zoomedCanvas.width st.zoomedCanvas.height ∧
    visible st.zoomedCanvas.width st.zoomedCanvas.height
        st.updateZoomedView.state.updateZoomedView.state.zoomedCanvas.ctx.painted =
      visible st.zoomedCanvas.width st.zoomedCanvas.height
        st.updateZoomedView.state.zoomedCanvas.ctx.painted ∧
    st.updateZoomedView.state.updateZoomedView.state.zoomedViewActive =
      st.updateZoomedView.state.zoomedViewActive := by
  have h1 := updateZoomedView_painted st data hdata hmaze
  have hf := updateZoomedView_frame st
  have hdata2 : st.updateZoomedView.state.labyrinthData = some data := by rw [hf.1, hdata]
  have h2 := updateZoomedView_painted st.updateZoomedView.state data hdata2 hmaze
  rw [hf.2.1, h1.2.2.1, h1.2.2.2.1] at h2
  have hvis := visible_after_zoomPainting data st.zoomLevel st.zoomedCanvas.width
    st.zoomedCanvas.height
  refine ⟨h1.2.1, rfl, ?_, ?_, h2.1, h2.2.1, ?_, ?_⟩
  · rw [h1.2.1, hvis]
  · intro other ho hl hw hh
    have h3 := updateZoomedView_painted other data ho hmaze
    rw [h3.2.1, h1.2.1, hl, hw, hh, hvis, hvis]
  · rw [h2.2.1, hvis, h1.2.1, hvis]
  · rw [h2.2.2.2.2, h1.2.2.2.2]

theorem updateZoomedView_idempotent_witness :
    ({ SystemState.fresh 8 8 8 8 [] with
        labyrinthData := some (createLabyrinthFromSeed 8 8 (JSNum.num 1)) }).labyrinthData =
      some (createLabyrinthFromSeed 8 8 (JSNum.num 1)) ∧
    (createLabyrinthFromSeed 8 8 (JSNum.num 1)).maze ≠ [] ∧
    visible 8 8
        ({ SystemState.fresh 8 8 8 8 [] with
          labyrinthData := some (createLabyrinthFromSeed 8 8 (JSNum.num 1)) }
          ).updateZoomedView.state.updateZoomedView.state.zoomedCanvas.ctx.painted =
      visible 8 8
        ({ SystemState.fresh 8 8 8 8 [] with
          labyrinthData := some (createLabyrinthFromSeed 8 8 (JSNum.num 1)) }
          ).updateZoomedView.state.zoomedCanvas.ctx.painted :=
  have hm : (createLabyrinthFromSeed 8 8 (JSNum.num 1)).maze ≠ [] := by
    rw [createLabyrinthFromSeed_maze]; decide
  ⟨rfl, hm,
    (updateZoomedView_idempotent
      { SystemState.fresh 8 8 8 8 [] with
        labyrinthData := some (createLabyrinthFromSeed 8 8 (JSNum.num 1)) }
      (createLabyrinthFromSeed 8 8 (JSNum.num 1)) rfl hm).2.2.2.2.2.2.1⟩

/-- C14 (evaluation at the failing input): on the grid that
`createComplexLabyrinth` returns for a surface of height 1, which has no row,
`updateZoomedView` at zoom level 11 raises a `TypeError` right after the
clearing rectangle: no grid line is painted and the overlay flag is left as it
was, inactive on a fresh page, although 11 is above 10 and above 5. In general
the grid lines and the flag follow the level exactly when the grid has a row:
then the shapes of `zoomPainting` are painted (with the grid lines when the
level is above 10) and the flag is set when the level is above 5. -/
theorem zoom_level_eleven_without_rows (positive : Nat → Nat → Bool) (width : Nat)
    (st : SystemState) (data : Labyrinth) :
    ({ st with labyrinthData := some (createComplexLabyrinth positive width 1), zoomLevel := 11 }
      ).updateZoomedView.threw = true ∧
    ({ st with labyrinthData := some (createComplexLabyrinth positive width 1), zoomLevel := 11 }
      ).updateZoomedView.state.zoomedCanvas.ctx.painted =
      st.zoomedCanvas.ctx.painted ++ [clearShape st.zoomedCanvas.width st.zoomedCanvas.height] ∧
    ({ st with labyrinthData := some (createComplexLabyrinth positive width 1), zoomLevel := 11 }
      ).updateZoomedView.state.zoomedViewActive = st.zoomedViewActive ∧
    ({ SystemState.fresh 8 1 8 8 [] with
        labyrinthData := some (createComplexLabyrinth positive 8 1), zoomLevel := 11 }
      ).updateZoomedView.state.zoomedCanvas.ctx.painted = [clearShape 8 8] ∧
    ({ SystemState.fresh 8 1 8 8 [] with
        labyrinthData := some (createComplexLabyrinth positive 8 1), zoomLevel := 11 }
      ).updateZoomedView.state.zoomedViewActive = false ∧
    (JSNum.num ((11 : ℤ) : ℚ)).gt (JSNum.num 10) = true ∧
    (JSNum.num ((11 : ℤ) : ℚ)).gt (JSNum.num 5) = true ∧
    ({ st with labyrinthData := some data }).updateZoomedView.state.zoomedCanvas.ctx.painted =
      st.zoomedCanvas.ctx.painted ++
        (if data.maze = [] then [clearShape st.zoomedCanvas.width st.zoomedCanvas.height]
        else zoomPainting data st.zoomLevel st.zoomedCanvas.width st.zoomedCanvas.height) ∧
    ({ st with labyrinthData := some data }).updateZoomedView.state.zoomedViewActive =
      (if data.maze = [] then st.zoomedViewActive
      else (JSNum.num (st.zoomLevel : ℚ)).gt (JSNum.num 5)) := by
  have hm : ∀ w, (createComplexLabyrinth positive w 1).maze = [] := by
    intro w
    rw [createComplexLabyrinth_maze]
    rfl
  have h1 := updateZoomedView_without_rows
    { st with labyrinthData := some (createComplexLabyrinth positive width 1), zoomLevel := 11 }
    (createComplexLabyrinth positive width 1) rfl (hm width)
  have h2 := updateZoomedView_without_rows
    { SystemState.fresh 8 1 8 8 [] with
      labyrinthData := some (createComplexLabyrinth positive 8 1), zoomLevel := 11 }
    (createComplexLabyrinth positive 8 1) rfl (hm 8)
  have g10 : (JSNum.num ((11 : ℤ) : ℚ)).gt (JSNum.num 10) = true := by
    simp only [JSNum.gt]; norm_num
  have g5 : (JSNum.num ((11 : ℤ) : ℚ)).gt (JSNum.num 5) = true := by
    simp only [JSNum.gt]; norm_num
  refine ⟨h1.1, h1.2.1, h1.2.2, h2.2.1, h2.2.2, g10, g5, ?_, ?_⟩
  · by_cases he : data.maze = []
    · rw [if_pos he]
      exact (updateZoomedView_without_rows { st with labyrinthData := some data } data rfl he).2.1
    · rw [if_neg he]
      exact (updateZoomedView_painted { st with labyrinthData := some data } data rfl he).2.1
  · by_cases he : data.maze = []
    · rw [if_pos he]
      exact (updateZoomedView_without_rows { st with labyrinthData := some data } data rfl he).2.2
    · rw [if_neg he]
      exact (updateZoomedView_painted { st with labyrinthData := some data } data rfl he).2.2.2.2

/-- C15: for a grid with at least one row, `rows` rows of `cols` cells, and
every integer zoom level, what `updateZoomedView` paints after the clearing
rectangle is one filled rectangle per cell `(x, y)` with value 1, row by row,
at `(offsetX + x * z, offsetY + y * z)` with size `z` by `z` and hue
`(x + y) mod 360`, followed only by strokes, all in double arithmetic with
`z = zoomedCellSize`, `offsetX = width / 2 - cols * z / 2` and
`offsetY = height / 2 - rows * z / 2`. For sizes within reach of a page (width,
height, the magnitude of the level, `cols * cellSize * (|level| + 1)` and
`rows * cellSize * (|level| + 1)` below `2 ^ 50`) these doubles are the exact
values, and the scaled grid is centred: the right margin
`width - offsetX - cols * z`, as a double and as an exact value, equals the
left margin `offsetX`, and likewise vertically. -/
theorem zoom_cell_rectangles (st : SystemState) (data : Labyrinth)
    (hdata : st.labyrinthData = some data) (hmaze : data.maze ≠ [])
    (hrows : data.maze.length = data.rows) (hcols : ∀ row ∈ data.maze, row.length = data.cols) :
    (∃ lines : List Shape,
      (∀ s ∈ lines, ∃ style lineWidth path, s = Shape.stroke style lineWidth path) ∧
      st.updateZoomedView.state.zoomedCanvas.ctx.painted =
        st.zoomedCanvas.ctx.painted ++
          (clearShape st.zoomedCanvas.width st.zoomedCanvas.height ::
            cellShapes data.maze (zoomedCellSizeOf data.cellSize (JSNum.num (st.zoomLevel : ℚ)))
              (opacityOf (JSNum.num (st.zoomLevel : ℚ)))
              (offsetOf st.zoomedCanvas.width data.cols
                (zoomedCellSizeOf data.cellSize (JSNum.num (st.zoomLevel : ℚ))))
              (offsetOf st.zoomedCanvas.height data.rows
                (zoomedCellSizeOf data.cellSize (JSNum.num (st.zoomLevel : ℚ)))) ++ lines)) ∧
    (∀ (z opacity offsetX offsetY : JSNum) (s : Shape),
      s ∈ cellShapes data.maze z opacity offsetX offsetY ↔
        ∃ x y, y < data.rows ∧ x < data.cols ∧ (data.maze.getD y []).getD x 0 = 1 ∧
          s = Shape.rect (Style.hsla ((x + y) % 360) 70 50 opacity)
            (offsetX.add ((JSNum.num x).mul z)) (offsetY.add ((JSNum.num y).mul z)) z z) ∧
    (∀ z opacity offsetX offsetY : JSNum,
      (cellShapes data.maze z opacity offsetX offsetY).length =
        (data.maze.map (fun row => row.count 1)).sum) ∧
    (st.zoomLevel.natAbs < 2 ^ 50 → data.cellSize * (st.zoomLevel.natAbs + 1) < 2 ^ 51 →
      st.zoomedCanvas.width < 2 ^ 50 → st.zoomedCanvas.height < 2 ^ 50 →
      data.cols * (data.cellSize * (st.zoomLevel.natAbs + 1)) < 2 ^ 50 →
      data.rows * (data.cellSize * (st.zoomLevel.natAbs + 1)) < 2 ^ 50 →
      zoomedCellSizeOf data.cellSize (JSNum.num (st.zoomLevel : ℚ)) =
        JSNum.num (exactCellSize data.cellSize st.zoomLevel) ∧
      offsetOf st.zoomedCanvas.width data.cols
          (zoomedCellSizeOf data.cellSize (JSNum.num (st.zoomLevel : ℚ))) =
        JSNum.num (exactOffset st.zoomedCanvas.width data.cols
          (exactCellSize data.cellSize st.zoomLevel)) ∧
      offsetOf st.zoomedCanvas.height data.rows
          (zoomedCellSizeOf data.cellSize (JSNum.num (st.zoomLevel : ℚ))) =
        JSNum.num (exactOffset st.zoomedCanvas.height data.rows
          (exactCellSize data.cellSize st.zoomLevel)) ∧
      (∀ x, x ≤ data.cols →
        (offsetOf st.zoomedCanvas.width data.cols
            (zoomedCellSizeOf data.cellSize (JSNum.num (st.zoomLevel : ℚ)))).add
          ((JSNum.num (x : ℚ)).mul
            (zoomedCellSizeOf data.cellSize (JSNum.num (st.zoomLevel : ℚ)))) =
        JSNum.num (exactOffset st.zoomedCanvas.width data.cols
            (exactCellSize data.cellSize st.zoomLevel) +
          (x : ℚ) * exactCellSize data.cellSize st.zoomLevel)) ∧
      (∀ y, y ≤ data.rows →
        (offsetOf st.zoomedCanvas.height data.rows
            (zoomedCellSizeOf data.cellSize (JSNum.num (st.zoomLevel : ℚ)))).add
          ((JSNum.num (y : ℚ)).mul
            (zoomedCellSizeOf data.cellSize (JSNum.num (st.zoomLevel : ℚ)))) =
        JSNum.num (exactOffset st.zoomedCanvas.height data.rows
            (exactCellSize data.cellSize st.zoomLevel) +
          (y : ℚ) * exactCellSize data.cellSize st.zoomLevel)) ∧
      ((JSNum.num (st.zoomedCanvas.width : ℚ)).sub
          (offsetOf st.zoomedCanvas.width data.cols
            (zoomedCellSizeOf data.cellSize (JSNum.num (st.zoomLevel : ℚ))))).sub
          ((JSNum.num (data.cols : ℚ)).mul
            (zoomedCellSizeOf data.cellSize (JSNum.num (st.zoomLevel : ℚ)))) =
        offsetOf st.zoomedCanvas.width data.cols
          (zoomedCellSizeOf data.cellSize (JSNum.num (st.zoomLevel : ℚ))) ∧
      ((JSNum.num (st.zoomedCanvas.height : ℚ)).sub
          (offsetOf st.zoomedCanvas.height data.rows
            (zoomedCellSizeOf data.cellSize (JSNum.num (st.zoomLevel : ℚ))))).sub
          ((JSNum.num (data.rows : ℚ)).mul
            (zoomedCellSizeOf data.cellSize (JSNum.num (st.zoomLevel : ℚ)))) =
        offsetOf st.zoomedCanvas.height data.rows
          (zoomedCellSizeOf data.cellSize (JSNum.num (st.zoomLevel : ℚ))) ∧
      exactOffset st.zoomedCanvas.width data.cols (exactCellSize data.cellSize st.zoomLevel) =
        (st.zoomedCanvas.width : ℚ) -
          exactOffset st.zoomedCanvas.width data.cols (exactCellSize data.cellSize st.zoomLevel) -
          (data.cols : ℚ) * exactCellSize data.cellSize st.zoomLevel ∧
      exactOffset st.zoomedCanvas.height data.rows (exactCellSize data.cellSize st.zoomLevel) =
        (st.zoomedCanvas.height : ℚ) -
          exactOffset st.zoomedCanvas.height data.rows
            (exactCellSize data.cellSize st.zoomLevel) -
          (data.rows : ℚ) * exactCellSize data.cellSize st.zoomLevel) := by
  have hp := updateZoomedView_painted st data hdata hmaze
  have hhead := headD_length_of_wellFormed data.maze data.cols hcols hmaze
  refine ⟨?_, ?_, fun z op ox oy => cellShapes_length data.maze z op ox oy, ?_⟩
  · refine ⟨if (JSNum.num (st.zoomLevel : ℚ)).gt (JSNum.num 10) then
        gridShapes data.rows data.cols
          (zoomedCellSizeOf data.cellSize (JSNum.num (st.zoomLevel : ℚ)))
          (opacityOf (JSNum.num (st.zoomLevel : ℚ)))
          (offsetOf st.zoomedCanvas.width data.cols
            (zoomedCellSizeOf data.cellSize (JSNum.num (st.zoomLevel : ℚ))))
          (offsetOf st.zoomedCanvas.height data.rows
            (zoomedCellSizeOf data.cellSize (JSNum.num (st.zoomLevel : ℚ))))
      else [], ?_, ?_⟩
    · intro s hs
      split at hs
      · exact gridShapes_strokes _ _ _ _ _ _ s hs
      · exact absurd hs (List.not_mem_nil _)
    · rw [hp.2.1]
      unfold zoomPainting
      simp only [hhead, hrows]
  · intro z op ox oy s
    rw [mem_cellShapes data.maze data.cols hcols, hrows]
    rfl
  · intro hl50 hc hw hh hcw hrh
    have p50 : (2:ℤ) ^ 50 = 1125899906842624 := by norm_num
    have p51 : (2:ℤ) ^ 51 = 2251799813685248 := by norm_num
    have hlz : |st.zoomLevel| < 2 ^ 50 := by
      rw [← Int.natCast_natAbs]; exact_mod_cast hl50
    have hbound : ∀ n : Nat, n * (data.cellSize * (st.zoomLevel.natAbs + 1)) < 2 ^ 50 →
        |(n : ℤ) * ((data.cellSize : ℤ) * (st.zoomLevel + 1))| < 2 ^ 50 := by
      intro n hn
      have hnz : ((n * (data.cellSize * (st.zoomLevel.natAbs + 1)) : Nat) : ℤ) < 2 ^ 50 := by
        exact_mod_cast hn
      exact lt_of_le_of_lt (abs_scaled_le n data.cellSize st.zoomLevel) hnz
    have hpz : |(data.cellSize : ℤ) * (st.zoomLevel + 1)| < 2 ^ 51 := by
      have h1 := abs_scaled_le 1 data.cellSize st.zoomLevel
      have h2 : ((1 * (data.cellSize * (st.zoomLevel.natAbs + 1)) : Nat) : ℤ) < 2 ^ 51 := by
        exact_mod_cast (by omega : 1 * (data.cellSize * (st.zoomLevel.natAbs + 1)) < 2 ^ 51)
      have h3 : ((1 : Nat) : ℤ) * ((data.cellSize : ℤ) * (st.zoomLevel + 1)) =
          (data.cellSize : ℤ) * (st.zoomLevel + 1) := by simp
      rw [h3] at h1
      exact lt_of_le_of_lt h1 h2
    have hz : zoomedCellSizeOf data.cellSize (JSNum.num (st.zoomLevel : ℚ)) =
        JSNum.num (exactCellSize data.cellSize st.zoomLevel) :=
      zoomedCellSizeOf_exact_int data.cellSize st.zoomLevel _ rfl hlz hpz
    have hq : ∀ n : Nat, (n : ℚ) * exactCellSize data.cellSize st.zoomLevel =
        (((n : ℤ) * ((data.cellSize : ℤ) * (st.zoomLevel + 1)) : ℤ) : ℚ) / 2 := by
      intro n
      unfold exactCellSize
      push_cast
      ring
    have hmono : ∀ x n : Nat, x ≤ n →
        n * (data.cellSize * (st.zoomLevel.natAbs + 1)) < 2 ^ 50 →
        x * (data.cellSize * (st.zoomLevel.natAbs + 1)) < 2 ^ 50 := by
      intro x n hx hn
      exact lt_of_le_of_lt (Nat.mul_le_mul_right _ hx) hn
    have hox := offsetOf_exact_int st.zoomedCanvas.width data.cols _ _ (hq data.cols)
      (hbound _ hcw) hw
    have hoy := offsetOf_exact_int st.zoomedCanvas.height data.rows _ _ (hq data.rows)
      (hbound _ hrh) hh
    refine ⟨hz, ?_, ?_, ?_, ?_, ?_, ?_, ?_, ?_⟩
    · rw [hz, hox]; rfl
    · rw [hz, hoy]; rfl
    · intro x hx
      rw [hz, hox]
      exact position_exact_int st.zoomedCanvas.width data.cols x _ _ _ _ (hq data.cols) (hq x) rfl
        (hbound _ hcw) (hbound _ (hmono x data.cols hx hcw)) hw
    · intro y hy
      rw [hz, hoy]
      exact position_exact_int st.zoomedCanvas.height data.rows y _ _ _ _ (hq data.rows) (hq y)
        rfl (hbound _ hrh) (hbound _ (hmono y data.rows hy hrh)) hh
    · rw [hz, hox]
      exact margin_exact_int st.zoomedCanvas.width data.cols _ _ _ (hq data.cols) rfl
        (hbound _ hcw) hw
    · rw [hz, hoy]
      exact margin_exact_int st.zoomedCanvas.height data.rows _ _ _ (hq data.rows) rfl
        (hbound _ hrh) hh
    · unfold exactOffset; ring
    · unfold exactOffset; ring

theorem zoom_cell_rectangles_witness :
    (createLabyrinthFromSeed 8 8 (JSNum.num 1)).maze ≠ [] ∧
    offsetOf 8 (createLabyrinthFromSeed 8 8 (JSNum.num 1)).cols
        (zoomedCellSizeOf (createLabyrinthFromSeed 8 8 (JSNum.num 1)).cellSize
          (JSNum.num ((3 : ℤ) : ℚ))) =
      JSNum.num (exactOffset 8 (createLabyrinthFromSeed 8 8 (JSNum.num 1)).cols
        (exactCellSize (createLabyrinthFromSeed 8 8 (JSNum.num 1)).cellSize 3)) :=
  have hm : (createLabyrinthFromSeed 8 8 (JSNum.num 1)).maze ≠ [] := by
    rw [createLabyrinthFromSeed_maze]; decide
  have hw := createLabyrinthFromSeed_wellFormed 8 8 (JSNum.num 1)
  ⟨hm,
    ((zoom_cell_rectangles
      { SystemState.fresh 8 8 8 8 [] with
        labyrinthData := some (createLabyrinthFromSeed 8 8 (JSNum.num 1)), zoomLevel := 3 }
      (createLabyrinthFromSeed 8 8 (JSNum.num 1)) rfl hm hw.1 hw.2).2.2.2
        (by decide) (by decide) (by decide) (by decide) (by decide) (by decide)).2.1⟩

end NanoQR
